import Mathlib

/-!
# Meta sequences of the Prolly tree (`go/store/types/meta_sequence.go`)

A shallow embedding of the internal-node layer: ordered keys, meta tuples,
meta sequences, their builder, the per-index accessors, `search`, the
cumulative leaf count and the hydration of children.

Conventions of the embedding.

* A Go panic is `none`; a function that can panic returns an `Option`.
* `uint32` and `uint64` arithmetic is arithmetic on `Nat` reduced modulo
  `2^32` and `2^64` (`u32`, `u64`).
* The value codec (`codec.go`, `value_decoder.go`, the encodings of values and
  refs) is not part of the source files at hand.  It is a parameter, the
  structure `Codec`; what a theorem needs of it is a hypothesis (`Codec.Lawful`,
  `Codec.validRef`).  `toyCodec` is a small instance used to evaluate the
  definitions on concrete buffers.
-/

namespace types

/-! ## Bytes, hashes, machine integers -/

abbrev Byte := Fin 256

/-- The Go type `NomsKind` is a `uint8`. -/
abbrev NomsKind := Byte

/-- A `*NomsBinFormat`: an opaque tag. -/
abbrev Format := Nat

/-- Reduction to `uint32`. -/
def u32 (n : Nat) : Nat := n % 2 ^ 32

/-- Reduction to `uint64`. -/
def u64 (n : Nat) : Nat := n % 2 ^ 64

/-- The Go type `hash.Hash`, a `[20]byte`. -/
structure Hash where
  bytes : List Byte
  len : bytes.length = 20
deriving DecidableEq

/-- The zero value `hash.Hash{}`. -/
def emptyHash : Hash := ⟨List.replicate 20 0, by simp⟩

/-- `Hash.IsEmpty`: the digest equals the zero digest. -/
def Hash.IsEmpty (h : Hash) : Bool := decide (h = emptyHash)

/-- `bytes.Compare(a, b) < 0`: the lexicographic order on byte strings. -/
def bytesLess : List Byte → List Byte → Bool
  | [], [] => false
  | [], _ :: _ => true
  | _ :: _, [] => false
  | a :: as, b :: bs =>
    if a < b then true else if b < a then false else bytesLess as bs

/-- `Hash.Less`: `bytes.Compare(h[:], other[:]) < 0`. -/
def Hash.Less (h other : Hash) : Bool := bytesLess h.bytes other.bytes

/-! ## The value codec, a parameter -/

/-- The parts of the value codec and of the kind table that `meta_sequence.go`
uses and that the source files at hand do not contain.  `readValue`,
`readCount`, `skipValue` and `skipRef` receive the bytes at the decoder's
position and return what was read together with the number of bytes consumed;
`none` is a panic of the decoder. -/
structure Codec (Value : Type) where
  ListKind : NomsKind
  MapKind : NomsKind
  SetKind : NomsKind
  hashKind : NomsKind
  isKindOrderedByValue : NomsKind → Bool
  valueKind : Value → NomsKind
  valueLess : Format → Value → Value → Bool
  valueHash : Format → Value → Hash
  encValue : Format → Value → List Byte
  encCount : Nat → List Byte
  readValue : Format → List Byte → Option (Value × Nat)
  readCount : List Byte → Option (Nat × Nat)
  skipValue : Format → List Byte → Option Nat
  skipRef : List Byte → Option Nat
  targetHash : List Byte → Hash

/-- The contract of the codec: readers and skippers invert the writers, a value
is written with its kind byte first, and the hash tag is the kind of no
value. -/
structure Codec.Lawful {Value : Type} (C : Codec Value) : Prop where
  readCount_enc : ∀ n rest, n < 2 ^ 64 →
    C.readCount (C.encCount n ++ rest) = some (n, (C.encCount n).length)
  readValue_enc : ∀ F v rest,
    C.readValue F (C.encValue F v ++ rest) = some (v, (C.encValue F v).length)
  skipValue_enc : ∀ F v rest,
    C.skipValue F (C.encValue F v ++ rest) = some (C.encValue F v).length
  encValue_head : ∀ F v, (C.encValue F v).head? = some (C.valueKind v)
  valueKind_ne_hashKind : ∀ v, C.valueKind v ≠ C.hashKind

/-- The bytes `r` are the encoding of a ref: `skipRef` and `skipValue` step over
exactly these bytes, whatever follows them. -/
def Codec.validRef {Value : Type} (C : Codec Value) (r : List Byte) : Prop :=
  ∀ rest, C.skipRef (r ++ rest) = some r.length ∧
    ∀ F, C.skipValue F (r ++ rest) = some r.length

/-! ## The binary writer and the value decoder -/

/-- Modelled from the spec: `binaryNomsWriter` (codec.go), the binary writer that
"produces the compact node encoding" and "records part offsets".  It appends
bytes and keeps the `uint32` offset of the next byte. -/
structure binaryNomsWriter where
  buff : List Byte
  offset : Nat

def newBinaryNomsWriter : binaryNomsWriter := ⟨[], 0⟩

def binaryNomsWriter.writeRaw (w : binaryNomsWriter) (bs : List Byte) : binaryNomsWriter :=
  ⟨w.buff ++ bs, u32 (w.offset + bs.length)⟩

/-- The Go method `data()` returns `buff[0:offset]`. -/
def binaryNomsWriter.data (w : binaryNomsWriter) : List Byte := w.buff.take w.offset

def binaryNomsWriter.writeCount {Value : Type} (C : Codec Value) (w : binaryNomsWriter)
    (v : Nat) : binaryNomsWriter :=
  w.writeRaw (C.encCount v)

def binaryNomsWriter.writeHash (w : binaryNomsWriter) (h : Hash) : binaryNomsWriter :=
  w.writeRaw h.bytes

/-- The Go method `NomsKind.writeTo` writes the kind as one byte. -/
def NomsKind_writeTo (kind : NomsKind) (w : binaryNomsWriter) : binaryNomsWriter :=
  w.writeRaw [kind]

/-- Modelled from the spec: `valueDecoder` (value_decoder.go), the binary reader
that "consumes the compact node encoding": a buffer and the `uint32` offset of
the next byte to read. -/
structure valueDecoder where
  buff : List Byte
  offset : Nat
deriving DecidableEq

def newValueDecoder (buff : List Byte) : valueDecoder := ⟨buff, 0⟩

/-- The bytes from the decoder's position on. -/
def valueDecoder.rest (dec : valueDecoder) : List Byte := dec.buff.drop dec.offset

def valueDecoder.advance (dec : valueDecoder) (n : Nat) : valueDecoder :=
  ⟨dec.buff, u32 (dec.offset + n)⟩

def valueDecoder.readCount {Value : Type} (C : Codec Value) (dec : valueDecoder) :
    Option (Nat × valueDecoder) :=
  match C.readCount dec.rest with
  | some (n, k) => some (n, dec.advance k)
  | none => none

def valueDecoder.skipCount {Value : Type} (C : Codec Value) (dec : valueDecoder) :
    Option valueDecoder :=
  match C.readCount dec.rest with
  | some (_, k) => some (dec.advance k)
  | none => none

def valueDecoder.skipRef {Value : Type} (C : Codec Value) (dec : valueDecoder) :
    Option valueDecoder :=
  match C.skipRef dec.rest with
  | some k => some (dec.advance k)
  | none => none

def valueDecoder.skipValue {Value : Type} (C : Codec Value) (dec : valueDecoder)
    (nbf : Format) : Option valueDecoder :=
  match C.skipValue nbf dec.rest with
  | some k => some (dec.advance k)
  | none => none

def valueDecoder.readValue {Value : Type} (C : Codec Value) (dec : valueDecoder)
    (nbf : Format) : Option (Value × valueDecoder) :=
  match C.readValue nbf dec.rest with
  | some (v, k) => some (v, dec.advance k)
  | none => none

/-- The kind byte at the decoder's position; reading past the end panics. -/
def valueDecoder.peekKind (dec : valueDecoder) : Option NomsKind := dec.rest.head?

def valueDecoder.readKind (dec : valueDecoder) : Option (NomsKind × valueDecoder) :=
  match dec.rest.head? with
  | some k => some (k, dec.advance 1)
  | none => none

def valueDecoder.skipKind (dec : valueDecoder) : valueDecoder := dec.advance 1

/-- The next 20 bytes as a digest; fewer than 20 bytes left is a panic. -/
def valueDecoder.readHash (dec : valueDecoder) : Option (Hash × valueDecoder) :=
  if h : (dec.rest.take 20).length = 20 then some (⟨dec.rest.take 20, h⟩, dec.advance 20)
  else none

def valueDecoder.skipHash (dec : valueDecoder) : Option valueDecoder :=
  if (dec.rest.take 20).length = 20 then some (dec.advance 20) else none

/-- The Go slice expression `buff[start:end]`, which panics unless
`start <= end <= len(buff)`. -/
def valueDecoder.byteSlice (dec : valueDecoder) (start stop : Nat) : Option (List Byte) :=
  if start ≤ stop ∧ stop ≤ dec.buff.length then some ((dec.buff.drop start).take (stop - start))
  else none

/-! ## Refs and ordered keys -/

/-- The Go type `Ref`, a `valueImpl`: the encoded bytes (`nil` for the zero
ref) and the format they were written under. -/
structure Ref where
  buff : Option (List Byte)
  nbf : Format
deriving DecidableEq

def Ref.format (r : Ref) : Format := r.nbf

/-- The Go method `valueImpl.writeTo` writes the raw bytes of the value. -/
def Ref.writeTo (r : Ref) (w : binaryNomsWriter) : binaryNomsWriter :=
  w.writeRaw (r.buff.getD [])

def Ref.TargetHash {Value : Type} (C : Codec Value) (r : Ref) : Hash :=
  C.targetHash (r.buff.getD [])

/-- Modelled from the spec: `valueDecoder.readRef` (value_decoder.go), the
codec's `read_ref`: it skips one ref and returns the bytes skipped as a `Ref`
of the given format. -/
def valueDecoder.readRef {Value : Type} (C : Codec Value) (dec : valueDecoder)
    (nbf : Format) : Option (Ref × valueDecoder) :=
  match dec.skipRef C with
  | none => none
  | some dec1 =>
    match dec.byteSlice dec.offset dec1.offset with
    | none => none
    | some bs => some (⟨some bs, nbf⟩, dec1)

/-- The Go struct `orderedKey`; `v` is an interface value and may be nil. -/
structure orderedKey (Value : Type) where
  isOrderedByValue : Bool
  v : Option Value
  h : Hash
deriving DecidableEq

/-- The Go variable `emptyKey = orderedKey{}`. -/
def emptyKey {Value : Type} : orderedKey Value := ⟨false, none, emptyHash⟩

def newOrderedKey {Value : Type} (C : Codec Value) (v : Value) (nbf : Format) :
    orderedKey Value :=
  if C.isKindOrderedByValue (C.valueKind v) then ⟨true, some v, emptyHash⟩
  else ⟨false, some v, C.valueHash nbf v⟩

def orderedKeyFromHash {Value : Type} (h : Hash) : orderedKey Value := ⟨false, none, h⟩

/-- The Go method `orderedKey.Less`.  Calling `Less` on a nil `v` panics, and so
does the comparison of two hash-ordered keys one of which has an empty
digest. -/
def orderedKey.Less {Value : Type} (C : Codec Value) (key : orderedKey Value) (nbf : Format)
    (mk2 : orderedKey Value) : Option Bool :=
  if key.isOrderedByValue && mk2.isOrderedByValue then
    match key.v, mk2.v with
    | some a, some b => some (C.valueLess nbf a b)
    | _, _ => none
  else if key.isOrderedByValue then some true
  else if mk2.isOrderedByValue then some false
  else if key.h.IsEmpty || mk2.h.IsEmpty then none
  else some (key.h.Less mk2.h)

/-- The comparison of `a` with `b` is defined: `Less` dereferences no nil value
and compares no empty digest. -/
def orderedKey.comparable {Value : Type} (a b : orderedKey Value) : Bool :=
  if a.isOrderedByValue && b.isOrderedByValue then a.v.isSome && b.v.isSome
  else if a.isOrderedByValue || b.isOrderedByValue then true
  else !a.h.IsEmpty && !b.h.IsEmpty

/-- The Go method `orderedKey.writeTo`. -/
def orderedKey.writeTo {Value : Type} [DecidableEq Value] (C : Codec Value)
    (key : orderedKey Value) (w : binaryNomsWriter) (nbf : Format) : Option binaryNomsWriter :=
  if !key.isOrderedByValue then
    if key ≠ emptyKey ∧ key.h.IsEmpty = true then none
    else some ((NomsKind_writeTo C.hashKind w).writeHash key.h)
  else
    match key.v with
    | some v => some (w.writeRaw (C.encValue nbf v))
    | none => none

/-- Modelled from the spec: `valueDecoder.readOrderedKey` (value_decoder.go), the
codec's `read_ordered_key`: "decoders peek the first byte to distinguish"; a
hash tag is followed by the raw 20-byte digest, anything else is a value,
whose key is made by `newOrderedKey`. -/
def valueDecoder.readOrderedKey {Value : Type} (C : Codec Value) (dec : valueDecoder)
    (nbf : Format) : Option (orderedKey Value × valueDecoder) :=
  match dec.peekKind with
  | none => none
  | some k =>
    if k = C.hashKind then
      match dec.skipKind.readHash with
      | some (h, dec1) => some (orderedKeyFromHash h, dec1)
      | none => none
    else
      match dec.readValue C nbf with
      | some (v, dec1) => some (newOrderedKey C v nbf, dec1)
      | none => none

/-- Modelled from the spec: `valueDecoder.skipOrderedKey` (value_decoder.go), the
codec's `skip_ordered_key`: a hash tag and 20 bytes, or else one value. -/
def valueDecoder.skipOrderedKey {Value : Type} (C : Codec Value) (dec : valueDecoder)
    (nbf : Format) : Option valueDecoder :=
  match dec.peekKind with
  | none => none
  | some k =>
    if k = C.hashKind then dec.skipKind.skipHash
    else dec.skipValue C nbf

/-! ## Meta tuples -/

def metaTuplePartRef : Nat := 0
def metaTuplePartKey : Nat := 1
def metaTuplePartNumLeaves : Nat := 2

/-- The Go array type `[metaTuplePartNumLeaves + 1]uint32`: one offset for each
of the three parts of a tuple. -/
structure metaTupleOffsets where
  ref : Nat
  key : Nat
  numLeaves : Nat
deriving DecidableEq

/-- Indexing of the offsets array by a part number. -/
def metaTupleOffsets.get (o : metaTupleOffsets) (part : Nat) : Nat :=
  if part = metaTuplePartRef then o.ref
  else if part = metaTuplePartKey then o.key
  else o.numLeaves

structure metaTuple where
  buff : List Byte
  offsets : metaTupleOffsets
  nbf : Format
deriving DecidableEq

/-- Subtraction of two `uint32`. -/
def u32sub (a b : Nat) : Nat := u32 (a + (2 ^ 32 - u32 b))

def newMetaTuple {Value : Type} [DecidableEq Value] (C : Codec Value) (ref : Ref)
    (key : orderedKey Value) (numLeaves : Nat) : Option metaTuple :=
  if ref.buff = none then none
  else
    let w := newBinaryNomsWriter
    let oRef := w.offset
    let w := ref.writeTo w
    let oKey := w.offset
    match key.writeTo C w ref.format with
    | none => none
    | some w =>
      let oNumLeaves := w.offset
      let w := w.writeCount C numLeaves
      some ⟨w.data, ⟨oRef, oKey, oNumLeaves⟩, ref.format⟩

/-- The Go slice expression `buff[offset:]`, which panics when `offset` exceeds
the length. -/
def sliceFrom (buff : List Byte) (offset : Nat) : Option (List Byte) :=
  if offset ≤ buff.length then some (buff.drop offset) else none

def metaTuple.decoderAtPart (mt : metaTuple) (part : Nat) : Option valueDecoder :=
  let offset := u32sub (mt.offsets.get part) (mt.offsets.get metaTuplePartRef)
  match sliceFrom mt.buff offset with
  | some bs => some (newValueDecoder bs)
  | none => none

def metaTuple.ref {Value : Type} (C : Codec Value) (mt : metaTuple) : Option Ref :=
  match mt.decoderAtPart metaTuplePartRef with
  | none => none
  | some dec => (dec.readRef C mt.nbf).map Prod.fst

def metaTuple.key {Value : Type} (C : Codec Value) (mt : metaTuple) :
    Option (orderedKey Value) :=
  match mt.decoderAtPart metaTuplePartKey with
  | none => none
  | some dec => (dec.readOrderedKey C mt.nbf).map Prod.fst

def metaTuple.numLeaves {Value : Type} (C : Codec Value) (mt : metaTuple) : Option Nat :=
  match mt.decoderAtPart metaTuplePartNumLeaves with
  | none => none
  | some dec => (dec.readCount C).map Prod.fst

def metaTuple.writeTo (mt : metaTuple) (w : binaryNomsWriter) : binaryNomsWriter :=
  w.writeRaw mt.buff

/-! ## Sequences -/

def sequencePartKind : Nat := 0
def sequencePartLevel : Nat := 1
def sequencePartCount : Nat := 2
def sequencePartValues : Nat := 3

/-- A collection value as the store hands it out: an internal node (its buffer,
offset table and leaf count) or a leaf of a list, a map or a set with its
elements. -/
inductive Collection (Value : Type) where
  | meta (buff : List Byte) (offsets : List Nat) (len : Nat)
  | listLeaf (values : List Value)
  | mapLeaf (entries : List (Value × Value))
  | setLeaf (values : List Value)
deriving DecidableEq

/-- Modelled from the spec: `ValueReadWriter` (value_store.go), the child fetcher
of section 4.5: `format()` and the bulk read `read_many_values`, whose result
order matches the input order.  A read value that is nil or not a collection is
`none`; a failure of the whole read is `none`. -/
structure ValueReadWriter (Value : Type) where
  nbf : Format
  ReadManyValues : List Hash → Option (List (Option (Collection Value)))

def ValueReadWriter.Format {Value : Type} (vrw : ValueReadWriter Value) : Format := vrw.nbf

/-- The Go struct `metaSequence`, that is `sequenceImpl`: the collaborator,
the raw buffer, the offset table and the cached number of leaves. -/
structure metaSequence (Value : Type) where
  vrw : ValueReadWriter Value
  buff : List Byte
  offsets : List Nat
  len : Nat

structure emptySequence where
  level : Nat
  nbf : Format
deriving DecidableEq

/-- The Go interface `sequence` with its five implementations.  The leaves are
modelled by their elements only. -/
inductive sequence (Value : Type) where
  | meta (ms : metaSequence Value)
  | listLeaf (vrw : ValueReadWriter Value) (values : List Value)
  | mapLeaf (vrw : ValueReadWriter Value) (entries : List (Value × Value))
  | setLeaf (vrw : ValueReadWriter Value) (values : List Value)
  | empty (es : emptySequence)

def newMetaSequence {Value : Type} (vrw : ValueReadWriter Value) (buff : List Byte)
    (offsets : List Nat) (len : Nat) : metaSequence Value :=
  ⟨vrw, buff, offsets, len⟩

/-- Modelled from the spec: `sequenceImpl.format` (sequence.go): the format of the
collaborator the node was built with. -/
def metaSequence.format {Value : Type} (ms : metaSequence Value) : Format := ms.vrw.Format

/-- Modelled from the spec: `sequenceImpl.decoder` (sequence.go): a decoder at the
start of the node's buffer. -/
def metaSequence.decoder {Value : Type} (ms : metaSequence Value) : valueDecoder :=
  newValueDecoder ms.buff

/-- Modelled from the spec: `sequenceImpl.decoderAtOffset` (sequence.go): a
decoder over `buff[offset:]`. -/
def metaSequence.decoderAtOffset {Value : Type} (ms : metaSequence Value) (offset : Nat) :
    Option valueDecoder :=
  match sliceFrom ms.buff offset with
  | some bs => some (newValueDecoder bs)
  | none => none

/-- Modelled from the spec: `sequenceImpl.decoderAtPart` (sequence.go): a decoder
at the recorded offset of a structural part, taken relative to the offset of
the kind. -/
def metaSequence.decoderAtPart {Value : Type} (ms : metaSequence Value) (part : Nat) :
    Option valueDecoder :=
  match ms.offsets.get? part, ms.offsets.get? sequencePartKind with
  | some o, some o0 => ms.decoderAtOffset (u32sub o o0)
  | _, _ => none

/-- Modelled from the spec: `sequenceImpl.decoderSkipToValues` (sequence.go): the
decoder placed after the count, and the count read. -/
def metaSequence.decoderSkipToValues {Value : Type} (C : Codec Value)
    (ms : metaSequence Value) : Option (valueDecoder × Nat) :=
  match ms.decoderAtPart sequencePartCount with
  | none => none
  | some dec =>
    match dec.readCount C with
    | some (count, dec1) => some (dec1, count)
    | none => none

/-- Modelled from the spec: `sequenceImpl.getItemOffset` (sequence.go): the offset
table has "one entry per structural part plus one per tuple boundary", so the
bytes of item `idx` start at entry `idx + sequencePartValues`. -/
def metaSequence.getItemOffset {Value : Type} (ms : metaSequence Value) (idx : Nat) :
    Option Nat :=
  if idx + sequencePartValues + 1 > ms.offsets.length then none
  else
    match ms.offsets.get? (idx + sequencePartValues), ms.offsets.get? sequencePartKind with
    | some o, some o0 => some (u32sub o o0)
    | _, _ => none

/-- Modelled from the spec: `sequenceImpl.decoderSkipToIndex` (sequence.go): a
decoder at the first byte of item `idx`. -/
def metaSequence.decoderSkipToIndex {Value : Type} (ms : metaSequence Value) (idx : Nat) :
    Option valueDecoder :=
  match ms.getItemOffset idx with
  | some offset => ms.decoderAtOffset offset
  | none => none

/-- Modelled from the spec: `sequenceImpl.seqLen` (sequence.go): the count of
child tuples, read from the count part of the encoding. -/
def metaSequence.seqLen {Value : Type} (C : Codec Value) (ms : metaSequence Value) :
    Option Nat :=
  (ms.decoderSkipToValues C).map Prod.snd

/-- Modelled from the spec: `sequenceImpl.Kind` (sequence.go): the kind byte the
encoding starts with. -/
def metaSequence.Kind {Value : Type} (ms : metaSequence Value) : Option NomsKind :=
  ms.decoder.readKind.map Prod.fst

/-- The loop of `newMetaSequenceFromTuples`: it adds up the leaf counts in
`uint64`, writes each tuple and records the offset after it. -/
def newMetaSequenceFromTuples_loop {Value : Type} (C : Codec Value) :
    List metaTuple → binaryNomsWriter → List Nat → Nat →
      Option (binaryNomsWriter × List Nat × Nat)
  | [], w, offsets, length => some (w, offsets, length)
  | mt :: rest, w, offsets, length =>
    match mt.numLeaves C with
    | none => none
    | some n =>
      let w1 := mt.writeTo w
      newMetaSequenceFromTuples_loop C rest w1 (offsets ++ [w1.offset]) (u64 (length + n))

def newMetaSequenceFromTuples {Value : Type} (C : Codec Value) (kind : NomsKind) (level : Nat)
    (tuples : List metaTuple) (vrw : ValueReadWriter Value) : Option (metaSequence Value) :=
  if ¬ (level > 0) then none
  else
    let w := newBinaryNomsWriter
    let oKind := w.offset
    let w := NomsKind_writeTo kind w
    let oLevel := w.offset
    let w := w.writeCount C level
    let oCount := w.offset
    let w := w.writeCount C tuples.length
    let oValues := w.offset
    match newMetaSequenceFromTuples_loop C tuples w [oKind, oLevel, oCount, oValues] 0 with
    | none => none
    | some (w, offsets, length) => some (newMetaSequence vrw w.data offsets length)

def metaSequence.readTuple {Value : Type} (C : Codec Value) (ms : metaSequence Value)
    (dec : valueDecoder) : Option (metaTuple × valueDecoder) :=
  let start := dec.offset
  match dec.skipRef C with
  | none => none
  | some dec1 =>
    match dec1.skipOrderedKey C ms.format with
    | none => none
    | some dec2 =>
      match dec2.skipCount C with
      | none => none
      | some dec3 =>
        match dec3.byteSlice start dec3.offset with
        | none => none
        | some bs => some (⟨bs, ⟨start, dec1.offset, dec2.offset⟩, ms.format⟩, dec3)

/-- The loop of `tuples`: `count` calls of `readTuple` on one decoder. -/
def metaSequence.tuples_loop {Value : Type} (C : Codec Value) (ms : metaSequence Value) :
    Nat → valueDecoder → Option (List metaTuple)
  | 0, _ => some []
  | n + 1, dec =>
    match ms.readTuple C dec with
    | none => none
    | some (mt, dec1) =>
      match metaSequence.tuples_loop C ms n dec1 with
      | none => none
      | some ts => some (mt :: ts)

def metaSequence.tuples {Value : Type} (C : Codec Value) (ms : metaSequence Value) :
    Option (List metaTuple) :=
  match ms.decoderSkipToValues C with
  | none => none
  | some (dec, count) => ms.tuples_loop C count dec

def metaSequence.getKey {Value : Type} (C : Codec Value) (ms : metaSequence Value)
    (idx : Nat) : Option (orderedKey Value) :=
  match ms.decoderSkipToIndex idx with
  | none => none
  | some dec =>
    match dec.skipValue C ms.format with
    | none => none
    | some dec1 => (dec1.readOrderedKey C ms.format).map Prod.fst

/-- The Go function `sort.Search`: the loop, with `fuel` bounding the number of
iterations; `f` may panic. -/
def sortSearch_loop (f : Nat → Option Bool) : Nat → Nat → Nat → Option Nat
  | 0, i, j => if i < j then none else some i
  | fuel + 1, i, j =>
    if i < j then
      let h := (i + j) / 2
      match f h with
      | none => none
      | some false => sortSearch_loop f fuel (h + 1) j
      | some true => sortSearch_loop f fuel i h
    else some i

/-- The Go function `sort.Search(n, f)`; `n` iterations are always enough. -/
def sortSearch (n : Nat) (f : Nat → Option Bool) : Option Nat := sortSearch_loop f n 0 n

def metaSequence.search {Value : Type} (C : Codec Value) (ms : metaSequence Value)
    (key : orderedKey Value) : Option Nat :=
  match ms.seqLen C with
  | none => none
  | some n =>
    sortSearch n (fun i =>
      match ms.getKey C i with
      | none => none
      | some k => (k.Less C ms.format key).map (fun b => !b))

/-- The loop of `cumulativeNumberOfLeaves`: each round skips the ref and the key
with `skipValue` and adds the count read, in `uint64`. -/
def metaSequence.cumulativeNumberOfLeaves_loop {Value : Type} (C : Codec Value)
    (nbf : Format) : Nat → valueDecoder → Nat → Option Nat
  | 0, _, cum => some cum
  | n + 1, dec, cum =>
    match dec.skipValue C nbf with
    | none => none
    | some dec1 =>
      match dec1.skipValue C nbf with
      | none => none
      | some dec2 =>
        match dec2.readCount C with
        | none => none
        | some (c, dec3) =>
          metaSequence.cumulativeNumberOfLeaves_loop C nbf n dec3 (u64 (cum + c))

def metaSequence.cumulativeNumberOfLeaves {Value : Type} (C : Codec Value)
    (ms : metaSequence Value) (idx : Nat) : Option Nat :=
  match ms.decoderSkipToValues C with
  | none => none
  | some (dec, _) => metaSequence.cumulativeNumberOfLeaves_loop C ms.format (idx + 1) dec 0

def metaSequence.getRefAt {Value : Type} (C : Codec Value) (ms : metaSequence Value)
    (dec : valueDecoder) (idx : Nat) : Option (Ref × valueDecoder) :=
  match ms.getItemOffset idx with
  | none => none
  | some offset => valueDecoder.readRef C ⟨dec.buff, u32 offset⟩ ms.format

def metaSequence.getNumLeavesAt {Value : Type} (C : Codec Value) (ms : metaSequence Value)
    (idx : Nat) : Option Nat :=
  match ms.decoderSkipToIndex idx with
  | none => none
  | some dec =>
    match dec.skipValue C ms.format with
    | none => none
    | some dec1 =>
      match dec1.skipOrderedKey C ms.format with
      | none => none
      | some dec2 => (dec2.readCount C).map Prod.fst

def metaSequence.getItem {Value : Type} (C : Codec Value) (ms : metaSequence Value)
    (idx : Nat) : Option metaTuple :=
  match ms.decoderSkipToIndex idx with
  | none => none
  | some dec => (ms.readTuple C dec).map Prod.fst

def metaSequence.numLeaves {Value : Type} (ms : metaSequence Value) : Nat := ms.len

def metaSequence.treeLevel {Value : Type} (C : Codec Value) (ms : metaSequence Value) :
    Option Nat :=
  match ms.decoderAtPart sequencePartLevel with
  | none => none
  | some dec => (dec.readCount C).map Prod.fst

/-! ## Hydration of children

A function that reaches the store returns, next to its result, the list of the
`ReadManyValues` calls it made (the argument of each call, in order). -/

/-- Modelled from the spec: `Collection.asSequence` (collection.go): the sequence
of a collection value read through `vrw`. -/
def Collection.asSequence {Value : Type} (vrw : ValueReadWriter Value) :
    Collection Value → sequence Value
  | .meta buff offsets len => .meta ⟨vrw, buff, offsets, len⟩
  | .listLeaf values => .listLeaf vrw values
  | .mapLeaf entries => .mapLeaf vrw entries
  | .setLeaf values => .setLeaf vrw values

/-- The first loop of `getChildren`: the target hashes of the refs of the items
`i`, `i + 1`, ..., `n` of them. -/
def metaSequence.getChildren_hashes {Value : Type} (C : Codec Value) (ms : metaSequence Value) :
    Nat → Nat → valueDecoder → Option (List Hash)
  | 0, _, _ => some []
  | n + 1, i, dec =>
    match ms.getRefAt C dec i with
    | none => none
    | some (r, dec1) =>
      match metaSequence.getChildren_hashes C ms n (i + 1) dec1 with
      | none => none
      | some hs => some (r.TargetHash C :: hs)

/-- The second loop of `getChildren`: `seqs[i] = v.(Collection).asSequence()` for
each value read, into a slice with `slots` entries left, which start out nil.
A value that is no collection panics, and so does a value beyond the last
slot. -/
def metaSequence.getChildren_fill {Value : Type} (vrw : ValueReadWriter Value) :
    List (Option (Collection Value)) → Nat → Option (List (Option (sequence Value)))
  | [], slots => some (List.replicate slots none)
  | _ :: _, 0 => none
  | none :: _, _ + 1 => none
  | some c :: vs, slots + 1 =>
    match metaSequence.getChildren_fill vrw vs slots with
    | none => none
    | some seqs => some (some (c.asSequence vrw) :: seqs)

def metaSequence.getChildren {Value : Type} (C : Codec Value) (ms : metaSequence Value)
    (start stop : Nat) : List (List Hash) × Option (List (Option (sequence Value))) :=
  match ms.seqLen C with
  | none => ([], none)
  | some n =>
    if ¬ (stop ≤ n) then ([], none)
    else if ¬ (start ≤ stop) then ([], none)
    else
      match ms.getChildren_hashes C (stop - start) start ms.decoder with
      | none => ([], none)
      | some hs =>
        if hs.length = 0 then ([], some [])
        else
          match ms.vrw.ReadManyValues hs with
          | none => ([hs], none)
          | some readValues => ([hs], metaSequence.getChildren_fill ms.vrw readValues hs.length)

/-- The loop of the branch `level > 1`: every child must be a meta sequence, and
its tuples are appended. -/
def getCompositeChildSequence_metaItems {Value : Type} (C : Codec Value) :
    List (Option (sequence Value)) → Option (List metaTuple)
  | [] => some []
  | some (.meta child) :: rest =>
    match child.tuples C with
    | none => none
    | some ts =>
      match getCompositeChildSequence_metaItems C rest with
      | none => none
      | some items => some (ts ++ items)
  | _ :: _ => none

def getCompositeChildSequence_listItems {Value : Type} :
    List (Option (sequence Value)) → Option (List Value)
  | [] => some []
  | some (.listLeaf _ values) :: rest =>
    (getCompositeChildSequence_listItems rest).map (fun items => values ++ items)
  | _ :: _ => none

def getCompositeChildSequence_mapItems {Value : Type} :
    List (Option (sequence Value)) → Option (List (Value × Value))
  | [] => some []
  | some (.mapLeaf _ entries) :: rest =>
    (getCompositeChildSequence_mapItems rest).map (fun items => entries ++ items)
  | _ :: _ => none

def getCompositeChildSequence_setItems {Value : Type} :
    List (Option (sequence Value)) → Option (List Value)
  | [] => some []
  | some (.setLeaf _ values) :: rest =>
    (getCompositeChildSequence_setItems rest).map (fun items => values ++ items)
  | _ :: _ => none

def metaSequence.getCompositeChildSequence {Value : Type} (C : Codec Value)
    (ms : metaSequence Value) (start length : Nat) :
    List (List Hash) × Option (sequence Value) :=
  match ms.treeLevel C with
  | none => ([], none)
  | some level =>
    if ¬ (level > 0) then ([], none)
    else if length = 0 then ([], some (.empty ⟨level - 1, ms.format⟩))
    else
      match ms.getChildren C start (u64 (start + length)) with
      | (calls, none) => (calls, none)
      | (calls, some output) =>
        if level > 1 then
          match getCompositeChildSequence_metaItems C output, ms.Kind with
          | some metaItems, some kind =>
            (calls, (newMetaSequenceFromTuples C kind (level - 1) metaItems ms.vrw).map .meta)
          | _, _ => (calls, none)
        else
          match ms.Kind with
          | none => (calls, none)
          | some kind =>
            if kind = C.ListKind then
              (calls, (getCompositeChildSequence_listItems output).map (.listLeaf ms.vrw))
            else if kind = C.MapKind then
              (calls, (getCompositeChildSequence_mapItems output).map (.mapLeaf ms.vrw))
            else if kind = C.SetKind then
              (calls, (getCompositeChildSequence_setItems output).map (.setLeaf ms.vrw))
            else (calls, none)

/-! ## A concrete codec

A small instance of `Codec`, used to run the definitions on concrete buffers.
Counts are unsigned LEB128 varints of at most ten bytes, a value is its kind
byte followed by its payload (a number is a varint of any length), and a ref is the ref kind byte, the 20 bytes of the target hash and
the height as a varint.  `skipValue` dispatches on the kind byte of a value;
the hash tag is the kind of no value, so `skipValue` rejects it. -/

/-- The values of the concrete codec: booleans and numbers, which sort by value,
and blobs, which are identified by their digest and sort by hash. -/
inductive ToyValue where
  | bool (b : Bool)
  | number (n : Nat)
  | blob (id : Hash)
deriving DecidableEq

def toyBoolKind : NomsKind := 0
def toyNumberKind : NomsKind := 1
def toyBlobKind : NomsKind := 3
def toyListKind : NomsKind := 5
def toyMapKind : NomsKind := 6
def toyRefKind : NomsKind := 7
def toySetKind : NomsKind := 8
def toyHashKind : NomsKind := 13

/-- The unsigned varint of `n`, least significant group first; `fuel + 1` bytes
at most. -/
def toyEncVarint : Nat → Nat → List Byte
  | 0, n => [⟨n % 128, by omega⟩]
  | fuel + 1, n =>
    if n < 128 then [⟨n % 128, by omega⟩]
    else ⟨n % 128 + 128, by omega⟩ :: toyEncVarint fuel (n / 128)

/-- Reads an unsigned varint of at most `fuel` bytes: the value and the number
of bytes read. -/
def toyDecVarint : Nat → List Byte → Option (Nat × Nat)
  | 0, _ => none
  | _ + 1, [] => none
  | fuel + 1, b :: bs =>
    if b.val < 128 then some (b.val, 1)
    else
      match toyDecVarint fuel bs with
      | some (v, k) => some (b.val - 128 + 128 * v, k + 1)
      | none => none

def toyEncCount (n : Nat) : List Byte := toyEncVarint 9 (u64 n)

def toyReadCount (bs : List Byte) : Option (Nat × Nat) := toyDecVarint 10 bs

def toyValueKind : ToyValue → NomsKind
  | .bool _ => toyBoolKind
  | .number _ => toyNumberKind
  | .blob _ => toyBlobKind

def toyIsKindOrderedByValue (k : NomsKind) : Bool := decide (k = toyBoolKind ∨ k = toyNumberKind)

def toyEncValue (_ : Format) : ToyValue → List Byte
  | .bool b => [toyBoolKind, if b then 1 else 0]
  | .number n => toyNumberKind :: toyEncVarint n n
  | .blob id => toyBlobKind :: id.bytes

/-- The first 20 bytes of `bs`, filled up with zeros, as a digest. -/
def toyDigest (bs : List Byte) : Hash :=
  ⟨(bs ++ List.replicate 20 0).take 20, by simp⟩

def toyValueHash (nbf : Format) : ToyValue → Hash
  | .blob id => id
  | v => toyDigest (toyEncValue nbf v ++ List.replicate 20 255)

/-- The order of the values: booleans, then numbers, then blobs by digest. -/
def toyValueLess (_ : Format) : ToyValue → ToyValue → Bool
  | .bool a, .bool b => !a && b
  | .bool _, _ => true
  | .number _, .bool _ => false
  | .number a, .number b => decide (a < b)
  | .number _, .blob _ => true
  | .blob a, .blob b => a.Less b
  | .blob _, _ => false

def toyReadValue (_ : Format) : List Byte → Option (ToyValue × Nat)
  | [] => none
  | k :: bs =>
    if k = toyBoolKind then
      match bs with
      | b :: _ => if b = 0 then some (.bool false, 2) else if b = 1 then some (.bool true, 2) else none
      | [] => none
    else if k = toyNumberKind then
      match toyDecVarint bs.length bs with
      | some (n, len) => some (.number n, len + 1)
      | none => none
    else if k = toyBlobKind then
      if h : (bs.take 20).length = 20 then some (.blob ⟨bs.take 20, h⟩, 21) else none
    else none

def toySkipRef : List Byte → Option Nat
  | [] => none
  | k :: bs =>
    if k = toyRefKind ∧ (bs.take 20).length = 20 then
      match toyReadCount (bs.drop 20) with
      | some (_, len) => some (len + 21)
      | none => none
    else none

def toySkipValue (nbf : Format) (bs : List Byte) : Option Nat :=
  match bs.head? with
  | none => none
  | some k =>
    if k = toyRefKind then toySkipRef bs
    else (toyReadValue nbf bs).map Prod.snd

def toyTargetHash (bs : List Byte) : Hash := toyDigest (bs.drop 1)

def toyCodec : Codec ToyValue where
  ListKind := toyListKind
  MapKind := toyMapKind
  SetKind := toySetKind
  hashKind := toyHashKind
  isKindOrderedByValue := toyIsKindOrderedByValue
  valueKind := toyValueKind
  valueLess := toyValueLess
  valueHash := toyValueHash
  encValue := toyEncValue
  encCount := toyEncCount
  readValue := toyReadValue
  readCount := toyReadCount
  skipValue := toySkipValue
  skipRef := toySkipRef
  targetHash := toyTargetHash

/-- The ref of the concrete codec with the given target hash and height. -/
def toyRef (target : Hash) (height : Nat) : Ref :=
  ⟨some (toyRefKind :: target.bytes ++ toyEncCount height), 0⟩

/-- The digest `0x00...0b`: nineteen zero bytes and the byte `b`. -/
def hashOfByte (b : Byte) : Hash := ⟨List.replicate 19 0 ++ [b], by simp⟩

/-- A store that holds nothing. -/
def emptyStore : ValueReadWriter ToyValue := ⟨0, fun _ => none⟩

/-! ## Concrete nodes -/

/-- The value-ordered key of the number `n` (`orderedKeyFromInt`). -/
def toyKeyOfNumber (n : Nat) : orderedKey ToyValue := newOrderedKey toyCodec (.number n) 0

/-- The hash-ordered key of the digest `0x00...0b`. -/
def toyKeyOfHash (b : Byte) : orderedKey ToyValue := orderedKeyFromHash (hashOfByte b)

/-- The meta sequence the builder makes of the given children (target hash,
key, number of leaves), or an empty node when the builder panics. -/
def toyMetaSequence (kind : NomsKind) (level : Nat)
    (children : List (Hash × orderedKey ToyValue × Nat)) : metaSequence ToyValue :=
  let tuples := children.filterMap (fun c => newMetaTuple toyCodec (toyRef c.1 1) c.2.1 c.2.2)
  (newMetaSequenceFromTuples toyCodec kind level tuples emptyStore).getD ⟨emptyStore, [], [], 0⟩

/-- The specs of scenario B: ref, key and number of leaves of the three
children; the keys are value-ordered 3, value-ordered 10 and hash-ordered
`0x00...01`. -/
def scenarioB_specs : List (Ref × orderedKey ToyValue × Nat) :=
  [(toyRef (hashOfByte 7) 1, toyKeyOfNumber 3, 5), (toyRef (hashOfByte 8) 1, toyKeyOfNumber 10, 7),
   (toyRef (hashOfByte 9) 1, toyKeyOfHash 1, 3)]

/-- The tuples `newMetaTuple` makes of the specs of scenario B. -/
def scenarioB_tuples : List metaTuple :=
  scenarioB_specs.filterMap (fun s => newMetaTuple toyCodec s.1 s.2.1 s.2.2)

/-- Scenario B: the node the builder makes of the three tuples. -/
def scenarioB : metaSequence ToyValue :=
  (newMetaSequenceFromTuples toyCodec toyMapKind 1 scenarioB_tuples emptyStore).getD
    ⟨emptyStore, [], [], 0⟩

def scenarioB_keys (j : Nat) : orderedKey ToyValue :=
  if j = 0 then toyKeyOfNumber 3 else if j = 1 then toyKeyOfNumber 10 else toyKeyOfHash 1

/-- A node with the one child key hash-ordered `0x00...01`. -/
def oneHashKey : metaSequence ToyValue :=
  toyMetaSequence toySetKind 1 [(hashOfByte 7, toyKeyOfHash 1, 4)]

/-! ## Descriptions of the encoding -/

/-- The bytes `orderedKey.writeTo` writes for the key, if it writes any. -/
def orderedKey.encoding {Value : Type} [DecidableEq Value] (C : Codec Value)
    (key : orderedKey Value) (nbf : Format) : Option (List Byte) :=
  if !key.isOrderedByValue then
    if key ≠ emptyKey ∧ key.h.IsEmpty = true then none
    else some (C.hashKind :: key.h.bytes)
  else
    match key.v with
    | some v => some (C.encValue nbf v)
    | none => none

/-- The key that `readOrderedKey` makes of the encoding of `key`: the value of
a value-ordered key goes through `newOrderedKey`, a hash-ordered key keeps its
digest only. -/
def orderedKey.readBack {Value : Type} (C : Codec Value) (key : orderedKey Value)
    (nbf : Format) : orderedKey Value :=
  if key.isOrderedByValue then
    match key.v with
    | some v => newOrderedKey C v nbf
    | none => key
  else orderedKeyFromHash key.h

/-- The decoder stands inside its buffer, which is shorter than `2^32` bytes,
and the bytes before it are `bs`. -/
def valueDecoder.At (dec : valueDecoder) (bs : List Byte) : Prop :=
  dec.buff.length < 2 ^ 32 ∧ dec.offset ≤ dec.buff.length ∧ dec.rest = bs

/-- What a meta tuple holds: the bytes of its ref, its key and its number of
leaves. -/
structure TupleParts (Value : Type) where
  ref : List Byte
  key : orderedKey Value
  numLeaves : Nat

/-- The bytes of the key of the parts. -/
def TupleParts.keyBytes {Value : Type} [DecidableEq Value] (C : Codec Value) (nbf : Format)
    (p : TupleParts Value) : List Byte :=
  (p.key.encoding C nbf).getD []

/-- The encoding of the parts: ref, key, number of leaves. -/
def TupleParts.bytes {Value : Type} [DecidableEq Value] (C : Codec Value) (nbf : Format)
    (p : TupleParts Value) : List Byte :=
  p.ref ++ (p.keyBytes C nbf ++ C.encCount p.numLeaves)

/-- The parts can be written: the ref is a ref, the key has an encoding and the
number of leaves is a `uint64`. -/
def TupleParts.WF {Value : Type} [DecidableEq Value] (C : Codec Value) (nbf : Format)
    (p : TupleParts Value) : Prop :=
  C.validRef p.ref ∧ (p.key.encoding C nbf).isSome = true ∧ p.numLeaves < 2 ^ 64

/-- The tuple `t` holds the parts `p`: its buffer is their encoding and its
offsets mark the three parts, counted from the offset of the ref. -/
def metaTuple.Holds {Value : Type} [DecidableEq Value] (C : Codec Value) (nbf : Format)
    (t : metaTuple) (p : TupleParts Value) : Prop :=
  t.buff = p.bytes C nbf ∧
  t.offsets.key = t.offsets.ref + p.ref.length ∧
  t.offsets.numLeaves = t.offsets.ref + p.ref.length + (p.keyBytes C nbf).length ∧
  t.offsets.ref + t.buff.length < 2 ^ 32

/-- The byte strings one after the other. -/
def concatBytes : List (List Byte) → List Byte
  | [] => []
  | b :: bs => b ++ concatBytes bs

/-- The offsets of the ends of the byte strings, the first of which starts at
offset `o`. -/
def endOffsets : Nat → List (List Byte) → List Nat
  | _, [] => []
  | o, b :: bs => (o + b.length) :: endOffsets (o + b.length) bs

/-- The first three parts of the encoding of a node: kind, level, count. -/
def sequenceHeader {Value : Type} (C : Codec Value) (kind : NomsKind) (level count : Nat) :
    List Byte :=
  kind :: (C.encCount level ++ C.encCount count)

/-- The node `ms` is the encoding of `kind`, `level` and of tuples holding the
parts `ps`: its buffer is the header followed by the tuples, its offset table
marks the kind, the level, the count and every tuple boundary, and its cached
length is the sum of the numbers of leaves. -/
def metaSequence.Encodes {Value : Type} [DecidableEq Value] (C : Codec Value)
    (ms : metaSequence Value) (kind : NomsKind) (level : Nat) (ps : List (TupleParts Value)) :
    Prop :=
  ms.buff = sequenceHeader C kind level ps.length ++
    concatBytes (ps.map (fun p => p.bytes C ms.format)) ∧
  ms.offsets = [0, 1, 1 + (C.encCount level).length] ++
    ((sequenceHeader C kind level ps.length).length ::
      endOffsets (sequenceHeader C kind level ps.length).length
        (ps.map (fun p => p.bytes C ms.format))) ∧
  ms.buff.length < 2 ^ 32 ∧ level < 2 ^ 64 ∧ ps.length < 2 ^ 64 ∧
  (∀ p, p ∈ ps → p.WF C ms.format) ∧
  ms.len = u64 ((ps.map (fun p => p.numLeaves)).sum)

/-- The parts a tuple made by `newMetaTuple(ref, key, numLeaves)` holds. -/
def specParts {Value : Type} (s : Ref × orderedKey Value × Nat) : TupleParts Value :=
  ⟨s.1.buff.getD [], s.2.1, s.2.2⟩

/-- The input of the builder: `tuples` are the tuples `newMetaTuple` makes of
the `specs` (ref, key, number of leaves), whose refs are refs of the format of
`vrw` and whose numbers of leaves are `uint64`; `level` is a positive `uint64`
and the number of tuples a `uint64`; and the encoding of the node is shorter
than `2^32` bytes, so that no `uint32` offset wraps around. -/
structure BuilderInput {Value : Type} [DecidableEq Value] (C : Codec Value)
    (vrw : ValueReadWriter Value) (kind : NomsKind) (level : Nat)
    (specs : List (Ref × orderedKey Value × Nat)) (tuples : List metaTuple) : Prop where
  built : List.Forall₂ (fun s t => newMetaTuple C s.1 s.2.1 s.2.2 = some t) specs tuples
  refs : ∀ s, s ∈ specs → s.1.nbf = vrw.nbf ∧ C.validRef (s.1.buff.getD [])
  counts : ∀ s, s ∈ specs → s.2.2 < 2 ^ 64
  level_pos : 0 < level
  level_lt : level < 2 ^ 64
  count_lt : specs.length < 2 ^ 64
  size : (sequenceHeader C kind level specs.length ++
    concatBytes (specs.map (fun s => (specParts s).bytes C vrw.nbf))).length < 2 ^ 32

/-- Re-encoding a node from its own decoded parts:
`newMetaSequenceFromTuples(ms.Kind(), ms.treeLevel(), ms.tuples(), vrw)`. -/
def metaSequence.reencode {Value : Type} (C : Codec Value) (ms : metaSequence Value) :
    Option (metaSequence Value) :=
  match ms.Kind, ms.treeLevel C, ms.tuples C with
  | some kind, some level, some tuples => newMetaSequenceFromTuples C kind level tuples ms.vrw
  | _, _, _ => none

/-- A node with one child whose key is the hash-ordered key `newOrderedKey`
makes of a blob. -/
def oneBlobKey : metaSequence ToyValue :=
  toyMetaSequence toySetKind 1
    [(hashOfByte 7, newOrderedKey toyCodec (.blob (hashOfByte 5)) 0, 4)]

/-- The sequence of a meta collection read through the store of `ms`. -/
def childOf {Value : Type} (ms : metaSequence Value) (d : List Byte × List Nat × Nat) :
    metaSequence Value :=
  ⟨ms.vrw, d.1, d.2.1, d.2.2⟩

/-- The setting of `getCompositeChildSequence(start, length)` at an inner level:
`ms` has the kind `kind` and the level `level > 1`; the range of `length > 0`
children from `start` lies within the node; `hs` are the target hashes of their
refs; the store answers the read of `hs` with the meta collections `cols`, one
for each hash, each the encoding of a node; `tss` are the tuples of these
children; and the encoding of the composite is shorter than `2^32` bytes. -/
structure CompositeInput {Value : Type} [DecidableEq Value] (C : Codec Value)
    (ms : metaSequence Value) (kind : NomsKind) (level start length : Nat) (hs : List Hash)
    (cols : List (List Byte × List Nat × Nat)) (tss : List (List metaTuple)) : Prop where
  kind_eq : ms.Kind = some kind
  level_eq : ms.treeLevel C = some level
  level_gt : 1 < level
  level_lt : level < 2 ^ 64
  length_pos : 0 < length
  range : ∃ n, ms.seqLen C = some n ∧ start + length ≤ n ∧ n < 2 ^ 64
  hashes : ms.getChildren_hashes C length start ms.decoder = some hs
  store : ms.vrw.ReadManyValues hs =
    some (cols.map (fun d => some (Collection.meta d.1 d.2.1 d.2.2)))
  answered : cols.length = length
  children : ∀ d, d ∈ cols → ∃ k l ps, (childOf ms d).Encodes C k l ps
  tuples : List.Forall₂ (fun d ts => (childOf ms d).tuples C = some ts) cols tss
  count_lt : tss.flatten.length < 2 ^ 64
  size : (sequenceHeader C kind (level - 1) tss.flatten.length ++
    concatBytes (tss.flatten.map (fun t => t.buff))).length < 2 ^ 32

/-- Scenario D: the specs of the three tuples of child `i`, a node at level 1
with number keys. -/
def scenarioD_childSpecs (i : Nat) : List (Ref × orderedKey ToyValue × Nat) :=
  [(toyRef (hashOfByte (Fin.ofNat (10 * i + 1))) 1, toyKeyOfNumber (10 * i + 1), 2),
   (toyRef (hashOfByte (Fin.ofNat (10 * i + 2))) 1, toyKeyOfNumber (10 * i + 2), 3),
   (toyRef (hashOfByte (Fin.ofNat (10 * i + 3))) 1, toyKeyOfNumber (10 * i + 3), 4)]

def scenarioD_childTuples (i : Nat) : List metaTuple :=
  (scenarioD_childSpecs i).filterMap (fun s => newMetaTuple toyCodec s.1 s.2.1 s.2.2)

/-- Scenario D: child `i` as the builder makes it. -/
def scenarioD_childNode (i : Nat) : metaSequence ToyValue :=
  (newMetaSequenceFromTuples toyCodec toyMapKind 1 (scenarioD_childTuples i) emptyStore).getD
    ⟨emptyStore, [], [], 0⟩

/-- Scenario D: child `i` as the store holds it. -/
def scenarioD_child (i : Nat) : List Byte × List Nat × Nat :=
  ((scenarioD_childNode i).buff, (scenarioD_childNode i).offsets, (scenarioD_childNode i).len)

/-- Scenario D: the hash under which the store holds child `i`. -/
def scenarioD_childHash (i : Nat) : Hash := hashOfByte (Fin.ofNat (100 + i))

/-- Scenario D: a store that holds the four children and answers a read in the
order of the request. -/
def scenarioD_store : ValueReadWriter ToyValue where
  nbf := 0
  ReadManyValues := fun hs =>
    some (hs.map (fun h => (List.range 4).findSome? (fun i =>
      if h = scenarioD_childHash i then
        some (Collection.meta (scenarioD_child i).1 (scenarioD_child i).2.1 (scenarioD_child i).2.2)
      else none)))

/-- Scenario D: the node at level 2 with the four children. -/
def scenarioD : metaSequence ToyValue :=
  (newMetaSequenceFromTuples toyCodec toyMapKind 2
    ((List.range 4).filterMap (fun i =>
      newMetaTuple toyCodec (toyRef (scenarioD_childHash i) 2) (toyKeyOfNumber (10 * i + 3)) 9))
    scenarioD_store).getD ⟨scenarioD_store, [], [], 0⟩

/-- Scenario C: four children with value-ordered keys and the leaf counts 5, 7,
3 and 11. -/
def scenarioC : metaSequence ToyValue :=
  toyMetaSequence toyListKind 1
    [(hashOfByte 7, toyKeyOfNumber 5, 5), (hashOfByte 8, toyKeyOfNumber 12, 7),
     (hashOfByte 9, toyKeyOfNumber 15, 3), (hashOfByte 10, toyKeyOfNumber 26, 11)]

/-- Scenario D: the meta sequence `getCompositeChildSequence(1, 2)` returns. -/
def scenarioD_composite : Option (metaSequence ToyValue) :=
  match (scenarioD.getCompositeChildSequence toyCodec 1 2).2 with
  | some (.meta r) => some r
  | _ => none

/-! ## The empty sequence

The methods of `emptySequence`.  A method whose body is `panic("empty sequence")`
is `none` for every argument. -/

/-- A `*Type`, by its encoding. -/
abbrev NomsType := List Byte

def emptySequence.getItem (_ : emptySequence) (_ : Nat) : Option metaTuple := none

def emptySequence.seqLen (_ : emptySequence) : Nat := 0

def emptySequence.numLeaves (_ : emptySequence) : Nat := 0

/-- The Go method returns a nil `ValueReadWriter`. -/
def emptySequence.valueReadWriter {Value : Type} (_ : emptySequence) :
    Option (Option (ValueReadWriter Value)) := some none

def emptySequence.format (es : emptySequence) : Format := es.nbf

/-- The Go method has an empty body: the callback receives no ref.  The result
is the list of the refs handed to the callback. -/
def emptySequence.WalkRefs (_ : emptySequence) (_ : Format) : Option (List Ref) := some []

/-- The Go method returns a function, and it is the function that panics. -/
def emptySequence.getCompareFn {Value : Type} (_ : emptySequence) (_ : sequence Value) :
    Option (Nat → Nat → Option Bool) :=
  some (fun _ _ => none)

def emptySequence.getKey {Value : Type} (_ : emptySequence) (_ : Nat) :
    Option (orderedKey Value) := none

def emptySequence.search {Value : Type} (_ : emptySequence) (_ : orderedKey Value) :
    Option Nat := none

def emptySequence.cumulativeNumberOfLeaves (_ : emptySequence) (_ : Nat) : Option Nat := none

/-- The Go method returns a nil sequence. -/
def emptySequence.getChildSequence {Value : Type} (_ : emptySequence) (_ : Nat) :
    Option (Option (sequence Value)) := some none

def emptySequence.Kind (_ : emptySequence) : Option NomsKind := none

def emptySequence.typeOf (_ : emptySequence) : Option NomsType := none

def emptySequence.getCompositeChildSequence (es : emptySequence) (start length : Nat) :
    Option emptySequence :=
  if ¬ (es.level > 0) then none
  else if ¬ (start = 0) then none
  else if ¬ (length = 0) then none
  else some ⟨es.level - 1, es.format⟩

def emptySequence.treeLevel (es : emptySequence) : Nat := es.level

def emptySequence.isLeaf (es : emptySequence) : Bool := decide (es.level = 0)

def emptySequence.Hash (_ : emptySequence) (_ : Format) : Option Hash := none

def emptySequence.Equals {Value : Type} (_ : emptySequence) (_ : Value) : Option Bool := none

def emptySequence.Less {Value : Type} (_ : emptySequence) (_ : Format) (_ : Value) :
    Option Bool := none

def emptySequence.valueBytes (_ : emptySequence) (_ : Format) : Option (List Byte) := none

def emptySequence.valuesSlice {Value : Type} (_ : emptySequence) (_ _ : Nat) :
    Option (List Value) := none

def emptySequence.writeTo (_ : emptySequence) (_ : binaryNomsWriter) (_ : Format) :
    Option binaryNomsWriter := none

def emptySequence.Empty (_ : emptySequence) : Option Bool := none

def emptySequence.Len (_ : emptySequence) : Option Nat := none

/-- Scenario E: a node at level 3 whose store answers no read. -/
def scenarioE : metaSequence ToyValue :=
  toyMetaSequence toyListKind 3 [(hashOfByte 7, toyKeyOfNumber 4, 4)]

/-- The tuples of two children whose keys decrease: value-ordered 10, then
value-ordered 3. -/
def decreasingTuples : List metaTuple :=
  [(toyRef (hashOfByte 7) 1, toyKeyOfNumber 10, 5),
   (toyRef (hashOfByte 8) 1, toyKeyOfNumber 3, 7)].filterMap
    (fun s => newMetaTuple toyCodec s.1 s.2.1 s.2.2)

/-- The part offsets of the tuple, counted from the offset of its ref, are
strictly increasing and lie within its buffer, and the last part, the number
of leaves, ends where the buffer ends. -/
def metaTuple.partsWithin {Value : Type} (C : Codec Value) (t : metaTuple) : Prop :=
  t.offsets.ref < t.offsets.key ∧ t.offsets.key < t.offsets.numLeaves ∧
  t.offsets.numLeaves - t.offsets.ref < t.buff.length ∧
  ∃ n, t.numLeaves C = some n ∧
    t.offsets.numLeaves - t.offsets.ref + (C.encCount n).length = t.buff.length

/-- The offsets at which the byte strings start, the first at offset `o`. -/
def startOffsets : Nat → List (List Byte) → List Nat
  | _, [] => []
  | o, b :: bs => o :: startOffsets (o + b.length) bs

/-- The tuple `newMetaTuple` makes of the first spec of scenario B. -/
def scenarioB_tuple0 : metaTuple :=
  (newMetaTuple toyCodec (toyRef (hashOfByte 7) 1) (toyKeyOfNumber 3) 5).getD ⟨[], ⟨0, 0, 0⟩, 0⟩

/-- The view `getItem(1)` of scenario B. -/
def scenarioB_item1 : metaTuple := (scenarioB.getItem toyCodec 1).getD ⟨[], ⟨0, 0, 0⟩, 0⟩

/-- The views `tuples()` of scenario B. -/
def scenarioB_views : List metaTuple := (scenarioB.tuples toyCodec).getD []

/-- The target hash of the ref of item `idx`, as `getChildren` reads it:
`ms.getRefAt(&dec, idx).TargetHash()` on the decoder `ms.decoder()`. -/
def metaSequence.targetHashAt {Value : Type} (C : Codec Value) (ms : metaSequence Value)
    (idx : Nat) : Option Hash :=
  (ms.getRefAt C ms.decoder idx).map (fun p => p.1.TargetHash C)

/-- Modelled from the spec: `sequence.hash()` (sequence.go) on the children of
scenario D: the hash under which the store holds the node with this buffer. -/
def scenarioD_hash : sequence ToyValue → Hash
  | .meta m => ((List.range 4).findSome? (fun i =>
      if m.buff = (scenarioD_child i).1 then some (scenarioD_childHash i) else none)).getD
        emptyHash
  | _ => emptyHash

/-- The Go function `orderedKeyFromInt`: `newOrderedKey(Float(n), nbf)`.  The
conversion `Float(n)` to a float value (float.go) is not among the source
files and is the parameter `Float`. -/
def orderedKeyFromInt {Value : Type} (C : Codec Value) (Float : Int → Value) (n : Int)
    (nbf : Format) : orderedKey Value :=
  newOrderedKey C (Float n) nbf

/-- The Go function `orderedKeyFromUint64`: `newOrderedKey(Float(n), nbf)` for a
`uint64` `n`; `Float` as in `orderedKeyFromInt`. -/
def orderedKeyFromUint64 {Value : Type} (C : Codec Value) (Float : Int → Value) (n : Nat)
    (nbf : Format) : orderedKey Value :=
  newOrderedKey C (Float (u64 n)) nbf

end types

/-! # The conflict reader

The package `merge`, file `conflict_source.go`.  The noms values, the conflict
map and its iterator, the row converters and the pipeline types are not among
the source files; they are modelled as far as `NextConflict` and `createRow`
use them. -/

namespace merge

/-- The Go type `MergeVersion`. -/
inductive MergeVersion where
  | BaseVersion
  | OurVersion
  | TheirVersion
  | Blank
deriving DecidableEq

/-- Modelled from the spec: `types.DiffChangeType` (not among the source files):
the three constants that `NextConflict` uses. -/
inductive DiffChangeType where
  | DiffChangeAdded
  | DiffChangeRemoved
  | DiffChangeModified
deriving DecidableEq

/-- Modelled from the spec: `pipeline.ImmutableProperties` (not among the source
files), as far as `NextConflict` fills it: the properties `merge_version` and
`row_operation`, each set or not.  The zero value and `pipeline.NoProps` set
none. -/
structure ImmutableProperties where
  merge_version : Option MergeVersion
  row_operation : Option DiffChangeType
deriving DecidableEq

def NoProps : ImmutableProperties := ⟨none, none⟩

/-- Modelled from the spec: `pipeline.RowWithProps` (not among the source files):
a row, which may be nil, and its properties. -/
structure RowWithProps (R : Type) where
  Row : Option R
  Props : ImmutableProperties
deriving DecidableEq

def NewRowWithProps {R : Type} (row : Option R) (props : ImmutableProperties) :
    RowWithProps R :=
  ⟨row, props⟩

/-- The Go array type `[3]pipeline.RowWithProps` of the field `bufferedRows`. -/
structure RowBuffer (R : Type) where
  at0 : RowWithProps R
  at1 : RowWithProps R
  at2 : RowWithProps R
deriving DecidableEq

/-- The zero value `[3]pipeline.RowWithProps{}`. -/
def RowBuffer.zero {R : Type} : RowBuffer R := ⟨⟨none, NoProps⟩, ⟨none, NoProps⟩, ⟨none, NoProps⟩⟩

/-- The index expression `bufferedRows[i]` for an `int` index; an index outside
`0..2` panics. -/
def RowBuffer.get? {R : Type} (b : RowBuffer R) (i : Int) : Option (RowWithProps R) :=
  if i = 0 then some b.at0 else if i = 1 then some b.at1 else if i = 2 then some b.at2 else none

/-- Modelled from the spec: `types.Value` (not among the source files), as far as
the conflict reader tells values apart: the nil interface, the null value
`types.NullValue`, and a tuple. -/
inductive Value (T : Type) where
  | nil
  | null
  | tuple (t : T)
deriving DecidableEq

/-- Modelled from the spec: `types.IsNull` (not among the source files): the
value is nil or of the null kind; a tuple is not null. -/
def IsNull {T : Type} : Value T → Bool
  | .nil => true
  | .null => true
  | .tuple _ => false

/-- The type assertion `v.(types.Tuple)`: it panics unless the dynamic type of
`v` is `types.Tuple`. -/
def Value.assertTuple {T : Type} : Value T → Option T
  | .tuple t => some t
  | _ => none

/-- Modelled from the spec: `doltdb.Conflict` (not among the source files): the
three values of a conflict. -/
structure Conflict (T : Type) where
  Base : merge.Value T
  Value : merge.Value T
  MergeValue : merge.Value T

/-- Modelled from the spec: `rowconv.RowConverter` (not among the source files),
with its two uses in `createRow`: `row.FromNoms(rowConv.SrcSch, key, nonKey)`
and `rowConv.Convert(srcData)`, each returning a row or an error. -/
structure RowConverter (T R Err : Type) where
  FromNoms : T → T → Except Err R
  Convert : R → Except Err R

/-- The Go function `createRow`; the result is `none` when the type assertion
`nonKey.(types.Tuple)` panics. -/
def createRow {T R Err : Type} (key : T) (nonKey : Value T) (rowConv : RowConverter T R Err) :
    Option (Except Err (Option R)) :=
  if IsNull nonKey then some (.ok none)
  else
    match nonKey.assertTuple with
    | none => none
    | some t =>
      match rowConv.FromNoms key t with
      | .error err => some (.error err)
      | .ok srcData =>
        match rowConv.Convert srcData with
        | .error err => some (.error err)
        | .ok row => some (.ok (some row))

/-- One answer `key, value, err` of `confItr.Next`, together with the result of
`doltdb.ConflictFromTuple` on the value (a function that is not among the
source files). -/
structure Entry (T Err : Type) where
  key : Value T
  value : Value T
  err : Option Err
  conflict : Except Err (Conflict T)

/-- The Go struct `ConflictReader`: the iterator, as the list of the answers it
has yet to give (at its end it answers with a nil key), the three converters,
the buffered rows and the index.  The field `unionedSch` plays no part in
`NextConflict`. -/
structure ConflictReader (T R Err : Type) where
  confItr : List (Entry T Err)
  baseConv : RowConverter T R Err
  conv : RowConverter T R Err
  mergeConv : RowConverter T R Err
  bufferedRows : RowBuffer R
  currIdx : Int

/-- The reader `NewConflictReader` returns when none of its calls fails: no row
is buffered and the index is 0. -/
def NewConflictReader {T R Err : Type} (confItr : List (Entry T Err))
    (baseConv conv mergeConv : RowConverter T R Err) : ConflictReader T R Err :=
  ⟨confItr, baseConv, conv, mergeConv, RowBuffer.zero, 0⟩

/-- What a call of `NextConflict` comes to: `return result.Row, result.Props,
nil`; `return nil, pipeline.ImmutableProperties{}, err`; `return nil,
pipeline.NoProps, io.EOF`; the panic of a type assertion; or the panic of an
index out of range. -/
inductive Ret (R Err : Type) where
  | row (r : R) (props : ImmutableProperties)
  | err (e : Err)
  | eof
  | typePanic
  | indexPanic
deriving DecidableEq

/-- The statements of `NextConflict` that buffer the rows of one entry, from
`if baseRow != nil` on. -/
def ConflictReader.buffer {T R Err : Type} (cr : ConflictReader T R Err)
    (baseRow r mergeRow : Option R) : ConflictReader T R Err :=
  if baseRow.isSome then
    if mergeRow.isSome ∧ r.isSome then
      { cr with
        bufferedRows :=
          ⟨NewRowWithProps r ⟨some .OurVersion, some .DiffChangeModified⟩,
           NewRowWithProps mergeRow ⟨some .TheirVersion, some .DiffChangeModified⟩,
           NewRowWithProps baseRow ⟨some .BaseVersion, none⟩⟩
        currIdx := 3 }
    else if r.isSome then
      { cr with
        bufferedRows :=
          ⟨NewRowWithProps r ⟨some .OurVersion, some .DiffChangeModified⟩,
           NewRowWithProps baseRow ⟨some .TheirVersion, some .DiffChangeRemoved⟩,
           NewRowWithProps baseRow ⟨some .BaseVersion, none⟩⟩
        currIdx := 3 }
    else
      { cr with
        bufferedRows :=
          ⟨NewRowWithProps baseRow ⟨some .OurVersion, some .DiffChangeRemoved⟩,
           NewRowWithProps mergeRow ⟨some .TheirVersion, some .DiffChangeModified⟩,
           NewRowWithProps baseRow ⟨some .BaseVersion, none⟩⟩
        currIdx := 3 }
  else
    let cr1 : ConflictReader T R Err :=
      if mergeRow.isSome then
        { cr with
          bufferedRows := { cr.bufferedRows with
            at0 := NewRowWithProps mergeRow ⟨some .TheirVersion, some .DiffChangeAdded⟩ }
          currIdx := cr.currIdx + 1 }
      else cr
    if r.isSome then
      { cr1 with
        bufferedRows := { cr1.bufferedRows with
          at1 := NewRowWithProps r ⟨some .OurVersion, some .DiffChangeAdded⟩ }
        currIdx := cr1.currIdx + 1 }
    else cr1

/-- The block `if cr.currIdx == 0 { ... }` of `NextConflict`: it ends the call
(left), with a return or with the panic of a type assertion, or goes on with
the reader (right). -/
def ConflictReader.read {T R Err : Type} (cr : ConflictReader T R Err) :
    (Ret R Err × ConflictReader T R Err) ⊕ ConflictReader T R Err :=
  if cr.currIdx = 0 then
    match cr.confItr with
    | [] => .inl (.eof, cr)
    | e :: rest =>
      let cr1 : ConflictReader T R Err := { cr with confItr := rest }
      match e.err with
      | some err => .inl (.err err, cr1)
      | none =>
        match e.key with
        | .nil => .inl (.eof, cr1)
        | key =>
          match key.assertTuple with
          | none => .inl (.typePanic, cr1)
          | some keyTpl =>
            match e.value.assertTuple with
            | none => .inl (.typePanic, cr1)
            | some _ =>
              match e.conflict with
              | .error err => .inl (.err err, cr1)
              | .ok conflict =>
                match createRow keyTpl conflict.Base cr.baseConv with
                | none => .inl (.typePanic, cr1)
                | some (.error err) => .inl (.err err, cr1)
                | some (.ok baseRow) =>
                  match createRow keyTpl conflict.Value cr.conv with
                  | none => .inl (.typePanic, cr1)
                  | some (.error err) => .inl (.err err, cr1)
                  | some (.ok r) =>
                    match conflict.MergeValue.assertTuple with
                    | none => .inl (.typePanic, cr1)
                    | some mergeTpl =>
                      match createRow keyTpl (.tuple mergeTpl) cr.mergeConv with
                      | none => .inl (.typePanic, cr1)
                      | some (.error err) => .inl (.err err, cr1)
                      | some (.ok mergeRow) => .inr (cr1.buffer baseRow r mergeRow)
  else .inr cr

/-- The loop `for { ... }` of `NextConflict`, at most `fuel` rounds of it; the
result is `none` when the rounds run out. -/
def NextConflict_loop {T R Err : Type} :
    Nat → ConflictReader T R Err → Option (Ret R Err × ConflictReader T R Err)
  | 0, _ => none
  | fuel + 1, cr =>
    match cr.read with
    | .inl out => some out
    | .inr cr1 =>
      let cr2 : ConflictReader T R Err := { cr1 with currIdx := cr1.currIdx - 1 }
      match cr2.bufferedRows.get? cr2.currIdx with
      | none => some (.indexPanic, cr2)
      | some result =>
        match result.Row with
        | some row => some (.row row result.Props, cr2)
        | none => NextConflict_loop fuel cr2

/-- The Go method `ConflictReader.NextConflict`: the loop with as many rounds as
it can take, four for each entry left in the iterator and one for each
buffered slot. -/
def NextConflict {T R Err : Type} (cr : ConflictReader T R Err) :
    Option (Ret R Err × ConflictReader T R Err) :=
  NextConflict_loop (4 * cr.confItr.length + cr.currIdx.toNat + 1) cr

/-- The results of `n` calls of `NextConflict` in a row, and the reader after
them. -/
def NextConflict_calls {T R Err : Type} :
    Nat → ConflictReader T R Err → Option (List (Ret R Err) × ConflictReader T R Err)
  | 0, cr => some ([], cr)
  | n + 1, cr =>
    match NextConflict cr with
    | none => none
    | some (ret, cr1) =>
      match NextConflict_calls n cr1 with
      | none => none
      | some (rets, cr2) => some (ret :: rets, cr2)

/-- The rows C22 names for an entry, with the properties `NextConflict` gives
them: base, theirs, ours when the base row is present (the base row, marked as
removed, standing for an absent row of ours); ours, theirs when the base row
is absent. -/
def claimedRows {R Err : Type} (baseRow r : Option R) (mergeRow : R) : List (Ret R Err) :=
  match baseRow, r with
  | some b, some o =>
    [.row b ⟨some .BaseVersion, none⟩,
     .row mergeRow ⟨some .TheirVersion, some .DiffChangeModified⟩,
     .row o ⟨some .OurVersion, some .DiffChangeModified⟩]
  | some b, none =>
    [.row b ⟨some .BaseVersion, none⟩,
     .row mergeRow ⟨some .TheirVersion, some .DiffChangeModified⟩,
     .row b ⟨some .OurVersion, some .DiffChangeRemoved⟩]
  | none, some o =>
    [.row o ⟨some .OurVersion, some .DiffChangeAdded⟩,
     .row mergeRow ⟨some .TheirVersion, some .DiffChangeAdded⟩]
  | none, none =>
    [.row mergeRow ⟨some .TheirVersion, some .DiffChangeAdded⟩]

/-- A converter for the scenarios: tuples and rows are numbers, the row of the
key `k` and the tuple `t` is `t`, and no conversion fails. -/
def plainConv : RowConverter Nat Nat Unit := ⟨fun _ t => .ok t, fun row => .ok row⟩

/-- An entry with the key tuple 1 whose conflict has the given values. -/
def plainEntry (base value mergeValue : Value Nat) : Entry Nat Unit :=
  ⟨.tuple 1, .tuple 0, none, .ok ⟨base, value, mergeValue⟩⟩

end merge

namespace types

/-! # Properties

## The order of the keys -/

theorem bytesLess_irrefl (a : List Byte) : bytesLess a a = false := by
  induction a with
  | nil => rfl
  | cons x xs ih => simp [bytesLess, ih]

theorem bytesLess_asymm : ∀ a b : List Byte, bytesLess a b = true → bytesLess b a = false := by
  intro a
  induction a with
  | nil => intro b _; cases b <;> simp [bytesLess]
  | cons x xs ih =>
    intro b h
    cases b with
    | nil => simp [bytesLess] at h
    | cons y ys =>
      simp only [bytesLess] at h ⊢
      by_cases hxy : x < y
      · have : ¬ y < x := not_lt.mpr (le_of_lt hxy)
        simp [hxy, this]
      · simp only [hxy, if_false] at h
        by_cases hyx : y < x
        · simp [hyx] at h
        · simp only [hyx, if_false] at h
          simp only [hyx, hxy, if_false]
          exact ih ys h

theorem bytesLess_negtrans : ∀ a b c : List Byte, bytesLess a c = true →
    bytesLess a b = true ∨ bytesLess b c = true := by
  intro a
  induction a with
  | nil =>
    intro b c h
    cases c with
    | nil => simp [bytesLess] at h
    | cons z zs =>
      cases b with
      | nil => right; simp [bytesLess]
      | cons y ys => left; simp [bytesLess]
  | cons x xs ih =>
    intro b c h
    cases c with
    | nil => simp [bytesLess] at h
    | cons z zs =>
      cases b with
      | nil => right; simp [bytesLess]
      | cons y ys =>
        simp only [bytesLess] at h ⊢
        by_cases hxy : x < y
        · left; simp [hxy]
        · by_cases hyz : y < z
          · right; simp [hyz]
          · have hxz : ¬ x < z := by
              intro h1; exact hyz (lt_of_le_of_lt (not_lt.mp hxy) h1)
            simp only [hxz, if_false] at h
            by_cases hzx : z < x
            · simp [hzx] at h
            · simp only [hzx, if_false] at h
              have exz : x = z := le_antisymm (not_lt.mp hzx) (not_lt.mp hxz)
              subst exz
              have eyx : y = x := le_antisymm (not_lt.mp hxy) (not_lt.mp hyz)
              subst eyx
              simp only [lt_irrefl, if_false]
              exact ih ys zs h

theorem bytesLess_iff_lex : ∀ a b : List Byte,
    bytesLess a b = true ↔ List.Lex (fun x y => x < y) a b := by
  intro a
  induction a with
  | nil =>
    intro b
    cases b with
    | nil => simp [bytesLess]
    | cons y ys => simp [bytesLess, List.Lex.nil]
  | cons x xs ih =>
    intro b
    cases b with
    | nil => simp [bytesLess]
    | cons y ys =>
      simp only [bytesLess]
      by_cases hxy : x < y
      · simp only [hxy, if_true, true_iff]
        exact List.Lex.rel hxy
      · simp only [hxy, if_false]
        by_cases hyx : y < x
        · simp only [hyx, if_true]
          constructor
          · intro h; cases h
          · intro h
            cases h with
            | cons h1 => exact absurd hyx (lt_irrefl _)
            | rel h1 => exact absurd h1 hxy
        · simp only [hyx, if_false]
          have e : x = y := le_antisymm (not_lt.mp hyx) (not_lt.mp hxy)
          subst e
          rw [ih ys]
          constructor
          · intro h; exact List.Lex.cons h
          · intro h
            cases h with
            | cons h1 => exact h1
            | rel h1 => exact absurd h1 hxy

theorem Less_isSome_iff {Value : Type} (C : Codec Value) (nbf : Format)
    (a b : orderedKey Value) : (a.Less C nbf b).isSome = a.comparable b := by
  obtain ⟨fa, va, ha⟩ := a
  obtain ⟨fb, vb, hb⟩ := b
  cases fa <;> cases fb <;> cases va <;> cases vb <;>
    simp [orderedKey.Less, orderedKey.comparable] <;>
    cases ha.IsEmpty <;> cases hb.IsEmpty <;> simp

theorem Less_asymm {Value : Type} (C : Codec Value)
    (hasym : ∀ F x y, C.valueLess F x y = true → C.valueLess F y x = false)
    (nbf : Format) (a b : orderedKey Value) (h : a.Less C nbf b = some true) :
    b.Less C nbf a = some false := by
  obtain ⟨fa, va, ha⟩ := a
  obtain ⟨fb, vb, hb⟩ := b
  cases fa <;> cases fb <;> cases va <;> cases vb <;>
    simp [orderedKey.Less] at h ⊢
  all_goals first
    | exact hasym _ _ _ h
    | (obtain ⟨⟨h1, h2⟩, h3⟩ := h
       simp [h1, h2]
       exact bytesLess_asymm _ _ h3)

theorem Less_negtrans {Value : Type} (C : Codec Value)
    (hneg : ∀ F x y z, C.valueLess F x z = true →
      C.valueLess F x y = true ∨ C.valueLess F y z = true)
    (nbf : Format) (a b c : orderedKey Value) (hac : a.Less C nbf c = some true)
    (hab : a.Less C nbf b = some false) (hbc : b.Less C nbf c = some false) : False := by
  obtain ⟨fa, va, ha⟩ := a
  obtain ⟨fb, vb, hb⟩ := b
  obtain ⟨fc, vc, hc⟩ := c
  cases fa <;> cases fb <;> cases fc <;> rcases va with _ | x <;> rcases vb with _ | y <;>
    rcases vc with _ | z <;> simp [orderedKey.Less] at hac hab hbc
  all_goals first
    | (have h4 := hneg nbf x y z hac
       rcases h4 with h | h <;> simp_all)
    | (have h4 := bytesLess_negtrans ha.bytes hb.bytes hc.bytes hac.2
       rcases h4 with h | h <;> simp_all [Hash.Less])

theorem Less_irrefl {Value : Type} (C : Codec Value)
    (hirr : ∀ F x, C.valueLess F x x = false)
    (nbf : Format) (a : orderedKey Value) (h : (a.Less C nbf a).isSome = true) :
    a.Less C nbf a = some false := by
  obtain ⟨fa, va, ha⟩ := a
  cases fa <;> cases va <;> simp [orderedKey.Less] at h ⊢
  all_goals first
    | exact hirr _ _
    | (simp [h, Hash.Less, bytesLess_irrefl])


/-! ## Binary search -/

theorem sortSearch_loop_spec (f : Nat → Option Bool) (p : Nat → Bool) (n : Nat)
    (hf : ∀ h, h < n → f h = some (p h))
    (hmono : ∀ a b, a ≤ b → b < n → p a = true → p b = true) :
    ∀ fuel i j, i ≤ j → j ≤ n → j - i ≤ fuel → (∀ x, x < i → p x = false) →
      (∀ x, j ≤ x → x < n → p x = true) →
      ∃ r, sortSearch_loop f fuel i j = some r ∧ r ≤ n ∧ (∀ x, x < r → p x = false) ∧
        (r < n → p r = true) := by
  intro fuel
  induction fuel with
  | zero =>
    intro i j hij hjn hfuel hlo hhi
    have e : i = j := by omega
    subst e
    refine ⟨i, by simp [sortSearch_loop], hjn, hlo, fun h => hhi i (le_refl _) h⟩
  | succ fuel ih =>
    intro i j hij hjn hfuel hlo hhi
    by_cases hlt : i < j
    · have hh : (i + j) / 2 < n := by omega
      have hih : i ≤ (i + j) / 2 := by omega
      have hhj : (i + j) / 2 < j := by omega
      cases hp : p ((i + j) / 2) with
      | false =>
        have e : sortSearch_loop f (fuel + 1) i j = sortSearch_loop f fuel ((i + j) / 2 + 1) j := by
          simp [sortSearch_loop, hlt, hf _ hh, hp]
        rw [e]
        apply ih _ _ (by omega) hjn (by omega) _ hhi
        intro x hx
        cases hpx : p x with
        | false => rfl
        | true =>
          have := hmono x ((i + j) / 2) (by omega) hh hpx
          rw [hp] at this
          exact absurd this (by simp)
      | true =>
        have e : sortSearch_loop f (fuel + 1) i j = sortSearch_loop f fuel i ((i + j) / 2) := by
          simp [sortSearch_loop, hlt, hf _ hh, hp]
        rw [e]
        apply ih _ _ hih (by omega) (by omega) hlo
        intro x hx hxn
        exact hmono _ _ hx hxn hp
    · have e : i = j := by omega
      subst e
      refine ⟨i, by simp [sortSearch_loop], hjn, hlo, fun h => hhi i (le_refl _) h⟩

theorem sortSearch_spec (f : Nat → Option Bool) (p : Nat → Bool) (n : Nat)
    (hf : ∀ h, h < n → f h = some (p h))
    (hmono : ∀ a b, a ≤ b → b < n → p a = true → p b = true) :
    ∃ r, sortSearch n f = some r ∧ r ≤ n ∧ (∀ x, x < r → p x = false) ∧
      (r < n → p r = true) :=
  sortSearch_loop_spec f p n hf hmono n 0 n (Nat.zero_le _) (le_refl _) (by omega)
    (fun x hx => absurd hx (Nat.not_lt_zero _)) (fun x h1 h2 => absurd h2 (by omega))

/-- The search of a key among child keys that are readable, non-decreasing and
comparable with the probe. -/
theorem search_core {Value : Type} (C : Codec Value) (ms : metaSequence Value)
    (k : orderedKey Value) (n : Nat) (keys : Nat → orderedKey Value)
    (hneg : ∀ F x y z, C.valueLess F x z = true →
      C.valueLess F x y = true ∨ C.valueLess F y z = true)
    (hlen : ms.seqLen C = some n)
    (hkeys : ∀ j, j < n → ms.getKey C j = some (keys j))
    (hmono : ∀ i j, i < j → j < n → (keys j).Less C ms.format (keys i) = some false)
    (hdef : ∀ j, j < n → (keys j).comparable k = true) :
    ∃ i, ms.search C k = some i ∧ i ≤ n ∧
      (∀ j, j < i → (keys j).Less C ms.format k = some true) ∧
      (i < n → (keys i).Less C ms.format k = some false) := by
  have hsome : ∀ j, j < n → ∃ b, (keys j).Less C ms.format k = some b := by
    intro j hj
    have := Less_isSome_iff C ms.format (keys j) k
    rw [hdef j hj] at this
    exact Option.isSome_iff_exists.mp this
  let p : Nat → Bool := fun j => !(((keys j).Less C ms.format k).getD false)
  have hp : ∀ j b, (keys j).Less C ms.format k = some b → p j = !b := by
    intro j b h; simp [p, h]
  obtain ⟨r, hr, hrn, hlo, hhi⟩ := sortSearch_spec
    (fun i => match ms.getKey C i with
      | none => none
      | some k1 => (k1.Less C ms.format k).map (fun b => !b)) p n
    (by
      intro h hh
      obtain ⟨b, hb⟩ := hsome h hh
      simp [hkeys h hh, hb, hp h b hb])
    (by
      intro a b hab hbn hpa
      obtain ⟨x, hx⟩ := hsome a (by omega)
      obtain ⟨y, hy⟩ := hsome b hbn
      rw [hp a x hx] at hpa
      rw [hp b y hy]
      cases y with
      | false => rfl
      | true =>
        exfalso
        rcases Nat.lt_or_ge a b with hlt | hge
        · have hx2 : x = false := by simpa using hpa
          subst hx2
          exact Less_negtrans C hneg ms.format (keys b) (keys a) k hy (hmono a b hlt hbn) hx
        · have e : a = b := by omega
          subst e
          rw [hx] at hy
          simp at hpa
          simp [hpa] at hy)
  refine ⟨r, ?_, hrn, ?_, ?_⟩
  · simp only [metaSequence.search, hlen]
    exact hr
  · intro j hj
    obtain ⟨b, hb⟩ := hsome j (by omega)
    have := hlo j hj
    rw [hp j b hb] at this
    rw [hb]
    cases b <;> simp_all
  · intro hrlt
    obtain ⟨b, hb⟩ := hsome r hrlt
    have := hhi hrlt
    rw [hp r b hb] at this
    rw [hb]
    cases b <;> simp_all


/-! ## The concrete codec is ordered -/

theorem toyValueLess_irrefl (F : Format) (x : ToyValue) : toyValueLess F x x = false := by
  cases x with
  | bool b => cases b <;> rfl
  | number n => simp [toyValueLess]
  | blob id => simp [toyValueLess, Hash.Less, bytesLess_irrefl]

theorem toyValueLess_asymm (F : Format) (x y : ToyValue) (h : toyValueLess F x y = true) :
    toyValueLess F y x = false := by
  cases x with
  | bool a =>
    cases y with
    | bool b => cases a <;> cases b <;> simp_all [toyValueLess]
    | number n => rfl
    | blob id => rfl
  | number a =>
    cases y with
    | bool b => simp [toyValueLess] at h
    | number b => simp [toyValueLess] at h ⊢; omega
    | blob id => rfl
  | blob a =>
    cases y with
    | bool b => simp [toyValueLess] at h
    | number b => simp [toyValueLess] at h
    | blob b => simp only [toyValueLess, Hash.Less] at h ⊢; exact bytesLess_asymm _ _ h

theorem toyValueLess_negtrans (F : Format) (x y z : ToyValue) (h : toyValueLess F x z = true) :
    toyValueLess F x y = true ∨ toyValueLess F y z = true := by
  cases x with
  | bool a =>
    cases z with
    | bool c =>
      cases y with
      | bool b => cases a <;> cases b <;> cases c <;> simp_all [toyValueLess]
      | number n => left; rfl
      | blob id => left; rfl
    | number c =>
      cases y with
      | bool b => right; rfl
      | number n => left; rfl
      | blob id => left; rfl
    | blob c =>
      cases y with
      | bool b => right; rfl
      | number n => left; rfl
      | blob id => left; rfl
  | number a =>
    cases z with
    | bool c => simp [toyValueLess] at h
    | number c =>
      cases y with
      | bool b => right; rfl
      | number n => simp [toyValueLess] at h ⊢; omega
      | blob id => left; rfl
    | blob c =>
      cases y with
      | bool b => right; rfl
      | number n => right; rfl
      | blob id => left; rfl
  | blob a =>
    cases z with
    | bool c => simp [toyValueLess] at h
    | number c => simp [toyValueLess] at h
    | blob c =>
      cases y with
      | bool b => right; rfl
      | number n => right; rfl
      | blob b => simp only [toyValueLess, Hash.Less] at h ⊢; exact bytesLess_negtrans _ _ _ h

/-! ## Claims on the order of the keys and on `search` -/

/-- C6, as stated, fails: two hash-ordered keys one of which has the empty
digest are not compared by the lexicographic order, `Less` panics. -/
theorem Less_rule_table_counterexample :
    (toyKeyOfHash 1).Less toyCodec 0 emptyKey = none ∧
      (toyKeyOfHash 1).Less toyCodec 0 emptyKey ≠ some ((hashOfByte 1).Less emptyHash) := by
  decide

/-- C6, amended: `orderedKey.Less` follows the rule table.  Two value-ordered
keys compare as their values do; a value-ordered key is less than a
hash-ordered one and a hash-ordered key is not less than a value-ordered one;
two hash-ordered keys with non-empty digests compare in the lexicographic order
of the digests, and `Less` panics when one of the two digests is empty. -/
theorem Less_rule_table {Value : Type} (C : Codec Value) (nbf : Format) (x y : Value)
    (v1 v2 : Option Value) (h1 h2 : Hash) :
    (orderedKey.mk true (some x) h1).Less C nbf ⟨true, some y, h2⟩ = some (C.valueLess nbf x y) ∧
    (orderedKey.mk true v1 h1).Less C nbf ⟨false, v2, h2⟩ = some true ∧
    (orderedKey.mk false v1 h1).Less C nbf ⟨true, v2, h2⟩ = some false ∧
    (orderedKey.mk false v1 h1).Less C nbf ⟨false, v2, h2⟩ =
      (if h1.IsEmpty || h2.IsEmpty then none
       else some (decide (List.Lex (fun a b : Byte => a < b) h1.bytes h2.bytes))) := by
  refine ⟨by simp [orderedKey.Less], by simp [orderedKey.Less], by simp [orderedKey.Less], ?_⟩
  have e : h1.Less h2 = decide (List.Lex (fun a b : Byte => a < b) h1.bytes h2.bytes) := by
    rw [Bool.eq_iff_iff]
    simp only [Hash.Less, decide_eq_true_eq]
    exact bytesLess_iff_lex _ _
  simp [orderedKey.Less, e]

/-- C7, as stated, fails: `Less` returns no result for two hash-ordered keys one
of which has the empty digest. -/
theorem Less_total_counterexample :
    (emptyKey : orderedKey ToyValue).Less toyCodec 0 (toyKeyOfHash 1) = none ∧
      (toyKeyOfHash 1).Less toyCodec 0 emptyKey = none := by
  decide

/-- C7, amended: `Less` returns a result for `a` and `b` exactly when they are
comparable (not both value-ordered with a nil value, not both hash-ordered with
an empty digest), and then, the order of the values being asymmetric, exactly
one of `a.Less(b)`, `b.Less(a)` and "neither" holds. -/
theorem Less_total {Value : Type} (C : Codec Value)
    (hasym : ∀ F x y, C.valueLess F x y = true → C.valueLess F y x = false)
    (nbf : Format) (a b : orderedKey Value) :
    ((a.Less C nbf b).isSome = a.comparable b) ∧
    ((b.Less C nbf a).isSome = a.comparable b) ∧
    (a.comparable b = true →
      ∃ x y, a.Less C nbf b = some x ∧ b.Less C nbf a = some y ∧
        ((x = true ∧ y = false) ∨ (x = false ∧ y = true) ∨ (x = false ∧ y = false))) := by
  have hsym : b.comparable a = a.comparable b := by
    obtain ⟨fa, va, ha⟩ := a
    obtain ⟨fb, vb, hb⟩ := b
    cases fa <;> cases fb <;> simp [orderedKey.comparable, Bool.and_comm]
  refine ⟨Less_isSome_iff C nbf a b, ?_, ?_⟩
  · rw [Less_isSome_iff C nbf b a, hsym]
  · intro hc
    have h1 := Less_isSome_iff C nbf a b
    have h2 := Less_isSome_iff C nbf b a
    rw [hc] at h1
    rw [hsym, hc] at h2
    obtain ⟨x, hx⟩ := Option.isSome_iff_exists.mp h1
    obtain ⟨y, hy⟩ := Option.isSome_iff_exists.mp h2
    refine ⟨x, y, hx, hy, ?_⟩
    cases x with
    | false => cases y <;> simp
    | true =>
      have := Less_asymm C hasym nbf a b hx
      rw [hy] at this
      simp at this
      simp [this]

theorem Less_total_witness :
    (((toyKeyOfNumber 3).Less toyCodec 0 (toyKeyOfHash 1)).isSome =
        (toyKeyOfNumber 3).comparable (toyKeyOfHash 1)) ∧
    (((toyKeyOfHash 1).Less toyCodec 0 (toyKeyOfNumber 3)).isSome =
        (toyKeyOfNumber 3).comparable (toyKeyOfHash 1)) ∧
    ((toyKeyOfNumber 3).comparable (toyKeyOfHash 1) = true →
      ∃ x y, (toyKeyOfNumber 3).Less toyCodec 0 (toyKeyOfHash 1) = some x ∧
        (toyKeyOfHash 1).Less toyCodec 0 (toyKeyOfNumber 3) = some y ∧
        ((x = true ∧ y = false) ∨ (x = false ∧ y = true) ∨ (x = false ∧ y = false))) :=
  Less_total toyCodec toyValueLess_asymm 0 (toyKeyOfNumber 3) (toyKeyOfHash 1)

/-- C1, as stated, fails: on a node whose one child key is hash-ordered, the
search of the empty key (a hash-ordered key with the empty digest) returns no
index, `Less` panics. -/
theorem search_lower_bound_counterexample :
    oneHashKey.seqLen toyCodec = some 1 ∧
      oneHashKey.getKey toyCodec 0 = some (toyKeyOfHash 1) ∧
      oneHashKey.search toyCodec emptyKey = none := by
  decide

/-- C1, amended: for a meta sequence with `n` readable child keys that are
non-decreasing under `Less`, and a probe `k` that is comparable with every
child key, `search(k)` returns the index `i <= n` such that every key before
`i` is less than `k` and, if `i < n`, the key at `i` is not less than `k`
(the order of the in-band values being a strict weak order). -/
theorem search_lower_bound {Value : Type} (C : Codec Value) (ms : metaSequence Value)
    (k : orderedKey Value) (n : Nat) (keys : Nat → orderedKey Value)
    (hneg : ∀ F x y z, C.valueLess F x z = true →
      C.valueLess F x y = true ∨ C.valueLess F y z = true)
    (hlen : ms.seqLen C = some n)
    (hkeys : ∀ j, j < n → ms.getKey C j = some (keys j))
    (hmono : ∀ i j, i < j → j < n → (keys j).Less C ms.format (keys i) = some false)
    (hdef : ∀ j, j < n → (keys j).comparable k = true) :
    ∃ i, ms.search C k = some i ∧ i ≤ n ∧
      (∀ j, j < i → (keys j).Less C ms.format k = some true) ∧
      (i < n → (keys i).Less C ms.format k = some false) :=
  search_core C ms k n keys hneg hlen hkeys hmono hdef

theorem search_lower_bound_witness :
    ∃ i, scenarioB.search toyCodec (toyKeyOfNumber 10) = some i ∧ i ≤ 3 ∧
      (∀ j, j < i → (scenarioB_keys j).Less toyCodec scenarioB.format (toyKeyOfNumber 10)
        = some true) ∧
      (i < 3 → (scenarioB_keys i).Less toyCodec scenarioB.format (toyKeyOfNumber 10)
        = some false) :=
  search_lower_bound toyCodec scenarioB (toyKeyOfNumber 10) 3 scenarioB_keys
    toyValueLess_negtrans (by decide)
    (by intro j hj; interval_cases j <;> decide)
    (by intro i j hij hj; interval_cases j <;> interval_cases i <;> decide)
    (by intro j hj; interval_cases j <;> decide)

/-- C8, as stated, fails: on a node whose one child key is the empty key, the
search of that child key returns no index. -/
theorem search_first_occurrence_counterexample :
    (toyMetaSequence toySetKind 1 [(hashOfByte 7, emptyKey, 4)]).seqLen toyCodec = some 1 ∧
    (toyMetaSequence toySetKind 1 [(hashOfByte 7, emptyKey, 4)]).getKey toyCodec 0
      = some emptyKey ∧
    (toyMetaSequence toySetKind 1 [(hashOfByte 7, emptyKey, 4)]).search toyCodec emptyKey
      = none := by
  decide

/-- C8, amended: for a meta sequence with `n` readable, non-decreasing child
keys and an index `j < n` whose key is comparable with every child key (itself
included), `search(getKey(j))` returns the smallest index whose key is
equivalent to `getKey(j)`: an index `i <= j` such that neither of the keys at
`i` and `j` is less than the other, while every key before `i` is less than
the key at `j`. -/
theorem search_first_occurrence {Value : Type} (C : Codec Value) (ms : metaSequence Value)
    (n : Nat) (keys : Nat → orderedKey Value) (j : Nat)
    (hirr : ∀ F x, C.valueLess F x x = false)
    (hneg : ∀ F x y z, C.valueLess F x z = true →
      C.valueLess F x y = true ∨ C.valueLess F y z = true)
    (hlen : ms.seqLen C = some n)
    (hkeys : ∀ i, i < n → ms.getKey C i = some (keys i))
    (hmono : ∀ i l, i < l → l < n → (keys l).Less C ms.format (keys i) = some false)
    (hj : j < n)
    (hdef : ∀ i, i < n → (keys i).comparable (keys j) = true) :
    ∃ i, ms.search C (keys j) = some i ∧ i ≤ j ∧
      (keys i).Less C ms.format (keys j) = some false ∧
      (keys j).Less C ms.format (keys i) = some false ∧
      (∀ x, x < i → (keys x).Less C ms.format (keys j) = some true) := by
  obtain ⟨i, hs, hin, hlo, hhi⟩ := search_core C ms (keys j) n keys hneg hlen hkeys hmono hdef
  have hjj : (keys j).Less C ms.format (keys j) = some false := by
    apply Less_irrefl C hirr
    rw [Less_isSome_iff]; exact hdef j hj
  have hij : i ≤ j := by
    by_contra hcon
    have := hlo j (by omega)
    rw [hjj] at this
    simp at this
  refine ⟨i, hs, hij, hhi (by omega), ?_, hlo⟩
  rcases Nat.lt_or_ge i j with hlt | hge
  · exact hmono i j hlt hj
  · have e : i = j := by omega
    rw [e]; exact hjj

theorem search_first_occurrence_witness :
    ∃ i, scenarioB.search toyCodec (scenarioB_keys 1) = some i ∧ i ≤ 1 ∧
      (scenarioB_keys i).Less toyCodec scenarioB.format (scenarioB_keys 1) = some false ∧
      (scenarioB_keys 1).Less toyCodec scenarioB.format (scenarioB_keys i) = some false ∧
      (∀ x, x < i →
        (scenarioB_keys x).Less toyCodec scenarioB.format (scenarioB_keys 1) = some true) :=
  search_first_occurrence toyCodec scenarioB 3 scenarioB_keys 1
    toyValueLess_irrefl toyValueLess_negtrans (by decide)
    (by intro j hj; interval_cases j <;> decide)
    (by intro i j hij hj; interval_cases j <;> interval_cases i <;> decide)
    (by decide)
    (by intro j hj; interval_cases j <;> decide)

/-- C9, as stated, fails: in scenario B the search of the hash-ordered key with
the all-zero digest does not return 2, it returns no index. -/
theorem search_scenario_B_counterexample :
    scenarioB.getKey toyCodec 0 = some (toyKeyOfNumber 3) ∧
    scenarioB.getKey toyCodec 1 = some (toyKeyOfNumber 10) ∧
    scenarioB.getKey toyCodec 2 = some (toyKeyOfHash 1) ∧
    scenarioB.search toyCodec (orderedKeyFromHash emptyHash) = none ∧
    scenarioB.search toyCodec (orderedKeyFromHash emptyHash) ≠ some 2 := by
  decide

/-- C9, amended: on a meta sequence of three tuples with the keys value-ordered
`v3`, value-ordered `v10` (where `v3 < v10`) and hash-ordered `0x00...01`, the
search of value-ordered `v10` returns 1, the search of hash-ordered `0x00...02`
returns 3, and the search of the hash-ordered key with the all-zero digest
returns no index: its comparison with the hash-ordered child key panics. -/
theorem search_scenario_B {Value : Type} (C : Codec Value) (ms : metaSequence Value)
    (v3 v10 : Value)
    (hlt : C.valueLess ms.format v3 v10 = true)
    (hirr : C.valueLess ms.format v10 v10 = false)
    (hlen : ms.seqLen C = some 3)
    (hk0 : ms.getKey C 0 = some ⟨true, some v3, emptyHash⟩)
    (hk1 : ms.getKey C 1 = some ⟨true, some v10, emptyHash⟩)
    (hk2 : ms.getKey C 2 = some (orderedKeyFromHash (hashOfByte 1))) :
    ms.search C ⟨true, some v10, emptyHash⟩ = some 1 ∧
    ms.search C (orderedKeyFromHash (hashOfByte 2)) = some 3 ∧
    ms.search C (orderedKeyFromHash emptyHash) = none := by
  have e1 : (hashOfByte 1).IsEmpty = false := by decide
  have e2 : (hashOfByte 2).IsEmpty = false := by decide
  have e0 : emptyHash.IsEmpty = true := by decide
  have e12 : (hashOfByte 1).Less (hashOfByte 2) = true := by decide
  refine ⟨?_, ?_, ?_⟩ <;>
    simp [metaSequence.search, hlen, sortSearch, sortSearch_loop, hk0, hk1, hk2,
      orderedKey.Less, orderedKeyFromHash, hlt, hirr, e1, e2, e0, e12]

theorem search_scenario_B_witness :
    scenarioB.search toyCodec ⟨true, some (.number 10), emptyHash⟩ = some 1 ∧
    scenarioB.search toyCodec (orderedKeyFromHash (hashOfByte 2)) = some 3 ∧
    scenarioB.search toyCodec (orderedKeyFromHash emptyHash) = none :=
  search_scenario_B toyCodec scenarioB (.number 3) (.number 10) (by decide) (by decide)
    (by decide) (by decide) (by decide) (by decide)

/-! ## Machine integers, writer, decoder -/

theorem u32_of_lt {n : Nat} (h : n < 2 ^ 32) : u32 n = n := Nat.mod_eq_of_lt h

theorem u32_u32_add (a b : Nat) : u32 (u32 a + b) = u32 (a + b) := by
  simp [u32, Nat.add_mod]

theorem u32sub_add_left {a b : Nat} (h : a + b < 2 ^ 32) : u32sub (a + b) a = b := by
  have ha : a < 2 ^ 32 := by omega
  simp only [u32sub, u32, Nat.mod_eq_of_lt ha]
  omega

theorem u64_u64_add (a b : Nat) : u64 (u64 a + b) = u64 (a + b) := by
  simp [u64, Nat.add_mod]

theorem writeRaw_writeRaw (w : binaryNomsWriter) (a b : List Byte) :
    (w.writeRaw a).writeRaw b = w.writeRaw (a ++ b) := by
  simp [binaryNomsWriter.writeRaw, u32_u32_add, Nat.add_assoc]

theorem writeRaw_new_data (bs : List Byte) (h : bs.length < 2 ^ 32) :
    (newBinaryNomsWriter.writeRaw bs).data = bs := by
  have e : u32 (0 + bs.length) = bs.length := by rw [Nat.zero_add]; exact u32_of_lt h
  simp only [binaryNomsWriter.writeRaw, newBinaryNomsWriter, binaryNomsWriter.data, e]
  simp only [List.nil_append, List.take_length]

theorem writeTo_eq_encoding {Value : Type} [DecidableEq Value] (C : Codec Value)
    (key : orderedKey Value) (w : binaryNomsWriter) (nbf : Format) :
    key.writeTo C w nbf = (key.encoding C nbf).map w.writeRaw := by
  unfold orderedKey.writeTo orderedKey.encoding
  split
  · split
    · rfl
    · simp [NomsKind_writeTo, binaryNomsWriter.writeHash, writeRaw_writeRaw]
  · cases key.v <;> rfl

theorem newValueDecoder_At (bs : List Byte) (h : bs.length < 2 ^ 32) :
    (newValueDecoder bs).At bs := by
  refine ⟨h, Nat.zero_le _, ?_⟩
  simp [newValueDecoder, valueDecoder.rest]

theorem At_advance {dec : valueDecoder} {x rest : List Byte} (h : dec.At (x ++ rest)) :
    (dec.advance x.length).At rest ∧ (dec.advance x.length).offset = dec.offset + x.length ∧
      (dec.advance x.length).buff = dec.buff := by
  obtain ⟨h1, h2, h3⟩ := h
  have hlen : (x ++ rest).length = dec.buff.length - dec.offset := by
    rw [← h3]; simp [valueDecoder.rest]
  have hle : dec.offset + x.length ≤ dec.buff.length := by
    simp at hlen; omega
  have hu : u32 (dec.offset + x.length) = dec.offset + x.length := u32_of_lt (by omega)
  refine ⟨⟨h1, ?_, ?_⟩, ?_, rfl⟩
  · simp [valueDecoder.advance, hu, hle]
  · simp only [valueDecoder.advance, valueDecoder.rest, hu]
    rw [← List.drop_drop]
    simp only [valueDecoder.rest] at h3
    rw [h3]; simp
  · simp [valueDecoder.advance, hu]

theorem advance_advance (dec : valueDecoder) (a b : Nat) :
    (dec.advance a).advance b = dec.advance (a + b) := by
  simp [valueDecoder.advance, u32_u32_add, Nat.add_assoc]

theorem skipRef_At {Value : Type} (C : Codec Value) {dec : valueDecoder} {r rest : List Byte}
    (hr : C.validRef r) (h : dec.At (r ++ rest)) :
    dec.skipRef C = some (dec.advance r.length) := by
  simp [valueDecoder.skipRef, h.2.2, (hr rest).1]

theorem skipValue_ref_At {Value : Type} (C : Codec Value) {dec : valueDecoder}
    {r rest : List Byte} (nbf : Format) (hr : C.validRef r) (h : dec.At (r ++ rest)) :
    dec.skipValue C nbf = some (dec.advance r.length) := by
  simp [valueDecoder.skipValue, h.2.2, (hr rest).2 nbf]

theorem readCount_At {Value : Type} (C : Codec Value) (hC : C.Lawful) {dec : valueDecoder}
    {n : Nat} {rest : List Byte} (hn : n < 2 ^ 64) (h : dec.At (C.encCount n ++ rest)) :
    dec.readCount C = some (n, dec.advance (C.encCount n).length) := by
  simp [valueDecoder.readCount, h.2.2, hC.readCount_enc n rest hn]

theorem skipCount_At {Value : Type} (C : Codec Value) (hC : C.Lawful) {dec : valueDecoder}
    {n : Nat} {rest : List Byte} (hn : n < 2 ^ 64) (h : dec.At (C.encCount n ++ rest)) :
    dec.skipCount C = some (dec.advance (C.encCount n).length) := by
  simp [valueDecoder.skipCount, h.2.2, hC.readCount_enc n rest hn]

theorem readOrderedKey_At {Value : Type} [DecidableEq Value] (C : Codec Value) (hC : C.Lawful)
    {dec : valueDecoder} {key : orderedKey Value} {nbf : Format} {kb rest : List Byte}
    (hk : key.encoding C nbf = some kb) (h : dec.At (kb ++ rest)) :
    dec.readOrderedKey C nbf = some (key.readBack C nbf, dec.advance kb.length) := by
  unfold orderedKey.encoding at hk
  cases hf : key.isOrderedByValue with
  | false =>
    simp only [hf, Bool.not_false, if_true] at hk
    split at hk
    · simp at hk
    · simp only [Option.some.injEq] at hk
      subst hk
      have hp : dec.peekKind = some C.hashKind := by
        simp [valueDecoder.peekKind, h.2.2]
      have h1 := @At_advance dec [C.hashKind] (key.h.bytes ++ rest) (by simpa using h)
      have hrest : dec.skipKind.rest = key.h.bytes ++ rest := h1.1.2.2
      have htake : dec.skipKind.rest.take 20 = key.h.bytes := by
        rw [hrest]; simp [key.h.len]
      have hh : dec.skipKind.readHash = some (key.h, dec.skipKind.advance 20) := by
        unfold valueDecoder.readHash
        have hl : (dec.skipKind.rest.take 20).length = 20 := by rw [htake]; exact key.h.len
        rw [dif_pos hl]
        congr 2
        cases hkh : key.h with
        | mk bytes len =>
          simp only [Hash.mk.injEq]
          rw [htake, hkh]
      simp only [valueDecoder.readOrderedKey, hp, if_true, hh]
      simp [orderedKey.readBack, hf, valueDecoder.skipKind, advance_advance, key.h.len,
        Nat.add_comm]
  | true =>
    cases hv : key.v with
    | none => simp [hf, hv] at hk
    | some v =>
      simp only [hf, hv, Bool.not_true, Bool.false_eq_true, if_false, Option.some.injEq] at hk
      subst hk
      have hhead := hC.encValue_head nbf v
      have hp : dec.peekKind = some (C.valueKind v) := by
        simp only [valueDecoder.peekKind, h.2.2]
        cases he : C.encValue nbf v with
        | nil => rw [he] at hhead; simp at hhead
        | cons b bs => rw [he] at hhead; simpa using hhead
      simp [valueDecoder.readOrderedKey, hp, hC.valueKind_ne_hashKind v, valueDecoder.readValue,
        h.2.2, hC.readValue_enc, orderedKey.readBack, hf, hv]

theorem skipOrderedKey_At {Value : Type} [DecidableEq Value] (C : Codec Value) (hC : C.Lawful)
    {dec : valueDecoder} {key : orderedKey Value} {nbf : Format} {kb rest : List Byte}
    (hk : key.encoding C nbf = some kb) (h : dec.At (kb ++ rest)) :
    dec.skipOrderedKey C nbf = some (dec.advance kb.length) := by
  unfold orderedKey.encoding at hk
  cases hf : key.isOrderedByValue with
  | false =>
    simp only [hf, Bool.not_false, if_true] at hk
    split at hk
    · simp at hk
    · simp only [Option.some.injEq] at hk
      subst hk
      have hp : dec.peekKind = some C.hashKind := by
        simp [valueDecoder.peekKind, h.2.2]
      have h1 := @At_advance dec [C.hashKind] (key.h.bytes ++ rest) (by simpa using h)
      have hrest : dec.skipKind.rest = key.h.bytes ++ rest := h1.1.2.2
      have htake : dec.skipKind.rest.take 20 = key.h.bytes := by
        rw [hrest]; simp [key.h.len]
      simp only [valueDecoder.skipOrderedKey, hp, if_true, valueDecoder.skipHash, htake, key.h.len]
      simp [valueDecoder.skipKind, advance_advance, key.h.len, Nat.add_comm]
  | true =>
    cases hv : key.v with
    | none => simp [hf, hv] at hk
    | some v =>
      simp only [hf, hv, Bool.not_true, Bool.false_eq_true, if_false, Option.some.injEq] at hk
      subst hk
      have hhead := hC.encValue_head nbf v
      have hp : dec.peekKind = some (C.valueKind v) := by
        simp only [valueDecoder.peekKind, h.2.2]
        cases he : C.encValue nbf v with
        | nil => rw [he] at hhead; simp at hhead
        | cons b bs => rw [he] at hhead; simpa using hhead
      simp [valueDecoder.skipOrderedKey, hp, hC.valueKind_ne_hashKind v, valueDecoder.skipValue,
        h.2.2, hC.skipValue_enc]

/-! ## Meta tuples -/

theorem WF_keyBytes {Value : Type} [DecidableEq Value] {C : Codec Value} {nbf : Format}
    {p : TupleParts Value} (h : p.WF C nbf) : p.key.encoding C nbf = some (p.keyBytes C nbf) := by
  obtain ⟨kb, hkb⟩ := Option.isSome_iff_exists.mp h.2.1
  simp [TupleParts.keyBytes, hkb]

theorem newMetaTuple_Holds {Value : Type} [DecidableEq Value] (C : Codec Value) (ref : Ref)
    (key : orderedKey Value) (n : Nat) (t : metaTuple) (r : List Byte)
    (ht : newMetaTuple C ref key n = some t) (hr : ref.buff = some r)
    (hsize : (TupleParts.bytes C ref.nbf ⟨r, key, n⟩).length < 2 ^ 32) :
    t.Holds C ref.nbf ⟨r, key, n⟩ ∧ t.nbf = ref.nbf ∧ t.offsets.ref = 0 ∧
      (key.encoding C ref.nbf).isSome = true := by
  unfold newMetaTuple at ht
  simp only [hr, reduceCtorEq, if_false, writeTo_eq_encoding, Ref.format] at ht
  cases hk : key.encoding C ref.nbf with
  | none => simp [hk] at ht
  | some kb =>
    simp only [hk, Option.map_some', Option.some.injEq] at ht
    have hsz : (r ++ (kb ++ C.encCount n)).length < 2 ^ 32 := by
      simpa [TupleParts.bytes, TupleParts.keyBytes, hk] using hsize
    have hsz2 := hsz
    simp only [List.length_append] at hsz2
    have e1 : (Ref.writeTo ref newBinaryNomsWriter) = newBinaryNomsWriter.writeRaw r := by
      simp [Ref.writeTo, hr]
    rw [e1] at ht
    simp only [binaryNomsWriter.writeCount, writeRaw_writeRaw] at ht
    rw [writeRaw_new_data _ (by simpa using hsz)] at ht
    subst ht
    have o1 : (newBinaryNomsWriter.writeRaw r).offset = r.length := by
      simp only [binaryNomsWriter.writeRaw, newBinaryNomsWriter, Nat.zero_add]
      exact u32_of_lt (by omega)
    have o2 : (newBinaryNomsWriter.writeRaw (r ++ kb)).offset = r.length + kb.length := by
      simp only [binaryNomsWriter.writeRaw, newBinaryNomsWriter, Nat.zero_add, List.length_append]
      exact u32_of_lt (by omega)
    refine ⟨⟨?_, ?_, ?_, ?_⟩, rfl, rfl, rfl⟩
    · simp [TupleParts.bytes, TupleParts.keyBytes, hk]
    · simpa [newBinaryNomsWriter] using o1
    · simpa [newBinaryNomsWriter, TupleParts.keyBytes, hk] using o2
    · simpa [newBinaryNomsWriter] using hsz

theorem Holds_numLeaves {Value : Type} [DecidableEq Value] (C : Codec Value) (hC : C.Lawful)
    {nbf : Format} {t : metaTuple} {p : TupleParts Value} (hp : p.WF C nbf)
    (h : t.Holds C nbf p) : t.numLeaves C = some p.numLeaves := by
  obtain ⟨hb, hk, hn, hs⟩ := h
  have hlen : t.buff.length = p.ref.length + ((p.keyBytes C nbf).length +
      (C.encCount p.numLeaves).length) := by
    rw [hb]; simp [TupleParts.bytes]
  have hoff : u32sub (t.offsets.get metaTuplePartNumLeaves) (t.offsets.get metaTuplePartRef)
      = p.ref.length + (p.keyBytes C nbf).length := by
    simp only [metaTupleOffsets.get, metaTuplePartNumLeaves, metaTuplePartRef, metaTuplePartKey]
    simp only [hn, Nat.add_assoc]
    exact u32sub_add_left (by omega)
  have hdrop : t.buff.drop (p.ref.length + (p.keyBytes C nbf).length)
      = C.encCount p.numLeaves := by
    rw [hb]
    simp [TupleParts.bytes, ← List.append_assoc]
  simp only [metaTuple.numLeaves, metaTuple.decoderAtPart, hoff, sliceFrom]
  rw [if_pos (by omega)]
  simp only [hdrop]
  have hat : (newValueDecoder (C.encCount p.numLeaves)).At (C.encCount p.numLeaves ++ []) := by
    rw [List.append_nil]
    exact newValueDecoder_At _ (by omega)
  rw [readCount_At C hC hp.2.2 hat]
  rfl

theorem readTuple_At {Value : Type} [DecidableEq Value] (C : Codec Value) (hC : C.Lawful)
    (ms : metaSequence Value) {dec : valueDecoder} {p : TupleParts Value} {rest : List Byte}
    (hp : p.WF C ms.format) (h : dec.At (p.bytes C ms.format ++ rest)) :
    ∃ t, ms.readTuple C dec = some (t, dec.advance (p.bytes C ms.format).length) ∧
      t.Holds C ms.format p ∧ t.nbf = ms.format ∧ t.offsets.ref = dec.offset := by
  have hkb := WF_keyBytes hp
  have h0 : dec.At (p.ref ++ (p.keyBytes C ms.format ++ (C.encCount p.numLeaves ++ rest))) := by
    simpa [TupleParts.bytes, List.append_assoc] using h
  have s1 := skipRef_At C hp.1 h0
  obtain ⟨a1, o1, b1⟩ := At_advance h0
  have s2 := skipOrderedKey_At C hC hkb a1
  obtain ⟨a2, o2, b2⟩ := At_advance a1
  have s3 := skipCount_At C hC hp.2.2 a2
  obtain ⟨a3, o3, b3⟩ := At_advance a2
  have hle : dec.offset + (p.bytes C ms.format).length ≤ dec.buff.length := by
    have := a3.2.1
    rw [o3, o2, o1, b3, b2, b1] at this
    simp only [TupleParts.bytes, List.length_append]
    omega
  have hslice : ((dec.advance p.ref.length).advance (p.keyBytes C ms.format).length).advance
      (C.encCount p.numLeaves).length = dec.advance (p.bytes C ms.format).length := by
    simp [advance_advance, TupleParts.bytes, Nat.add_assoc]
  have hbs : (dec.buff.drop dec.offset).take (p.bytes C ms.format).length
      = p.bytes C ms.format := by
    have := h.2.2
    simp only [valueDecoder.rest] at this
    rw [this]; simp
  have ho3 : (((dec.advance p.ref.length).advance (p.keyBytes C ms.format).length).advance
      (C.encCount p.numLeaves).length).offset = dec.offset + (p.bytes C ms.format).length := by
    rw [o3, o2, o1]; simp only [TupleParts.bytes, List.length_append]; omega
  refine ⟨⟨p.bytes C ms.format, ⟨dec.offset, dec.offset + p.ref.length,
    dec.offset + p.ref.length + (p.keyBytes C ms.format).length⟩, ms.format⟩, ?_, ?_, rfl, rfl⟩
  · simp only [metaSequence.readTuple, s1, s2, s3, valueDecoder.byteSlice, ho3, b3, b2, b1]
    rw [if_pos ⟨by omega, hle⟩]
    simp only [Nat.add_sub_cancel_left, hbs, o1, o2, hslice]
  · refine ⟨rfl, rfl, rfl, ?_⟩
    have := h.1
    simp only at hle ⊢
    omega

/-! ## The builder -/

theorem concatBytes_append (a b : List (List Byte)) :
    concatBytes (a ++ b) = concatBytes a ++ concatBytes b := by
  induction a with
  | nil => rfl
  | cons x xs ih => simp [concatBytes, ih]

theorem concatBytes_drop (bs : List (List Byte)) (i : Nat) :
    (concatBytes bs).drop (concatBytes (bs.take i)).length = concatBytes (bs.drop i) := by
  conv_lhs => rw [← List.take_append_drop i bs, concatBytes_append]
  simp

theorem endOffsets_get (bs : List (List Byte)) : ∀ (o i : Nat), i ≤ bs.length →
    (o :: endOffsets o bs).get? i = some (o + (concatBytes (bs.take i)).length) := by
  induction bs with
  | nil => intro o i hi; simp at hi; subst hi; simp [concatBytes]
  | cons b bs ih =>
    intro o i hi
    cases i with
    | zero => simp [concatBytes]
    | succ i =>
      simp only [endOffsets, List.get?_cons_succ]
      rw [ih (o + b.length) i (by simpa using hi)]
      simp [concatBytes, Nat.add_assoc]

theorem endOffsets_length (bs : List (List Byte)) : ∀ o, (endOffsets o bs).length = bs.length := by
  induction bs with
  | nil => intro o; rfl
  | cons b bs ih => intro o; simp [endOffsets, ih]

theorem u64_of_lt {n : Nat} (h : n < 2 ^ 64) : u64 n = n := Nat.mod_eq_of_lt h

theorem u64_lt (n : Nat) : u64 n < 2 ^ 64 := Nat.mod_lt _ (by norm_num)

theorem builder_loop {Value : Type} [DecidableEq Value] (C : Codec Value) (hC : C.Lawful)
    (nbf : Format) : ∀ (ts : List metaTuple) (ps : List (TupleParts Value))
    (w : binaryNomsWriter) (offs : List Nat) (len : Nat),
    List.Forall₂ (fun t p => t.Holds C nbf p) ts ps → (∀ p, p ∈ ps → p.WF C nbf) →
    w.offset + (concatBytes (ps.map (fun p => p.bytes C nbf))).length < 2 ^ 32 →
    len < 2 ^ 64 →
    newMetaSequenceFromTuples_loop C ts w offs len =
      some (w.writeRaw (concatBytes (ps.map (fun p => p.bytes C nbf))),
        offs ++ endOffsets w.offset (ps.map (fun p => p.bytes C nbf)),
        u64 (len + (ps.map (fun p => p.numLeaves)).sum)) := by
  intro ts ps w offs len h
  induction h generalizing w offs len with
  | nil =>
    intro _ hsz hlen
    have hw : u32 w.offset = w.offset := u32_of_lt (by omega)
    simp [newMetaSequenceFromTuples_loop, concatBytes, endOffsets, binaryNomsWriter.writeRaw,
      hw, u64_of_lt hlen]
  | @cons t p ts ps htp _ ih =>
    intro hwf hsz hlen
    have hp : p.WF C nbf := hwf p (by simp)
    have hsz2 : w.offset + ((p.bytes C nbf).length +
        (concatBytes (ps.map (fun p => p.bytes C nbf))).length) < 2 ^ 32 := by
      simpa [concatBytes] using hsz
    have hoff : (w.writeRaw (p.bytes C nbf)).offset = w.offset + (p.bytes C nbf).length := by
      simp only [binaryNomsWriter.writeRaw]
      exact u32_of_lt (by omega)
    simp only [newMetaSequenceFromTuples_loop, Holds_numLeaves C hC hp htp, metaTuple.writeTo,
      htp.1]
    rw [ih (w.writeRaw (p.bytes C nbf)) _ _ (fun q hq => hwf q (by simp [hq]))
      (by rw [hoff]; omega) (u64_lt _)]
    simp only [writeRaw_writeRaw, hoff, concatBytes, List.map_cons, endOffsets,
      List.append_assoc, List.singleton_append, List.sum_cons, u64_u64_add, Nat.add_assoc]

theorem builder_Encodes {Value : Type} [DecidableEq Value] (C : Codec Value) (hC : C.Lawful)
    (kind : NomsKind) (level : Nat) (ts : List metaTuple) (ps : List (TupleParts Value))
    (vrw : ValueReadWriter Value)
    (hts : List.Forall₂ (fun t p => t.Holds C vrw.nbf p) ts ps)
    (hwf : ∀ p, p ∈ ps → p.WF C vrw.nbf)
    (hlevel : 0 < level) (hlevel64 : level < 2 ^ 64) (hcount : ps.length < 2 ^ 64)
    (hsize : (sequenceHeader C kind level ps.length ++
      concatBytes (ps.map (fun p => p.bytes C vrw.nbf))).length < 2 ^ 32) :
    ∃ ms, newMetaSequenceFromTuples C kind level ts vrw = some ms ∧ ms.vrw = vrw ∧
      ms.Encodes C kind level ps := by
  have hlen : ts.length = ps.length := hts.length_eq
  have hsz : 1 + ((C.encCount level).length + ((C.encCount ps.length).length +
      (concatBytes (ps.map (fun p => p.bytes C vrw.nbf))).length)) < 2 ^ 32 := by
    simp only [sequenceHeader, List.length_append, List.length_cons] at hsize
    omega
  have hw : ((NomsKind_writeTo kind newBinaryNomsWriter).writeCount C level).writeCount C
      ts.length = newBinaryNomsWriter.writeRaw (sequenceHeader C kind level ps.length) := by
    simp [NomsKind_writeTo, binaryNomsWriter.writeCount, writeRaw_writeRaw, sequenceHeader, hlen]
  have o1 : (NomsKind_writeTo kind newBinaryNomsWriter).offset = 1 := by
    simp [NomsKind_writeTo, binaryNomsWriter.writeRaw, newBinaryNomsWriter, u32]
  have o2 : ((NomsKind_writeTo kind newBinaryNomsWriter).writeCount C level).offset
      = 1 + (C.encCount level).length := by
    simp only [binaryNomsWriter.writeCount, binaryNomsWriter.writeRaw, o1]
    exact u32_of_lt (by omega)
  have o3 : (newBinaryNomsWriter.writeRaw (sequenceHeader C kind level ps.length)).offset
      = (sequenceHeader C kind level ps.length).length := by
    simp only [binaryNomsWriter.writeRaw, newBinaryNomsWriter, Nat.zero_add]
    exact u32_of_lt (by simp only [sequenceHeader, List.length_append, List.length_cons]; omega)
  have hloop := builder_loop C hC vrw.nbf ts ps
    (newBinaryNomsWriter.writeRaw (sequenceHeader C kind level ps.length))
    [0, 1, 1 + (C.encCount level).length, (sequenceHeader C kind level ps.length).length] 0
    hts hwf (by rw [o3]; simpa using hsize) (by norm_num)
  simp only [newMetaSequenceFromTuples, gt_iff_lt, hlevel, not_true_eq_false, if_false, hw, o1,
    o2, o3]
  have e0 : newBinaryNomsWriter.offset = 0 := rfl
  rw [e0, hloop]
  refine ⟨_, rfl, rfl, ?_, ?_, ?_, hlevel64, hcount, hwf, ?_⟩
  · simp only [newMetaSequence, writeRaw_writeRaw, metaSequence.format, ValueReadWriter.Format]
    rw [writeRaw_new_data _ hsize]
  · simp [newMetaSequence, o3, metaSequence.format, ValueReadWriter.Format]
  · simp only [newMetaSequence, writeRaw_writeRaw]
    rw [writeRaw_new_data _ hsize]
    exact hsize
  · simp [newMetaSequence]

/-! ## Reading an encoded node -/

theorem drop_of_get? {α : Type} : ∀ (l : List α) (i : Nat) (a : α), l.get? i = some a →
    l.drop i = a :: l.drop (i + 1) := by
  intro l
  induction l with
  | nil => intro i a h; simp at h
  | cons x xs ih =>
    intro i a h
    cases i with
    | zero => simp only [List.get?_cons_zero, Option.some.injEq] at h; simp [h]
    | succ i => simp only [List.get?_cons_succ] at h; simpa using ih i a h

theorem u32sub_zero {a : Nat} (h : a < 2 ^ 32) : u32sub a 0 = a := by
  have := u32sub_add_left (a := 0) (b := a) (by simpa using h)
  simpa using this

section
variable {Value : Type} [DecidableEq Value] {C : Codec Value} {ms : metaSequence Value}
  {kind : NomsKind} {level : Nat} {ps : List (TupleParts Value)}

theorem Encodes_header_lt (he : ms.Encodes C kind level ps) :
    (sequenceHeader C kind level ps.length).length +
      (concatBytes (ps.map (fun p => p.bytes C ms.format))).length < 2 ^ 32 := by
  have := he.2.2.1
  rw [he.1] at this
  simpa using this

theorem Encodes_Kind (he : ms.Encodes C kind level ps) : ms.Kind = some kind := by
  simp [metaSequence.Kind, metaSequence.decoder, newValueDecoder, valueDecoder.readKind,
    valueDecoder.rest, he.1, sequenceHeader]

theorem Encodes_treeLevel (hC : C.Lawful) (he : ms.Encodes C kind level ps) :
    ms.treeLevel C = some level := by
  have hlt := Encodes_header_lt he
  have hd : ms.decoderAtPart sequencePartLevel = some (newValueDecoder
      (C.encCount level ++ (C.encCount ps.length ++
        concatBytes (ps.map (fun p => p.bytes C ms.format))))) := by
    simp only [metaSequence.decoderAtPart, sequencePartLevel, sequencePartKind, he.2.1]
    simp only [List.cons_append, List.nil_append, List.get?_cons_succ, List.get?_cons_zero]
    rw [u32sub_zero (by norm_num)]
    simp only [metaSequence.decoderAtOffset, sliceFrom, he.1, sequenceHeader]
    simp
  have hat := newValueDecoder_At (C.encCount level ++ (C.encCount ps.length ++
      concatBytes (ps.map (fun p => p.bytes C ms.format)))) (by
        simp only [sequenceHeader, List.length_append, List.length_cons] at hlt
        simp only [List.length_append]; omega)
  simp only [metaSequence.treeLevel, hd, readCount_At C hC he.2.2.2.1 hat]
  rfl

theorem Encodes_decoderSkipToValues (hC : C.Lawful) (he : ms.Encodes C kind level ps) :
    ∃ dec, ms.decoderSkipToValues C = some (dec, ps.length) ∧
      dec.At (concatBytes (ps.map (fun p => p.bytes C ms.format))) := by
  have hlt := Encodes_header_lt he
  simp only [sequenceHeader, List.length_append, List.length_cons] at hlt
  have hd : ms.decoderAtPart sequencePartCount = some (newValueDecoder
      (C.encCount ps.length ++ concatBytes (ps.map (fun p => p.bytes C ms.format)))) := by
    simp only [metaSequence.decoderAtPart, sequencePartCount, sequencePartKind, he.2.1]
    simp only [List.cons_append, List.nil_append, List.get?_cons_succ, List.get?_cons_zero]
    rw [u32sub_zero (by omega)]
    simp only [metaSequence.decoderAtOffset, sliceFrom, he.1, sequenceHeader]
    rw [if_pos (by simp only [List.length_append, List.length_cons]; omega)]
    rw [Nat.add_comm, ← List.drop_drop]
    simp
  have hat := newValueDecoder_At (C.encCount ps.length ++
      concatBytes (ps.map (fun p => p.bytes C ms.format))) (by
        simp only [List.length_append]; omega)
  refine ⟨_, ?_, (At_advance hat).1⟩
  simp only [metaSequence.decoderSkipToValues, hd, readCount_At C hC he.2.2.2.2.1 hat]

theorem Encodes_seqLen (hC : C.Lawful) (he : ms.Encodes C kind level ps) :
    ms.seqLen C = some ps.length := by
  obtain ⟨dec, hd, _⟩ := Encodes_decoderSkipToValues hC he
  simp [metaSequence.seqLen, hd]

theorem Encodes_getItemOffset (he : ms.Encodes C kind level ps) (i : Nat) (p : TupleParts Value)
    (hi : ps.get? i = some p) :
    ∃ off, ms.getItemOffset i = some off ∧ off < 2 ^ 32 ∧ off ≤ ms.buff.length ∧
      ms.buff.drop off = p.bytes C ms.format ++
        concatBytes ((ps.drop (i + 1)).map (fun p => p.bytes C ms.format)) := by
  have hlt := Encodes_header_lt he
  have hil : i < ps.length := by
    rcases Nat.lt_or_ge i ps.length with h | h
    · exact h
    · rw [List.get?_eq_none.mpr h] at hi; simp at hi
  have hcat := concatBytes_append ((ps.map (fun p => p.bytes C ms.format)).take i)
    ((ps.map (fun p => p.bytes C ms.format)).drop i)
  rw [List.take_append_drop] at hcat
  have hoff : (concatBytes ((ps.map (fun p => p.bytes C ms.format)).take i)).length ≤
      (concatBytes (ps.map (fun p => p.bytes C ms.format))).length := by
    rw [hcat]; simp
  refine ⟨(sequenceHeader C kind level ps.length).length +
    (concatBytes ((ps.map (fun p => p.bytes C ms.format)).take i)).length, ?_, by omega, ?_, ?_⟩
  · simp only [metaSequence.getItemOffset, sequencePartValues, sequencePartKind, he.2.1]
    rw [if_neg (by simp [endOffsets_length]; omega)]
    have := endOffsets_get (ps.map (fun p => p.bytes C ms.format))
      (sequenceHeader C kind level ps.length).length i (by simp; omega)
    simp only [List.cons_append, List.nil_append, List.get?_cons_succ, List.get?_cons_zero, this]
    rw [u32sub_zero (by omega)]
  · rw [he.1]; simp only [List.length_append]; omega
  · rw [he.1, List.drop_append, concatBytes_drop, ← List.map_drop, drop_of_get? ps i p hi]
    simp [concatBytes]

theorem Encodes_decoderSkipToIndex (he : ms.Encodes C kind level ps) (i : Nat)
    (p : TupleParts Value) (hi : ps.get? i = some p) :
    ∃ dec, ms.decoderSkipToIndex i = some dec ∧ dec.offset = 0 ∧
      dec.At (p.bytes C ms.format ++
        concatBytes ((ps.drop (i + 1)).map (fun p => p.bytes C ms.format))) := by
  obtain ⟨off, ho, _, hle, hdrop⟩ := Encodes_getItemOffset he i p hi
  refine ⟨newValueDecoder (ms.buff.drop off), ?_, rfl, ?_⟩
  · simp [metaSequence.decoderSkipToIndex, ho, metaSequence.decoderAtOffset, sliceFrom, hle]
  · rw [← hdrop]
    exact newValueDecoder_At _ (by have := he.2.2.1; simp; omega)

theorem Encodes_getKey (hC : C.Lawful) (he : ms.Encodes C kind level ps) (i : Nat)
    (p : TupleParts Value) (hi : ps.get? i = some p) :
    ms.getKey C i = some (p.key.readBack C ms.format) := by
  obtain ⟨dec, hd, _, hat⟩ := Encodes_decoderSkipToIndex he i p hi
  have hp : p.WF C ms.format := he.2.2.2.2.2.1 p (List.get?_mem hi)
  simp only [TupleParts.bytes, List.append_assoc] at hat
  have s1 := skipValue_ref_At C ms.format hp.1 hat
  have s2 := readOrderedKey_At C hC (WF_keyBytes hp) (At_advance hat).1
  simp [metaSequence.getKey, hd, s1, s2]

theorem Encodes_getNumLeavesAt (hC : C.Lawful) (he : ms.Encodes C kind level ps) (i : Nat)
    (p : TupleParts Value) (hi : ps.get? i = some p) :
    ms.getNumLeavesAt C i = some p.numLeaves := by
  obtain ⟨dec, hd, _, hat⟩ := Encodes_decoderSkipToIndex he i p hi
  have hp : p.WF C ms.format := he.2.2.2.2.2.1 p (List.get?_mem hi)
  simp only [TupleParts.bytes, List.append_assoc] at hat
  have s1 := skipValue_ref_At C ms.format hp.1 hat
  have a1 := (At_advance hat).1
  have s2 := skipOrderedKey_At C hC (WF_keyBytes hp) a1
  have s3 := readCount_At C hC hp.2.2 (At_advance a1).1
  simp [metaSequence.getNumLeavesAt, hd, s1, s2, s3]

theorem Encodes_getRefAt (he : ms.Encodes C kind level ps) (i : Nat)
    (p : TupleParts Value) (hi : ps.get? i = some p) (dec : valueDecoder)
    (hdec : dec.buff = ms.buff) :
    (ms.getRefAt C dec i).map Prod.fst = some ⟨some p.ref, ms.format⟩ := by
  obtain ⟨off, ho, hlt, hle, hdrop⟩ := Encodes_getItemOffset he i p hi
  have hp : p.WF C ms.format := he.2.2.2.2.2.1 p (List.get?_mem hi)
  have hat : (valueDecoder.mk dec.buff (u32 off)).At (p.ref ++ (p.keyBytes C ms.format ++
      (C.encCount p.numLeaves ++
        concatBytes ((ps.drop (i + 1)).map (fun p => p.bytes C ms.format))))) := by
    refine ⟨by rw [hdec]; exact he.2.2.1, by rw [hdec, u32_of_lt hlt]; exact hle, ?_⟩
    simp only [valueDecoder.rest, u32_of_lt hlt, hdec, hdrop, TupleParts.bytes,
      List.append_assoc]
  have s1 := skipRef_At C hp.1 hat
  obtain ⟨a1, o1, b1⟩ := At_advance hat
  have hle2 := a1.2.1
  rw [o1, b1] at hle2
  simp only [metaSequence.getRefAt, ho, valueDecoder.readRef, s1, valueDecoder.byteSlice, o1]
  rw [if_pos ⟨by omega, hle2⟩]
  have := hat.2.2
  simp only [valueDecoder.rest] at this
  simp [this]

end

/-! ## The tuples of a node -/

theorem tuples_loop_At {Value : Type} [DecidableEq Value] (C : Codec Value) (hC : C.Lawful)
    (ms : metaSequence Value) : ∀ (ps : List (TupleParts Value)) (dec : valueDecoder)
    (rest : List Byte), (∀ p, p ∈ ps → p.WF C ms.format) →
    dec.At (concatBytes (ps.map (fun p => p.bytes C ms.format)) ++ rest) →
    ∃ ts, ms.tuples_loop C ps.length dec = some ts ∧
      List.Forall₂ (fun t p => t.Holds C ms.format p) ts ps := by
  intro ps
  induction ps with
  | nil => intro dec rest _ _; exact ⟨[], rfl, List.Forall₂.nil⟩
  | cons p ps ih =>
    intro dec rest hwf hat
    simp only [List.map_cons, concatBytes, List.append_assoc] at hat
    obtain ⟨t, ht, hh, _, _⟩ := readTuple_At C hC ms (hwf p (by simp)) hat
    obtain ⟨ts, hts, hf⟩ := ih _ rest (fun q hq => hwf q (by simp [hq])) (At_advance hat).1
    exact ⟨t :: ts, by simp [metaSequence.tuples_loop, ht, hts], List.Forall₂.cons hh hf⟩

theorem Encodes_tuples {Value : Type} [DecidableEq Value] {C : Codec Value}
    {ms : metaSequence Value} {kind : NomsKind} {level : Nat} {ps : List (TupleParts Value)}
    (hC : C.Lawful) (he : ms.Encodes C kind level ps) :
    ∃ ts, ms.tuples C = some ts ∧ List.Forall₂ (fun t p => t.Holds C ms.format p) ts ps := by
  obtain ⟨dec, hd, hat⟩ := Encodes_decoderSkipToValues hC he
  obtain ⟨ts, hts, hf⟩ := tuples_loop_At C hC ms ps dec [] he.2.2.2.2.2.1 (by simpa using hat)
  exact ⟨ts, by simp [metaSequence.tuples, hd, hts], hf⟩

theorem Encodes_reencode {Value : Type} [DecidableEq Value] {C : Codec Value}
    {ms : metaSequence Value} {kind : NomsKind} {level : Nat} {ps : List (TupleParts Value)}
    (hC : C.Lawful) (hlevel : 0 < level) (he : ms.Encodes C kind level ps) :
    ∃ ms1, ms.reencode C = some ms1 ∧ ms1.buff = ms.buff ∧ ms1.offsets = ms.offsets ∧
      ms1.len = ms.len ∧ ms1.vrw = ms.vrw := by
  obtain ⟨ts, hts, hf⟩ := Encodes_tuples hC he
  have hsize : (sequenceHeader C kind level ps.length ++
      concatBytes (ps.map (fun p => p.bytes C ms.vrw.nbf))).length < 2 ^ 32 := by
    have := he.2.2.1
    rw [he.1] at this
    exact this
  obtain ⟨ms1, hb, hv, he1⟩ := builder_Encodes C hC kind level ts ps ms.vrw hf he.2.2.2.2.2.1
    hlevel he.2.2.2.1 he.2.2.2.2.1 hsize
  have hfmt : ms1.format = ms.format := by simp [metaSequence.format, hv]
  refine ⟨ms1, ?_, ?_, ?_, ?_, hv⟩
  · simp [metaSequence.reencode, Encodes_Kind he, Encodes_treeLevel hC he, hts, hb]
  · rw [he1.1, he.1, hfmt]
  · rw [he1.2.1, he.2.1, hfmt]
  · rw [he1.2.2.2.2.2.2, he.2.2.2.2.2.2]

theorem BuilderInput_Encodes {Value : Type} [DecidableEq Value] {C : Codec Value}
    {vrw : ValueReadWriter Value} {kind : NomsKind} {level : Nat}
    {specs : List (Ref × orderedKey Value × Nat)} {tuples : List metaTuple}
    (hC : C.Lawful) (h : BuilderInput C vrw kind level specs tuples) :
    ∃ ms, newMetaSequenceFromTuples C kind level tuples vrw = some ms ∧ ms.vrw = vrw ∧
      ms.Encodes C kind level (specs.map specParts) := by
  have hsize := h.size
  have hmap : (specs.map specParts).map (fun p => p.bytes C vrw.nbf)
      = specs.map (fun s => (specParts s).bytes C vrw.nbf) := by
    simp [List.map_map, Function.comp_def]
  have hcat : ∀ (l : List (Ref × orderedKey Value × Nat)) (s : Ref × orderedKey Value × Nat),
      s ∈ l → ((specParts s).bytes C vrw.nbf).length ≤
        (concatBytes (l.map (fun s => (specParts s).bytes C vrw.nbf))).length := by
    intro l
    induction l with
    | nil => intro s hs; simp at hs
    | cons x xs ih =>
      intro s hs
      simp only [List.map_cons, concatBytes, List.length_append]
      rcases List.mem_cons.mp hs with e | e
      · subst e; omega
      · have := ih s e; omega
  have hholds : ∀ (l : List (Ref × orderedKey Value × Nat)) (ts : List metaTuple),
      List.Forall₂ (fun s t => newMetaTuple C s.1 s.2.1 s.2.2 = some t) l ts →
      (∀ s, s ∈ l → s ∈ specs) →
      List.Forall₂ (fun t p => t.Holds C vrw.nbf p) ts (l.map specParts) ∧
        ∀ s, s ∈ l → (specParts s).WF C vrw.nbf := by
    intro l ts hf
    induction hf with
    | nil => intro _; exact ⟨List.Forall₂.nil, fun s hs => by simp at hs⟩
    | @cons s t l ts hst _ ih =>
      intro hsub
      have hs : s ∈ specs := hsub s (by simp)
      obtain ⟨hF, hv⟩ := h.refs s hs
      have hne : s.1.buff ≠ none := by
        intro hnone
        simp [newMetaTuple, hnone] at hst
      obtain ⟨r, hr⟩ := Option.ne_none_iff_exists'.mp hne
      have hsz : (TupleParts.bytes C s.1.nbf ⟨r, s.2.1, s.2.2⟩).length < 2 ^ 32 := by
        have h1 := hcat specs s hs
        have h2 : (specParts s).bytes C vrw.nbf = TupleParts.bytes C s.1.nbf ⟨r, s.2.1, s.2.2⟩ := by
          simp [specParts, hr, hF]
        rw [h2] at h1
        simp only [List.length_append] at hsize
        omega
      obtain ⟨hh, _, _, hk⟩ := newMetaTuple_Holds C s.1 s.2.1 s.2.2 t r hst hr hsz
      have hp : specParts s = ⟨r, s.2.1, s.2.2⟩ := by simp [specParts, hr]
      obtain ⟨ih1, ih2⟩ := ih (fun q hq => hsub q (by simp [hq]))
      refine ⟨?_, ?_⟩
      · simp only [List.map_cons]
        refine List.Forall₂.cons ?_ ih1
        rw [hp, ← hF]; exact hh
      · intro q hq
        rcases List.mem_cons.mp hq with e | e
        · subst e
          refine ⟨hv, ?_, h.counts q hs⟩
          rw [← hF]; simpa [specParts] using hk
        · exact ih2 q e
  obtain ⟨hf, hwf⟩ := hholds specs tuples h.built (fun s hs => hs)
  have hcount : (specs.map specParts).length < 2 ^ 64 := by
    simpa using h.count_lt
  exact builder_Encodes C hC kind level tuples (specs.map specParts) vrw hf
    (by intro p hp; obtain ⟨s, hs, e⟩ := List.mem_map.mp hp; subst e; exact hwf s hs)
    h.level_pos h.level_lt hcount (by rw [hmap]; simpa using hsize)

/-! ## The concrete codec is lawful -/

theorem toyEncVarint_length_le : ∀ fuel n, (toyEncVarint fuel n).length ≤ fuel + 1 := by
  intro fuel
  induction fuel with
  | zero => intro n; simp [toyEncVarint]
  | succ fuel ih =>
    intro n
    simp only [toyEncVarint]
    split
    · simp
    · have := ih (n / 128); simp; omega

theorem toyDecVarint_enc : ∀ (fuel n f : Nat) (rest : List Byte), n < 128 ^ (fuel + 1) →
    (toyEncVarint fuel n).length ≤ f →
    toyDecVarint f (toyEncVarint fuel n ++ rest) = some (n, (toyEncVarint fuel n).length) := by
  intro fuel
  induction fuel with
  | zero =>
    intro n f rest hn hf
    have hn1 : n < 128 := by simpa using hn
    cases f with
    | zero => simp [toyEncVarint] at hf
    | succ f => simp [toyEncVarint, toyDecVarint, Nat.mod_eq_of_lt hn1, hn1]
  | succ fuel ih =>
    intro n f rest hn hf
    by_cases hlt : n < 128
    · cases f with
      | zero => simp [toyEncVarint, hlt] at hf
      | succ f => simp [toyEncVarint, toyDecVarint, Nat.mod_eq_of_lt hlt, hlt]
    · have hdiv : n / 128 < 128 ^ (fuel + 1) := by
        rw [Nat.div_lt_iff_lt_mul (by norm_num)]
        rw [pow_succ] at hn
        exact hn
      cases f with
      | zero => simp [toyEncVarint, hlt] at hf
      | succ f =>
        have hf1 : (toyEncVarint fuel (n / 128)).length ≤ f := by
          simp [toyEncVarint, hlt] at hf; exact hf
        have hmod : n % 128 < 128 := Nat.mod_lt _ (by norm_num)
        simp only [toyEncVarint, hlt, if_false, List.cons_append, toyDecVarint,
          List.length_cons]
        rw [if_neg (by simp), ih (n / 128) f rest hdiv hf1]
        simp only [Nat.add_sub_cancel, Option.some.injEq, Prod.mk.injEq, and_true]
        omega

theorem lt_pow_succ_self (n : Nat) : n < 128 ^ (n + 1) :=
  lt_of_lt_of_le (Nat.lt_pow_self (by norm_num) n) (Nat.pow_le_pow_right (by norm_num) (by omega))

theorem toyReadCount_enc (n : Nat) (rest : List Byte) (h : n < 2 ^ 64) :
    toyReadCount (toyEncCount n ++ rest) = some (n, (toyEncCount n).length) := by
  have e : u64 n = n := Nat.mod_eq_of_lt h
  simp only [toyReadCount, toyEncCount, e]
  exact toyDecVarint_enc 9 n 10 rest (by omega) (toyEncVarint_length_le 9 n)

theorem toyReadValue_enc (F : Format) (v : ToyValue) (rest : List Byte) :
    toyReadValue F (toyEncValue F v ++ rest) = some (v, (toyEncValue F v).length) := by
  cases v with
  | bool b => cases b <;> simp [toyReadValue, toyEncValue, toyBoolKind]
  | number n =>
    have := toyDecVarint_enc n n (toyEncVarint n n ++ rest).length rest (lt_pow_succ_self n)
      (by simp)
    simp only [toyReadValue, toyEncValue, List.cons_append]
    rw [if_neg (by decide), if_pos trivial, this]
    simp
  | blob id =>
    have ht : (id.bytes ++ rest).take 20 = id.bytes := by simp [id.len]
    simp only [toyReadValue, toyEncValue, List.cons_append]
    rw [if_neg (by decide), if_neg (by decide), if_pos trivial,
      dif_pos (by rw [ht]; exact id.len)]
    simp only [Option.some.injEq, Prod.mk.injEq, List.length_cons, id.len, and_true]
    obtain ⟨bytes, len⟩ := id
    simp only [ToyValue.blob.injEq, Hash.mk.injEq]
    exact ht

theorem toyCodec_lawful : toyCodec.Lawful where
  readCount_enc := fun n rest h => toyReadCount_enc n rest h
  readValue_enc := toyReadValue_enc
  skipValue_enc := by
    intro F v rest
    have h := toyReadValue_enc F v rest
    have hhead : ∃ k bs, toyEncValue F v ++ rest = k :: bs ∧ k ≠ toyRefKind := by
      cases v with
      | bool b => exact ⟨_, _, rfl, by decide⟩
      | number n => exact ⟨_, _, rfl, by decide⟩
      | blob id => exact ⟨_, _, rfl, by decide⟩
    obtain ⟨k, bs, e, hk⟩ := hhead
    show toySkipValue F (toyEncValue F v ++ rest) = some (toyEncValue F v).length
    unfold toySkipValue
    rw [h]
    rw [e]
    simp [hk]
  encValue_head := by
    intro F v
    cases v <;> rfl
  valueKind_ne_hashKind := by
    intro v
    show toyValueKind v ≠ toyHashKind
    cases v
    · exact (by decide : toyBoolKind ≠ toyHashKind)
    · exact (by decide : toyNumberKind ≠ toyHashKind)
    · exact (by decide : toyBlobKind ≠ toyHashKind)

theorem toyRef_valid (target : Hash) (height : Nat) :
    toyCodec.validRef (toyRefKind :: target.bytes ++ toyEncCount height) := by
  intro rest
  have ht : (target.bytes ++ (toyEncCount height ++ rest)).take 20 = target.bytes := by
    simp [target.len]
  have hd : (target.bytes ++ (toyEncCount height ++ rest)).drop 20
      = toyEncCount height ++ rest := by
    simp [target.len]
  have hr : toyReadCount (toyEncCount height ++ rest)
      = some (u64 height, (toyEncCount height).length) := by
    have := toyReadCount_enc (u64 height) rest (Nat.mod_lt _ (by norm_num))
    have e : toyEncCount (u64 height) = toyEncCount height := by
      simp [toyEncCount, u64]
    rw [e] at this; exact this
  have hs : toySkipRef (toyRefKind :: target.bytes ++ toyEncCount height ++ rest)
      = some (toyRefKind :: target.bytes ++ toyEncCount height).length := by
    simp only [List.cons_append, List.append_assoc, toySkipRef, ht, hd, hr, target.len]
    simp [target.len]; omega
  refine ⟨hs, fun F => ?_⟩
  show toySkipValue F (toyRefKind :: target.bytes ++ toyEncCount height ++ rest)
    = some (toyRefKind :: target.bytes ++ toyEncCount height).length
  unfold toySkipValue
  simp only [List.cons_append, List.head?_cons, if_true]
  exact hs

/-! ## Claims on the builder -/

theorem Forall₂_exists_of_mem {α β : Type} {R : α → β → Prop} {l : List α} {m : List β}
    (h : List.Forall₂ R l m) : ∀ a, a ∈ l → ∃ b, R a b := by
  induction h with
  | nil => intro a ha; simp at ha
  | cons hab _ ih =>
    intro a ha
    rcases List.mem_cons.mp ha with e | e
    · subst e; exact ⟨_, hab⟩
    · exact ih a e

/-- C2, as stated, fails: the key `newOrderedKey` makes of a value that sorts by
hash carries the value, and `getKey` reads back the digest only. -/
theorem builder_round_trip_counterexample :
    newMetaTuple toyCodec (toyRef (hashOfByte 7) 1)
      (newOrderedKey toyCodec (.blob (hashOfByte 5)) 0) 4 ≠ none ∧
    oneBlobKey.seqLen toyCodec = some 1 ∧
    oneBlobKey.getKey toyCodec 0 = some (orderedKeyFromHash (hashOfByte 5)) ∧
    oneBlobKey.getKey toyCodec 0 ≠ some (newOrderedKey toyCodec (.blob (hashOfByte 5)) 0) := by
  decide

/-- C2, amended: for a lawful codec and an input of the builder made of refs of
the format of `vrw` and of keys made by `newOrderedKey` or `orderedKeyFromHash`
(the encoding being shorter than `2^32` bytes), the builder returns a node
whose `Kind()`, `treeLevel()` and `seqLen()` are the kind, the level and the
number of tuples given, and for every `i`, `getRefAt(i)` and
`getNumLeavesAt(i)` are the ref and the number of leaves of tuple `i`, and
`getKey(i)` is its key when the key is value-ordered and
`orderedKeyFromHash` of its digest when it is hash-ordered. -/
theorem builder_round_trip {Value : Type} [DecidableEq Value] (C : Codec Value)
    (hC : C.Lawful) (vrw : ValueReadWriter Value) (kind : NomsKind) (level : Nat)
    (specs : List (Ref × orderedKey Value × Nat)) (tuples : List metaTuple)
    (h : BuilderInput C vrw kind level specs tuples)
    (hkeys : ∀ s, s ∈ specs → (∃ v, s.2.1 = newOrderedKey C v vrw.nbf) ∨
      (∃ d, s.2.1 = orderedKeyFromHash d)) :
    ∃ ms, newMetaSequenceFromTuples C kind level tuples vrw = some ms ∧
      ms.Kind = some kind ∧ ms.treeLevel C = some level ∧ ms.seqLen C = some specs.length ∧
      ∀ i s, specs.get? i = some s →
        ms.getKey C i =
          some (if s.2.1.isOrderedByValue then s.2.1 else orderedKeyFromHash s.2.1.h) ∧
        (ms.getRefAt C ms.decoder i).map Prod.fst = some s.1 ∧
        ms.getNumLeavesAt C i = some s.2.2 := by
  obtain ⟨ms, hb, hv, he⟩ := BuilderInput_Encodes hC h
  have hfmt : ms.format = vrw.nbf := by simp [metaSequence.format, ValueReadWriter.Format, hv]
  refine ⟨ms, hb, Encodes_Kind he, Encodes_treeLevel hC he, ?_, ?_⟩
  · simpa using Encodes_seqLen hC he
  · intro i s hi
    have hmem : s ∈ specs := List.get?_mem hi
    have hi2 : (specs.map specParts).get? i = some (specParts s) := by
      rw [List.get?_eq_getElem?, List.getElem?_map, ← List.get?_eq_getElem?, hi]
      rfl
    refine ⟨?_, ?_, ?_⟩
    · rw [Encodes_getKey hC he i _ hi2, hfmt]
      congr 1
      rcases hkeys s hmem with ⟨v, hk⟩ | ⟨d, hk⟩
      · simp only [specParts, hk]
        by_cases hv : C.isKindOrderedByValue (C.valueKind v) = true
        · simp [newOrderedKey, hv, orderedKey.readBack]
        · simp [newOrderedKey, hv, orderedKey.readBack]
      · simp [specParts, hk, orderedKeyFromHash, orderedKey.readBack]
    · rw [Encodes_getRefAt he i _ hi2 ms.decoder rfl, hfmt]
      obtain ⟨t, ht⟩ := Forall₂_exists_of_mem h.built s hmem
      have hne : s.1.buff ≠ none := by
        intro hnone
        simp [newMetaTuple, hnone] at ht
      obtain ⟨r, hr⟩ := Option.ne_none_iff_exists'.mp hne
      have hF := (h.refs s hmem).1
      obtain ⟨⟨b, f⟩, k, n⟩ := s
      simp only at hr hF
      simp [specParts, hr, hF]
    · exact Encodes_getNumLeavesAt hC he i _ hi2

theorem scenarioB_input :
    BuilderInput toyCodec emptyStore toyMapKind 1 scenarioB_specs scenarioB_tuples where
  built := by
    refine List.Forall₂.cons (by decide) (List.Forall₂.cons (by decide)
      (List.Forall₂.cons (by decide) List.Forall₂.nil))
  refs := by
    intro s hs
    simp only [scenarioB_specs, List.mem_cons, List.mem_singleton, List.not_mem_nil,
      or_false] at hs
    rcases hs with e | e | e <;> subst e <;> exact ⟨rfl, toyRef_valid _ _⟩
  counts := by
    intro s hs
    simp only [scenarioB_specs, List.mem_cons, List.mem_singleton, List.not_mem_nil,
      or_false] at hs
    rcases hs with e | e | e <;> subst e <;> decide
  level_pos := by decide
  level_lt := by decide
  count_lt := by decide
  size := by decide

theorem builder_round_trip_witness :
    ∃ ms, newMetaSequenceFromTuples toyCodec toyMapKind 1 scenarioB_tuples emptyStore = some ms ∧
      ms.Kind = some toyMapKind ∧ ms.treeLevel toyCodec = some 1 ∧
      ms.seqLen toyCodec = some scenarioB_specs.length ∧
      ∀ i s, scenarioB_specs.get? i = some s →
        ms.getKey toyCodec i =
          some (if s.2.1.isOrderedByValue then s.2.1 else orderedKeyFromHash s.2.1.h) ∧
        (ms.getRefAt toyCodec ms.decoder i).map Prod.fst = some s.1 ∧
        ms.getNumLeavesAt toyCodec i = some s.2.2 :=
  builder_round_trip toyCodec toyCodec_lawful emptyStore toyMapKind 1 scenarioB_specs
    scenarioB_tuples scenarioB_input (by
      intro s hs
      simp only [scenarioB_specs, List.mem_cons, List.mem_singleton, List.not_mem_nil,
        or_false] at hs
      rcases hs with e | e | e <;> subst e
      · exact Or.inl ⟨.number 3, rfl⟩
      · exact Or.inl ⟨.number 10, rfl⟩
      · exact Or.inr ⟨hashOfByte 1, rfl⟩)

theorem scenarioB_Encodes :
    scenarioB.Encodes toyCodec toyMapKind 1 (scenarioB_specs.map specParts) := by
  obtain ⟨ms, hb, _, he⟩ := BuilderInput_Encodes toyCodec_lawful scenarioB_input
  have e : scenarioB = ms := by simp [scenarioB, hb]
  rw [e]; exact he

/-- C3: byte stability.  For a lawful codec and every meta sequence `ms` that is
the encoding of a kind, a level `>= 1` and tuples (its buffer, shorter than
`2^32` bytes, is the header followed by the tuples, and its offset table marks
their boundaries), re-encoding it from its own decoded parts,
`newMetaSequenceFromTuples(ms.Kind(), ms.treeLevel(), ms.tuples(), vrw)`,
returns a node whose buffer equals the buffer of `ms` byte for byte (and whose
offset table and number of leaves are those of `ms`). -/
theorem reencode_byte_stable {Value : Type} [DecidableEq Value] (C : Codec Value)
    (hC : C.Lawful) (ms : metaSequence Value) (kind : NomsKind) (level : Nat)
    (ps : List (TupleParts Value)) (hlevel : 0 < level) (he : ms.Encodes C kind level ps) :
    ∃ ms1, ms.reencode C = some ms1 ∧ ms1.buff = ms.buff ∧ ms1.offsets = ms.offsets ∧
      ms1.len = ms.len := by
  obtain ⟨ms1, h1, h2, h3, h4, _⟩ := Encodes_reencode hC hlevel he
  exact ⟨ms1, h1, h2, h3, h4⟩

theorem reencode_byte_stable_witness :
    ∃ ms1, scenarioB.reencode toyCodec = some ms1 ∧ ms1.buff = scenarioB.buff ∧
      ms1.offsets = scenarioB.offsets ∧ ms1.len = scenarioB.len :=
  reencode_byte_stable toyCodec toyCodec_lawful scenarioB toyMapKind 1
    (scenarioB_specs.map specParts) (by decide) scenarioB_Encodes

/-! ## The composite child sequence -/

theorem getChildren_hashes_length {Value : Type} (C : Codec Value) (ms : metaSequence Value) :
    ∀ (n i : Nat) (dec : valueDecoder) (hs : List Hash),
    ms.getChildren_hashes C n i dec = some hs → hs.length = n := by
  intro n
  induction n with
  | zero => intro i dec hs h; simp [metaSequence.getChildren_hashes] at h; simp [← h]
  | succ n ih =>
    intro i dec hs h
    simp only [metaSequence.getChildren_hashes] at h
    split at h
    · simp at h
    · split at h
      · simp at h
      · rename_i hs1 h1
        simp only [Option.some.injEq] at h
        subst h
        simp [ih _ _ _ h1]

theorem getChildren_fill_all {Value : Type} (vrw : ValueReadWriter Value) :
    ∀ (cols : List (Collection Value)),
    metaSequence.getChildren_fill vrw (cols.map some) cols.length
      = some (cols.map (fun c => some (c.asSequence vrw))) := by
  intro cols
  induction cols with
  | nil => rfl
  | cons c cs ih => simp [metaSequence.getChildren_fill, ih]

theorem metaItems_of_tuples {Value : Type} (C : Codec Value) (ms : metaSequence Value) :
    ∀ (cols : List (List Byte × List Nat × Nat)) (tss : List (List metaTuple)),
    List.Forall₂ (fun d ts => (childOf ms d).tuples C = some ts) cols tss →
    getCompositeChildSequence_metaItems C
      (cols.map (fun d => some (sequence.meta (childOf ms d)))) = some tss.flatten := by
  intro cols tss h
  induction h with
  | nil => rfl
  | cons hd _ ih => simp [getCompositeChildSequence_metaItems, hd, ih]

theorem Forall₂_append' {α β : Type} {R : α → β → Prop} {a b : List α} {c d : List β}
    (h1 : List.Forall₂ R a c) (h2 : List.Forall₂ R b d) : List.Forall₂ R (a ++ b) (c ++ d) := by
  induction h1 with
  | nil => simpa using h2
  | cons h _ ih => exact List.Forall₂.cons h ih

theorem children_parts {Value : Type} [DecidableEq Value] (C : Codec Value) (hC : C.Lawful)
    (ms : metaSequence Value) :
    ∀ (cols : List (List Byte × List Nat × Nat)) (tss : List (List metaTuple)),
    List.Forall₂ (fun d ts => (childOf ms d).tuples C = some ts) cols tss →
    (∀ d, d ∈ cols → ∃ k l ps, (childOf ms d).Encodes C k l ps) →
    ∃ ps : List (TupleParts Value),
      List.Forall₂ (fun t p => t.Holds C ms.vrw.nbf p) tss.flatten ps ∧
      (∀ p, p ∈ ps → p.WF C ms.vrw.nbf) ∧
      u64 ((cols.map (fun d => (childOf ms d).numLeaves)).sum)
        = u64 ((ps.map (fun p => p.numLeaves)).sum) := by
  intro cols tss h
  induction h with
  | nil => intro _; exact ⟨[], List.Forall₂.nil, fun p hp => by simp at hp, rfl⟩
  | @cons d ts cols tss hd _ ih =>
    intro hch
    obtain ⟨k, l, ps, he⟩ := hch d (by simp)
    obtain ⟨ts1, hts1, hf⟩ := Encodes_tuples hC he
    rw [hd] at hts1
    simp only [Option.some.injEq] at hts1
    subst hts1
    obtain ⟨qs, hq1, hq2, hq3⟩ := ih (fun e he => hch e (by simp [he]))
    have hfmt : (childOf ms d).format = ms.vrw.nbf := rfl
    refine ⟨ps ++ qs, ?_, ?_, ?_⟩
    · simp only [List.flatten_cons]
      exact Forall₂_append' (by rw [← hfmt]; exact hf) hq1
    · intro p hp
      rcases List.mem_append.mp hp with e | e
      · rw [← hfmt]; exact he.2.2.2.2.2.1 p e
      · exact hq2 p e
    · have hlen : (childOf ms d).numLeaves = u64 ((ps.map (fun p => p.numLeaves)).sum) :=
        he.2.2.2.2.2.2
      simp only [List.map_cons, List.sum_cons, List.map_append, List.sum_append, hlen]
      rw [u64_u64_add]
      simp only [u64] at hq3 ⊢
      rw [Nat.add_mod, hq3, ← Nat.add_mod]

theorem concatBytes_Holds {Value : Type} [DecidableEq Value] (C : Codec Value) (F : Format) :
    ∀ (ts : List metaTuple) (ps : List (TupleParts Value)),
    List.Forall₂ (fun t p => t.Holds C F p) ts ps →
    ts.map (fun t => t.buff) = ps.map (fun p => p.bytes C F) := by
  intro ts ps h
  induction h with
  | nil => rfl
  | cons h _ ih => simp [h.1, ih]

/-- C10: composite concatenation at inner levels.  In the setting
`CompositeInput` (level `L > 1`, `length > 0`, `start + length <= seqLen`, the
store returning a meta sequence for each requested child hash),
`getCompositeChildSequence(start, length)` makes the one read of the hashes and
returns the meta sequence that `newMetaSequenceFromTuples` builds, with the kind
of `ms` and at level `L - 1`, of the tuples of the children in order; its
`Kind()` and `treeLevel()` are that kind and `L - 1`, the bytes of its tuples
are the bytes of the children's tuples in order, and its `numLeaves()` is the
sum, in `uint64`, of the `numLeaves()` of the children. -/
theorem composite_concatenation {Value : Type} [DecidableEq Value] (C : Codec Value)
    (hC : C.Lawful) (ms : metaSequence Value) (kind : NomsKind) (level start length : Nat)
    (hs : List Hash) (cols : List (List Byte × List Nat × Nat)) (tss : List (List metaTuple))
    (h : CompositeInput C ms kind level start length hs cols tss) :
    ∃ r, ms.getCompositeChildSequence C start length = ([hs], some (sequence.meta r)) ∧
      newMetaSequenceFromTuples C kind (level - 1) tss.flatten ms.vrw = some r ∧
      r.Kind = some kind ∧ r.treeLevel C = some (level - 1) ∧
      (r.tuples C).map (fun ts => ts.map (fun t => t.buff))
        = some (tss.flatten.map (fun t => t.buff)) ∧
      r.numLeaves = u64 ((cols.map (fun d => (childOf ms d).numLeaves)).sum) := by
  obtain ⟨n, hn, hrange, hn64⟩ := h.range
  obtain ⟨ps, hf, hwf, hsum⟩ := children_parts C hC ms cols tss h.tuples h.children
  have hbuffs := concatBytes_Holds C ms.vrw.nbf _ _ hf
  have hlen : tss.flatten.length = ps.length := hf.length_eq
  have hlevel : 0 < level - 1 := by have := h.level_gt; omega
  obtain ⟨r, hb, hv, he⟩ := builder_Encodes C hC kind (level - 1) tss.flatten ps ms.vrw hf hwf
    hlevel (by have := h.level_lt; omega) (by rw [← hlen]; exact h.count_lt)
    (by rw [← hbuffs, ← hlen]; exact h.size)
  have hfmt : r.format = ms.vrw.nbf := by simp [metaSequence.format, ValueReadWriter.Format, hv]
  have hhl : hs.length = length := getChildren_hashes_length C ms _ _ _ _ h.hashes
  have hu : u64 (start + length) = start + length := u64_of_lt (by omega)
  have hfill : metaSequence.getChildren_fill ms.vrw
      (cols.map (fun d => some (Collection.meta d.1 d.2.1 d.2.2))) hs.length
      = some (cols.map (fun d => some (sequence.meta (childOf ms d)))) := by
    have := getChildren_fill_all ms.vrw (cols.map (fun d => Collection.meta d.1 d.2.1 d.2.2))
    simp only [List.map_map, List.length_map, h.answered] at this
    rw [hhl]
    simpa [Function.comp_def, Collection.asSequence, childOf] using this
  have hchildren : ms.getChildren C start (start + length)
      = ([hs], some (cols.map (fun d => some (sequence.meta (childOf ms d))))) := by
    simp only [metaSequence.getChildren, hn]
    rw [if_neg (by omega), if_neg (by omega)]
    simp only [Nat.add_sub_cancel_left, h.hashes]
    rw [if_neg (by have := h.length_pos; omega)]
    simp only [h.store, hfill]
  refine ⟨r, ?_, hb, Encodes_Kind he, Encodes_treeLevel hC he, ?_, ?_⟩
  · simp only [metaSequence.getCompositeChildSequence, h.level_eq]
    rw [if_neg (by have := h.level_gt; omega), if_neg (by have := h.length_pos; omega)]
    simp only [hu, hchildren]
    rw [if_pos h.level_gt]
    simp [metaItems_of_tuples C ms cols tss h.tuples, h.kind_eq, hb]
  · obtain ⟨ts1, hts1, hf1⟩ := Encodes_tuples hC he
    rw [hts1]
    simp only [Option.map_some', Option.some.injEq]
    rw [concatBytes_Holds C r.format _ _ hf1, hfmt, hbuffs]
  · have := he.2.2.2.2.2.2
    simp only [metaSequence.numLeaves] at hsum ⊢
    rw [this, ← hsum]

/-! ## Scenario D -/

theorem Encodes_transfer {Value : Type} [DecidableEq Value] {C : Codec Value}
    {ms ms1 : metaSequence Value} {kind : NomsKind} {level : Nat} {ps : List (TupleParts Value)}
    (hb : ms1.buff = ms.buff) (ho : ms1.offsets = ms.offsets) (hl : ms1.len = ms.len)
    (hf : ms1.format = ms.format) (he : ms.Encodes C kind level ps) :
    ms1.Encodes C kind level ps := by
  unfold metaSequence.Encodes at he ⊢
  rw [hb, ho, hl, hf]
  exact he

theorem newMetaSequenceFromTuples_vrw {Value : Type} (C : Codec Value) (kind : NomsKind)
    (level : Nat) (ts : List metaTuple) (vrw : ValueReadWriter Value) (ms : metaSequence Value)
    (h : newMetaSequenceFromTuples C kind level ts vrw = some ms) : ms.vrw = vrw := by
  unfold newMetaSequenceFromTuples at h
  split at h
  · simp at h
  · simp only at h
    split at h
    · simp at h
    · simp only [Option.some.injEq] at h
      rw [← h]; rfl

theorem scenarioD_vrw : scenarioD.vrw = scenarioD_store := by
  unfold scenarioD
  cases h : newMetaSequenceFromTuples toyCodec toyMapKind 2
    ((List.range 4).filterMap (fun i =>
      newMetaTuple toyCodec (toyRef (scenarioD_childHash i) 2) (toyKeyOfNumber (10 * i + 3)) 9))
    scenarioD_store with
  | none => rfl
  | some ms => exact newMetaSequenceFromTuples_vrw _ _ _ _ _ _ h

theorem scenarioD_child_input (i : Nat) (hi : i = 1 ∨ i = 2) :
    BuilderInput toyCodec emptyStore toyMapKind 1 (scenarioD_childSpecs i)
      (scenarioD_childTuples i) := by
  rcases hi with e | e <;> subst e
  all_goals exact {
    built := List.Forall₂.cons (by decide) (List.Forall₂.cons (by decide)
      (List.Forall₂.cons (by decide) List.Forall₂.nil))
    refs := by
      intro s hs
      simp only [scenarioD_childSpecs, List.mem_cons, List.mem_singleton, List.not_mem_nil,
        or_false] at hs
      rcases hs with e | e | e <;> subst e <;> exact ⟨rfl, toyRef_valid _ _⟩
    counts := by
      intro s hs
      simp only [scenarioD_childSpecs, List.mem_cons, List.mem_singleton, List.not_mem_nil,
        or_false] at hs
      rcases hs with e | e | e <;> subst e <;> decide
    level_pos := by decide
    level_lt := by decide
    count_lt := by decide
    size := by decide }

theorem scenarioD_child_Encodes (i : Nat) (hi : i = 1 ∨ i = 2) :
    (childOf scenarioD (scenarioD_child i)).Encodes toyCodec toyMapKind 1
      ((scenarioD_childSpecs i).map specParts) := by
  obtain ⟨ms, hb, _, he⟩ := BuilderInput_Encodes toyCodec_lawful (scenarioD_child_input i hi)
  have e : scenarioD_childNode i = ms := by simp [scenarioD_childNode, hb]
  have hv : ms.vrw = emptyStore := newMetaSequenceFromTuples_vrw _ _ _ _ _ _ hb
  have hf : (childOf scenarioD (scenarioD_child i)).format = ms.format := by
    simp only [childOf, metaSequence.format, scenarioD_vrw, hv]
    rfl
  have h1 : (childOf scenarioD (scenarioD_child i)).buff = ms.buff := by
    simp only [childOf, scenarioD_child, e]
  have h2 : (childOf scenarioD (scenarioD_child i)).offsets = ms.offsets := by
    simp only [childOf, scenarioD_child, e]
  have h3 : (childOf scenarioD (scenarioD_child i)).len = ms.len := by
    simp only [childOf, scenarioD_child, e]
  exact Encodes_transfer h1 h2 h3 hf he

set_option maxRecDepth 100000 in
theorem scenarioD_input :
    CompositeInput toyCodec scenarioD toyMapKind 2 1 2
      [scenarioD_childHash 1, scenarioD_childHash 2]
      [scenarioD_child 1, scenarioD_child 2]
      [((scenarioD_childNode 1).tuples toyCodec).getD [],
       ((scenarioD_childNode 2).tuples toyCodec).getD []] where
  kind_eq := by decide
  level_eq := by decide
  level_gt := by decide
  level_lt := by decide
  length_pos := by decide
  range := ⟨4, by decide, by decide, by decide⟩
  hashes := by decide
  store := by rw [scenarioD_vrw]; decide
  answered := by rfl
  children := by
    intro d hd
    simp only [List.mem_cons, List.mem_singleton, List.not_mem_nil, or_false] at hd
    rcases hd with e | e <;> subst e
    · exact ⟨_, _, _, scenarioD_child_Encodes 1 (Or.inl rfl)⟩
    · exact ⟨_, _, _, scenarioD_child_Encodes 2 (Or.inr rfl)⟩
  tuples := List.Forall₂.cons (by decide) (List.Forall₂.cons (by decide) List.Forall₂.nil)
  count_lt := by decide
  size := by decide

theorem composite_concatenation_witness :
    ∃ r, scenarioD.getCompositeChildSequence toyCodec 1 2
        = ([[scenarioD_childHash 1, scenarioD_childHash 2]], some (sequence.meta r)) ∧
      newMetaSequenceFromTuples toyCodec toyMapKind (2 - 1)
        [((scenarioD_childNode 1).tuples toyCodec).getD [],
         ((scenarioD_childNode 2).tuples toyCodec).getD []].flatten scenarioD.vrw = some r ∧
      r.Kind = some toyMapKind ∧ r.treeLevel toyCodec = some (2 - 1) ∧
      (r.tuples toyCodec).map (fun ts => ts.map (fun t => t.buff))
        = some ([((scenarioD_childNode 1).tuples toyCodec).getD [],
            ((scenarioD_childNode 2).tuples toyCodec).getD []].flatten.map (fun t => t.buff)) ∧
      r.numLeaves = u64 (([scenarioD_child 1, scenarioD_child 2].map
        (fun d => (childOf scenarioD d).numLeaves)).sum) :=
  composite_concatenation toyCodec toyCodec_lawful scenarioD toyMapKind 2 1 2
    [scenarioD_childHash 1, scenarioD_childHash 2] [scenarioD_child 1, scenarioD_child 2]
    [((scenarioD_childNode 1).tuples toyCodec).getD [],
     ((scenarioD_childNode 2).tuples toyCodec).getD []] scenarioD_input

/-! ## The cumulative number of leaves -/

theorem skipValue_key_At {Value : Type} [DecidableEq Value] (C : Codec Value) (hC : C.Lawful)
    {dec : valueDecoder} {key : orderedKey Value} {nbf : Format} {kb rest : List Byte}
    (hv : key.isOrderedByValue = true) (hk : key.encoding C nbf = some kb)
    (h : dec.At (kb ++ rest)) : dec.skipValue C nbf = some (dec.advance kb.length) := by
  unfold orderedKey.encoding at hk
  cases hkv : key.v with
  | none => simp [hv, hkv] at hk
  | some v =>
    simp only [hv, hkv, Bool.not_true, Bool.false_eq_true, if_false, Option.some.injEq] at hk
    subst hk
    simp [valueDecoder.skipValue, h.2.2, hC.skipValue_enc]

theorem cumulative_loop_At {Value : Type} [DecidableEq Value] (C : Codec Value) (hC : C.Lawful)
    (F : Format) : ∀ (ps : List (TupleParts Value)) (dec : valueDecoder) (rest : List Byte)
    (cum : Nat), (∀ p, p ∈ ps → p.WF C F ∧ p.key.isOrderedByValue = true) →
    dec.At (concatBytes (ps.map (fun p => p.bytes C F)) ++ rest) → cum < 2 ^ 64 →
    metaSequence.cumulativeNumberOfLeaves_loop C F ps.length dec cum
      = some (u64 (cum + (ps.map (fun p => p.numLeaves)).sum)) := by
  intro ps
  induction ps with
  | nil =>
    intro dec rest cum _ _ hc
    simp [metaSequence.cumulativeNumberOfLeaves_loop, u64_of_lt hc]
  | cons p ps ih =>
    intro dec rest cum hwf hat hc
    obtain ⟨hp, hpv⟩ := hwf p (by simp)
    simp only [List.map_cons, concatBytes, TupleParts.bytes, List.append_assoc] at hat
    have s1 := skipValue_ref_At C F hp.1 hat
    have a1 := (At_advance hat).1
    have s2 := skipValue_key_At C hC hpv (WF_keyBytes hp) a1
    have a2 := (At_advance a1).1
    have s3 := readCount_At C hC hp.2.2 a2
    have a3 := (At_advance a2).1
    simp only [List.length_cons, metaSequence.cumulativeNumberOfLeaves_loop, s1, s2, s3]
    rw [ih _ rest _ (fun q hq => hwf q (by simp [hq])) a3 (u64_lt _)]
    simp only [List.map_cons, List.sum_cons, u64_u64_add, Nat.add_assoc]

/-- On a node all of whose keys are value-ordered, `cumulativeNumberOfLeaves(i)`
is the sum, in `uint64`, of the numbers of leaves of the children `0..i`. -/
theorem cumulativeNumberOfLeaves_value_keys {Value : Type} [DecidableEq Value]
    (C : Codec Value) (hC : C.Lawful) (ms : metaSequence Value) (kind : NomsKind) (level : Nat)
    (ps : List (TupleParts Value)) (he : ms.Encodes C kind level ps)
    (hkeys : ∀ p, p ∈ ps → p.key.isOrderedByValue = true) (i : Nat) (hi : i < ps.length) :
    ms.cumulativeNumberOfLeaves C i
      = some (u64 (((ps.take (i + 1)).map (fun p => p.numLeaves)).sum)) := by
  obtain ⟨dec, hd, hat⟩ := Encodes_decoderSkipToValues hC he
  have hsplit : concatBytes (ps.map (fun p => p.bytes C ms.format))
      = concatBytes ((ps.take (i + 1)).map (fun p => p.bytes C ms.format)) ++
        concatBytes ((ps.drop (i + 1)).map (fun p => p.bytes C ms.format)) := by
    rw [← concatBytes_append, ← List.map_append, List.take_append_drop]
  rw [hsplit] at hat
  have hl : (ps.take (i + 1)).length = i + 1 := by simp; omega
  have := cumulative_loop_At C hC ms.format (ps.take (i + 1)) dec _ 0
    (fun p hp => ⟨he.2.2.2.2.2.1 p (List.mem_of_mem_take hp), hkeys p (List.mem_of_mem_take hp)⟩)
    hat (by norm_num)
  rw [hl] at this
  simp only [metaSequence.cumulativeNumberOfLeaves, hd, this, Nat.zero_add]

theorem cumulative_loop_hash_key {Value : Type} [DecidableEq Value] (C : Codec Value)
    (hC : C.Lawful) (F : Format)
    (hrej : ∀ bs, bs.head? = some C.hashKind → C.skipValue F bs = none) :
    ∀ (ps : List (TupleParts Value)) (dec : valueDecoder) (rest : List Byte) (cum : Nat),
    (∀ p, p ∈ ps → p.WF C F) →
    dec.At (concatBytes (ps.map (fun p => p.bytes C F)) ++ rest) →
    (∃ p, p ∈ ps ∧ p.key.isOrderedByValue = false) →
    metaSequence.cumulativeNumberOfLeaves_loop C F ps.length dec cum = none := by
  intro ps
  induction ps with
  | nil => intro dec rest cum _ _ hex; obtain ⟨p, hp, _⟩ := hex; simp at hp
  | cons p ps ih =>
    intro dec rest cum hwf hat hex
    have hp := hwf p (by simp)
    simp only [List.map_cons, concatBytes, TupleParts.bytes, List.append_assoc] at hat
    have s1 := skipValue_ref_At C F hp.1 hat
    have a1 := (At_advance hat).1
    cases hpv : p.key.isOrderedByValue with
    | false =>
      have hk := WF_keyBytes hp
      have hkb : p.keyBytes C F = C.hashKind :: p.key.h.bytes := by
        unfold orderedKey.encoding at hk
        simp only [hpv, Bool.not_false, if_true] at hk
        split at hk
        · simp at hk
        · simp only [Option.some.injEq] at hk; exact hk.symm
      have hhead : (dec.advance p.ref.length).rest.head? = some C.hashKind := by
        rw [a1.2.2, hkb]; rfl
      have s2 : (dec.advance p.ref.length).skipValue C F = none := by
        simp [valueDecoder.skipValue, hrej _ hhead]
      simp only [List.length_cons, metaSequence.cumulativeNumberOfLeaves_loop, s1, s2]
    | true =>
      have s2 := skipValue_key_At C hC hpv (WF_keyBytes hp) a1
      have a2 := (At_advance a1).1
      have s3 := readCount_At C hC hp.2.2 a2
      have a3 := (At_advance a2).1
      simp only [List.length_cons, metaSequence.cumulativeNumberOfLeaves_loop, s1, s2, s3]
      apply ih _ rest _ (fun q hq => hwf q (by simp [hq])) a3
      obtain ⟨q, hq, hqv⟩ := hex
      rcases List.mem_cons.mp hq with e | e
      · subst e; rw [hpv] at hqv; simp at hqv
      · exact ⟨q, e, hqv⟩

/-- When `skipValue` rejects the hash tag, `cumulativeNumberOfLeaves(i)` panics on
every node that has a hash-ordered key among the children `0..i`. -/
theorem cumulativeNumberOfLeaves_hash_key {Value : Type} [DecidableEq Value]
    (C : Codec Value) (hC : C.Lawful) (ms : metaSequence Value) (kind : NomsKind) (level : Nat)
    (ps : List (TupleParts Value)) (he : ms.Encodes C kind level ps)
    (hrej : ∀ bs, bs.head? = some C.hashKind → C.skipValue ms.format bs = none)
    (i : Nat) (hi : i < ps.length)
    (hex : ∃ p, p ∈ ps.take (i + 1) ∧ p.key.isOrderedByValue = false) :
    ms.cumulativeNumberOfLeaves C i = none := by
  obtain ⟨dec, hd, hat⟩ := Encodes_decoderSkipToValues hC he
  have hsplit : concatBytes (ps.map (fun p => p.bytes C ms.format))
      = concatBytes ((ps.take (i + 1)).map (fun p => p.bytes C ms.format)) ++
        concatBytes ((ps.drop (i + 1)).map (fun p => p.bytes C ms.format)) := by
    rw [← concatBytes_append, ← List.map_append, List.take_append_drop]
  rw [hsplit] at hat
  have hl : (ps.take (i + 1)).length = i + 1 := by simp; omega
  have := cumulative_loop_hash_key C hC ms.format hrej (ps.take (i + 1)) dec _ 0
    (fun p hp => he.2.2.2.2.2.1 p (List.mem_of_mem_take hp)) hat hex
  rw [hl] at this
  simp only [metaSequence.cumulativeNumberOfLeaves, hd, this]

/-- C5, the code at the failing input: on scenario B, whose third key is
hash-ordered, `getNumLeavesAt` returns 5, 7 and 3 and `cumulativeNumberOfLeaves`
returns 5 and 12 but panics at index 2, where the sum is 15; on scenario C,
whose keys are value-ordered, the leaf counts 5, 7, 3, 11 give 5, 12, 15, 26. -/
theorem cumulativeNumberOfLeaves_scenarios :
    (scenarioB.getNumLeavesAt toyCodec 0 = some 5 ∧ scenarioB.getNumLeavesAt toyCodec 1 = some 7 ∧
      scenarioB.getNumLeavesAt toyCodec 2 = some 3) ∧
    (scenarioB.cumulativeNumberOfLeaves toyCodec 0 = some 5 ∧
      scenarioB.cumulativeNumberOfLeaves toyCodec 1 = some 12 ∧
      scenarioB.cumulativeNumberOfLeaves toyCodec 2 = none) ∧
    (scenarioC.cumulativeNumberOfLeaves toyCodec 0 = some 5 ∧
      scenarioC.cumulativeNumberOfLeaves toyCodec 1 = some 12 ∧
      scenarioC.cumulativeNumberOfLeaves toyCodec 2 = some 15 ∧
      scenarioC.cumulativeNumberOfLeaves toyCodec 3 = some 26 ∧
      scenarioC.numLeaves = 26) := by
  decide

/-- C4, the code at the failing input: scenario B is built by the builder from
three tuples; its `numLeaves()` is 15, the sum of `getNumLeavesAt`, but
`cumulativeNumberOfLeaves(seqLen() - 1)` panics on the hash-ordered key. -/
theorem numLeaves_scenario_B :
    (newMetaSequenceFromTuples toyCodec toyMapKind 1 scenarioB_tuples emptyStore).isSome = true ∧
    scenarioB.seqLen toyCodec = some 3 ∧ scenarioB.numLeaves = 15 ∧
    ((List.range 3).map (fun i => (scenarioB.getNumLeavesAt toyCodec i).getD 0)).sum = 15 ∧
    scenarioB.cumulativeNumberOfLeaves toyCodec (3 - 1) = none := by
  decide

set_option maxRecDepth 100000 in
/-- Scenario D, evaluated: `getCompositeChildSequence(1, 2)` on the level-2 node
returns a level-1 meta sequence of 6 tuples whose keys are those of the
children 1 and 2 in order and whose number of leaves is 18. -/
theorem composite_scenario_D :
    scenarioD_composite.bind (fun r => r.seqLen toyCodec) = some 6 ∧
    scenarioD_composite.bind (fun r => r.treeLevel toyCodec) = some 1 ∧
    scenarioD_composite.map (fun r => r.numLeaves) = some 18 ∧
    scenarioD_composite.map (fun r => (List.range 6).map (fun i => r.getKey toyCodec i))
      = some ([11, 12, 13, 21, 22, 23].map (fun n => some (toyKeyOfNumber n))) := by
  decide

/-! ## Claims on the empty sequence -/

/-- C11: empty composite identity.  For every meta sequence `ms` whose
`treeLevel()` is `L >= 1` and every `start`, `getCompositeChildSequence(start, 0)`
returns `emptySequence{L - 1, ms.format()}`, whose `treeLevel()` is `L - 1` and
whose `seqLen()` and `numLeaves()` are 0, and the list of the reads it makes on
the store is empty. -/
theorem empty_composite_identity {Value : Type} (C : Codec Value) (ms : metaSequence Value)
    (L start : Nat) (hlevel : ms.treeLevel C = some L) (hL : 1 ≤ L) :
    ms.getCompositeChildSequence C start 0
      = ([], some (sequence.empty ⟨L - 1, ms.format⟩)) ∧
    (emptySequence.mk (L - 1) ms.format).treeLevel = L - 1 ∧
    (emptySequence.mk (L - 1) ms.format).seqLen = 0 ∧
    (emptySequence.mk (L - 1) ms.format).numLeaves = 0 := by
  refine ⟨?_, rfl, rfl, rfl⟩
  simp only [metaSequence.getCompositeChildSequence, hlevel]
  rw [if_neg (by omega), if_pos trivial]

theorem empty_composite_identity_witness :
    scenarioE.getCompositeChildSequence toyCodec 0 0
      = ([], some (sequence.empty ⟨3 - 1, scenarioE.format⟩)) ∧
    (emptySequence.mk (3 - 1) scenarioE.format).treeLevel = 3 - 1 ∧
    (emptySequence.mk (3 - 1) scenarioE.format).seqLen = 0 ∧
    (emptySequence.mk (3 - 1) scenarioE.format).numLeaves = 0 :=
  empty_composite_identity toyCodec scenarioE 3 0 (by decide) (by decide)

/-- C19, as stated, fails: on an empty sequence `valueReadWriter` returns nil,
`WalkRefs` returns without a call of the callback and `getCompareFn` returns a
function; none of the three panics. -/
theorem emptySequence_observations_counterexample :
    (emptySequence.mk 2 0).valueReadWriter ≠ (none : Option (Option (ValueReadWriter ToyValue))) ∧
    (emptySequence.mk 2 0).WalkRefs 0 ≠ none ∧
    ((emptySequence.mk 2 0).getCompareFn (@sequence.empty ToyValue ⟨2, 0⟩)).isSome
      = true := by
  refine ⟨by simp [emptySequence.valueReadWriter], by simp [emptySequence.WalkRefs], rfl⟩

/-- C19, amended: on every empty sequence `es`, `numLeaves()` and `seqLen()` are
0, `treeLevel()` is the level, `isLeaf()` is `level == 0`, `format()` is the
format and `getChildSequence(i)` is nil; `valueReadWriter()` returns nil,
`WalkRefs` calls the callback on no ref and `getCompareFn` returns a function
that panics when it is called; and `getItem`, `getKey`, `search`,
`cumulativeNumberOfLeaves`, `Kind`, `typeOf`, `Hash`, `Equals`, `Less`,
`valueBytes`, `valuesSlice`, `writeTo`, `Empty` and `Len` panic for every
argument. -/
theorem emptySequence_observations {Value : Type} (es : emptySequence) (i j : Nat)
    (nbf : Format) (key : orderedKey Value) (v : Value) (other : sequence Value)
    (w : binaryNomsWriter) :
    (es.numLeaves = 0 ∧ es.seqLen = 0 ∧ es.treeLevel = es.level ∧
      es.isLeaf = decide (es.level = 0) ∧ es.format = es.nbf ∧
      es.getChildSequence i = (some none : Option (Option (sequence Value)))) ∧
    (es.valueReadWriter = (some none : Option (Option (ValueReadWriter Value))) ∧
      es.WalkRefs nbf = some [] ∧
      ∃ f, es.getCompareFn other = some f ∧ ∀ a b, f a b = none) ∧
    (es.getItem i = none ∧ es.getKey i = (none : Option (orderedKey Value)) ∧
      es.search key = none ∧ es.cumulativeNumberOfLeaves i = none ∧ es.Kind = none ∧
      es.typeOf = none ∧ es.Hash nbf = none ∧ es.Equals v = none ∧ es.Less nbf v = none ∧
      es.valueBytes nbf = none ∧ es.valuesSlice i j = (none : Option (List Value)) ∧
      es.writeTo w nbf = none ∧ es.Empty = none ∧ es.Len = none) :=
  ⟨⟨rfl, rfl, rfl, rfl, rfl, rfl⟩, ⟨rfl, rfl, _, rfl, fun _ _ => rfl⟩,
    ⟨rfl, rfl, rfl, rfl, rfl, rfl, rfl, rfl, rfl, rfl, rfl, rfl, rfl, rfl⟩⟩

/-- C20, as stated, fails: on an empty sequence of level 0,
`getCompositeChildSequence(0, 0)` panics. -/
theorem emptySequence_composite_counterexample :
    (emptySequence.mk 0 0).getCompositeChildSequence 0 0 = none ∧
    (emptySequence.mk 0 0).getCompositeChildSequence 0 0 ≠ some ⟨0 - 1, 0⟩ := by
  decide

/-- C20, amended: for every empty sequence `es` with level `l` and format `F`
and every `start` and `length`, `getCompositeChildSequence(start, length)`
returns `emptySequence{l - 1, F}` when `l > 0`, `start == 0` and `length == 0`,
and panics for every other level, `start` and `length`. -/
theorem emptySequence_composite (es : emptySequence) (start length : Nat) :
    es.getCompositeChildSequence start length =
      if es.level > 0 ∧ start = 0 ∧ length = 0 then some ⟨es.level - 1, es.nbf⟩ else none := by
  unfold emptySequence.getCompositeChildSequence emptySequence.format
  by_cases h1 : es.level > 0 <;> by_cases h2 : start = 0 <;> by_cases h3 : length = 0 <;>
    simp [h1, h2, h3]

/-! ## Claims on the failures of the writers -/

/-- C16: `orderedKey.writeTo`.  A hash-ordered key is rejected when its digest
is empty and it is not the empty key, and otherwise written as the hash kind
byte followed by the 20 bytes of the digest; a value-ordered key is written as
the encoding of its value; so, for a key that carries its value when it is
value-ordered, `writeTo` panics exactly when the key is hash-ordered, its digest
is empty and it is not the empty key. -/
theorem writeTo_cases {Value : Type} [DecidableEq Value] (C : Codec Value)
    (w : binaryNomsWriter) (nbf : Format) (v : Option Value) (h h2 : Hash) (x : Value) :
    (orderedKey.mk false v h).writeTo C w nbf =
      (if orderedKey.mk false v h ≠ emptyKey ∧ h.IsEmpty = true then none
       else some (w.writeRaw (C.hashKind :: h.bytes))) ∧
    h.bytes.length = 20 ∧
    (orderedKey.mk true (some x) h2).writeTo C w nbf = some (w.writeRaw (C.encValue nbf x)) ∧
    (∀ key : orderedKey Value, (key.isOrderedByValue = true → key.v ≠ none) →
      (key.writeTo C w nbf = none ↔
        (key.isOrderedByValue = false ∧ key.h.IsEmpty = true ∧ key ≠ emptyKey))) := by
  refine ⟨?_, h.len, ?_, ?_⟩
  · rw [writeTo_eq_encoding]
    simp only [orderedKey.encoding, Bool.not_false, if_true]
    split <;> rfl
  · rw [writeTo_eq_encoding]
    simp [orderedKey.encoding]
  · intro key hv
    rw [writeTo_eq_encoding]
    obtain ⟨f, kv, kh⟩ := key
    cases f with
    | false =>
      simp only [orderedKey.encoding, Bool.not_false, if_true]
      split
      · rename_i hc; simp [hc.1, hc.2]
      · rename_i hc
        simp only [Option.map_some', reduceCtorEq, false_iff, true_and]
        intro hcon
        exact hc ⟨hcon.2, hcon.1⟩
    | true =>
      cases kv with
      | none => exact absurd rfl (hv rfl)
      | some y => simp [orderedKey.encoding]

theorem builder_loop_none {Value : Type} (C : Codec Value) :
    ∀ (ts : List metaTuple) (w : binaryNomsWriter) (offs : List Nat) (len : Nat),
    newMetaSequenceFromTuples_loop C ts w offs len = none ↔
      ∃ t, t ∈ ts ∧ t.numLeaves C = none := by
  intro ts
  induction ts with
  | nil => intro w offs len; simp [newMetaSequenceFromTuples_loop]
  | cons t ts ih =>
    intro w offs len
    cases hn : t.numLeaves C with
    | none => simp [newMetaSequenceFromTuples_loop, hn]
    | some n =>
      simp only [newMetaSequenceFromTuples_loop, hn, ih, List.mem_cons]
      constructor
      · rintro ⟨u, hu, hun⟩; exact ⟨u, Or.inr hu, hun⟩
      · rintro ⟨u, hu | hu, hun⟩
        · subst hu; rw [hn] at hun; simp at hun
        · exact ⟨u, hu, hun⟩

/-- C18, as stated, fails: at level 1 the builder returns a node for the empty
list of tuples, and for two tuples whose keys decrease (10, then 3). -/
theorem builder_rejects_counterexample :
    (newMetaSequenceFromTuples toyCodec toyMapKind 1 [] emptyStore).isSome = true ∧
    (newMetaSequenceFromTuples toyCodec toyMapKind 1 decreasingTuples emptyStore).isSome = true ∧
    (newMetaSequenceFromTuples toyCodec toyMapKind 1 decreasingTuples emptyStore).bind
      (fun ms => ms.getKey toyCodec 0) = some (toyKeyOfNumber 10) ∧
    (newMetaSequenceFromTuples toyCodec toyMapKind 1 decreasingTuples emptyStore).bind
      (fun ms => ms.getKey toyCodec 1) = some (toyKeyOfNumber 3) ∧
    (toyKeyOfNumber 3).Less toyCodec 0 (toyKeyOfNumber 10) = some true := by
  decide

/-- C18, amended: `newMetaSequenceFromTuples(kind, level, tuples, vrw)` panics
exactly when `level == 0` or the number of leaves of one of the tuples cannot
be read; it checks neither the order of the keys nor that the list is not
empty, and returns a node for every other input. -/
theorem builder_rejects {Value : Type} (C : Codec Value) (kind : NomsKind) (level : Nat)
    (tuples : List metaTuple) (vrw : ValueReadWriter Value) :
    newMetaSequenceFromTuples C kind level tuples vrw = none ↔
      (level = 0 ∨ ∃ t, t ∈ tuples ∧ t.numLeaves C = none) := by
  unfold newMetaSequenceFromTuples
  by_cases hl : level > 0
  · simp only [hl, not_true_eq_false, if_false]
    have hne : ¬ level = 0 := by omega
    simp only [hne, false_or]
    rw [← builder_loop_none C tuples
      (((NomsKind_writeTo kind newBinaryNomsWriter).writeCount C level).writeCount C
        tuples.length)
      [newBinaryNomsWriter.offset, (NomsKind_writeTo kind newBinaryNomsWriter).offset,
        ((NomsKind_writeTo kind newBinaryNomsWriter).writeCount C level).offset,
        (((NomsKind_writeTo kind newBinaryNomsWriter).writeCount C level).writeCount C
          tuples.length).offset] 0]
    split <;> simp_all
  · have h0 : level = 0 := by omega
    simp [h0]

/-! ## The parts of a tuple -/

theorem u32sub_self {a : Nat} (h : a < 2 ^ 32) : u32sub a a = 0 := by
  have := u32sub_add_left (a := a) (b := 0) (by simpa using h)
  simpa using this

theorem Holds_ref {Value : Type} [DecidableEq Value] (C : Codec Value)
    {nbf : Format} {t : metaTuple} {p : TupleParts Value} (hp : p.WF C nbf)
    (h : t.Holds C nbf p) : t.ref C = some ⟨some p.ref, t.nbf⟩ := by
  obtain ⟨hb, hk, hn, hs⟩ := h
  have hoff : u32sub (t.offsets.get metaTuplePartRef) (t.offsets.get metaTuplePartRef) = 0 :=
    u32sub_self (by simp only [metaTupleOffsets.get, metaTuplePartRef, if_true]; omega)
  have hat : (newValueDecoder t.buff).At (p.ref ++ (p.keyBytes C nbf ++
      C.encCount p.numLeaves)) := by
    have := newValueDecoder_At t.buff (by omega)
    rw [hb] at this ⊢
    exact this
  have s1 := skipRef_At C hp.1 hat
  obtain ⟨a1, o1, b1⟩ := At_advance hat
  have hle := a1.2.1
  rw [o1, b1] at hle
  simp only [metaTuple.ref, metaTuple.decoderAtPart, hoff, sliceFrom, Nat.zero_le, if_true,
    List.drop_zero, valueDecoder.readRef, s1, valueDecoder.byteSlice, o1]
  rw [if_pos ⟨by omega, hle⟩]
  have hbuff : (newValueDecoder t.buff).buff = p.ref ++ (p.keyBytes C nbf ++
      C.encCount p.numLeaves) := by
    simp only [newValueDecoder]; rw [hb]; rfl
  have htake : List.take p.ref.length t.buff = p.ref := by
    rw [hb]; simp [TupleParts.bytes]
  simp [newValueDecoder, htake]

theorem Holds_key {Value : Type} [DecidableEq Value] (C : Codec Value) (hC : C.Lawful)
    {t : metaTuple} {p : TupleParts Value} (hp : p.WF C t.nbf)
    (h : t.Holds C t.nbf p) : t.key C = some (p.key.readBack C t.nbf) := by
  obtain ⟨hb, hk, hn, hs⟩ := h
  have hlen : t.buff.length = p.ref.length + ((p.keyBytes C t.nbf).length +
      (C.encCount p.numLeaves).length) := by
    rw [hb]; simp [TupleParts.bytes]
  have hoff : u32sub (t.offsets.get metaTuplePartKey) (t.offsets.get metaTuplePartRef)
      = p.ref.length := by
    simp only [metaTupleOffsets.get, metaTuplePartRef, metaTuplePartKey, if_true]
    rw [hk]
    exact u32sub_add_left (by omega)
  have hdrop : t.buff.drop p.ref.length = p.keyBytes C t.nbf ++ C.encCount p.numLeaves := by
    rw [hb]; simp [TupleParts.bytes]
  simp only [metaTuple.key, metaTuple.decoderAtPart, hoff, sliceFrom]
  rw [if_pos (by omega)]
  simp only [hdrop]
  have hat := newValueDecoder_At (p.keyBytes C t.nbf ++ C.encCount p.numLeaves)
    (by simp only [List.length_append]; omega)
  rw [readOrderedKey_At C hC (WF_keyBytes hp) hat]
  rfl

theorem encCount_ne_nil {Value : Type} (C : Codec Value) (hC : C.Lawful) (n : Nat)
    (hn : n < 2 ^ 64) : C.encCount n ≠ [] := by
  intro hnil
  by_cases h0 : n = 0
  · have h1 := hC.readCount_enc n (C.encCount 1) hn
    have h2 := hC.readCount_enc 1 [] (by norm_num)
    rw [hnil] at h1
    simp only [List.nil_append, List.append_nil] at h1 h2
    rw [h1] at h2
    simp only [Option.some.injEq, Prod.mk.injEq] at h2
    omega
  · have h1 := hC.readCount_enc n (C.encCount 0) hn
    have h2 := hC.readCount_enc 0 [] (by norm_num)
    rw [hnil] at h1
    simp only [List.nil_append, List.append_nil] at h1 h2
    rw [h1] at h2
    simp only [Option.some.injEq, Prod.mk.injEq] at h2
    omega

theorem keyBytes_ne_nil {Value : Type} [DecidableEq Value] (C : Codec Value) (hC : C.Lawful)
    {nbf : Format} {p : TupleParts Value} (hp : p.WF C nbf) : p.keyBytes C nbf ≠ [] := by
  have hk := WF_keyBytes hp
  unfold orderedKey.encoding at hk
  split at hk
  · split at hk
    · simp at hk
    · simp only [Option.some.injEq] at hk
      rw [← hk]; simp
  · split at hk
    · rename_i v _
      simp only [Option.some.injEq] at hk
      rw [← hk]
      intro hnil
      have := hC.encValue_head nbf v
      rw [hnil] at this
      simp at this
    · simp at hk

theorem Holds_partsWithin {Value : Type} [DecidableEq Value] (C : Codec Value) (hC : C.Lawful)
    {nbf : Format} {t : metaTuple} {p : TupleParts Value} (hp : p.WF C nbf)
    (hne : p.ref ≠ []) (h : t.Holds C nbf p) : t.partsWithin C := by
  have hnum := Holds_numLeaves C hC hp h
  obtain ⟨hb, hk, hn, hs⟩ := h
  have h1 : 0 < p.ref.length := List.length_pos.mpr hne
  have h2 : 0 < (p.keyBytes C nbf).length := List.length_pos.mpr (keyBytes_ne_nil C hC hp)
  have h3 : 0 < (C.encCount p.numLeaves).length :=
    List.length_pos.mpr (encCount_ne_nil C hC _ hp.2.2)
  have hlen : t.buff.length = p.ref.length + ((p.keyBytes C nbf).length +
      (C.encCount p.numLeaves).length) := by
    rw [hb]; simp [TupleParts.bytes]
  refine ⟨by omega, by omega, by omega, p.numLeaves, hnum, by omega⟩

/-! ## Claims on the tuple views -/

theorem Encodes_getItem {Value : Type} [DecidableEq Value] {C : Codec Value}
    {ms : metaSequence Value} {kind : NomsKind} {level : Nat} {ps : List (TupleParts Value)}
    (hC : C.Lawful) (he : ms.Encodes C kind level ps) (i : Nat) (p : TupleParts Value)
    (hi : ps.get? i = some p) :
    ∃ mt, ms.getItem C i = some mt ∧ mt.Holds C ms.format p ∧ mt.nbf = ms.format ∧
      mt.offsets.ref = 0 := by
  obtain ⟨dec, hd, ho, hat⟩ := Encodes_decoderSkipToIndex he i p hi
  have hp : p.WF C ms.format := he.2.2.2.2.2.1 p (List.get?_mem hi)
  obtain ⟨t, ht, hh, hn, hr⟩ := readTuple_At C hC ms hp hat
  exact ⟨t, by simp [metaSequence.getItem, hd, ht], hh, hn, by rw [hr, ho]⟩

theorem tuples_loop_offsets {Value : Type} [DecidableEq Value] (C : Codec Value)
    (hC : C.Lawful) (ms : metaSequence Value) : ∀ (ps : List (TupleParts Value))
    (dec : valueDecoder) (rest : List Byte), (∀ p, p ∈ ps → p.WF C ms.format) →
    dec.At (concatBytes (ps.map (fun p => p.bytes C ms.format)) ++ rest) →
    ∃ ts, ms.tuples_loop C ps.length dec = some ts ∧
      List.Forall₂ (fun t p => t.Holds C ms.format p) ts ps ∧
      ts.map (fun t => t.offsets.ref) = startOffsets dec.offset (ts.map (fun t => t.buff)) := by
  intro ps
  induction ps with
  | nil => intro dec rest _ _; exact ⟨[], rfl, List.Forall₂.nil, rfl⟩
  | cons p ps ih =>
    intro dec rest hwf hat
    simp only [List.map_cons, concatBytes, List.append_assoc] at hat
    obtain ⟨t, ht, hh, _, hr⟩ := readTuple_At C hC ms (hwf p (by simp)) hat
    obtain ⟨a1, o1, _⟩ := At_advance hat
    obtain ⟨ts, hts, hf, ho⟩ := ih _ rest (fun q hq => hwf q (by simp [hq])) a1
    refine ⟨t :: ts, by simp [metaSequence.tuples_loop, ht, hts], List.Forall₂.cons hh hf, ?_⟩
    simp only [List.map_cons, startOffsets, hr, ho, o1, hh.1]

theorem Encodes_tuples_offsets {Value : Type} [DecidableEq Value] {C : Codec Value}
    {ms : metaSequence Value} {kind : NomsKind} {level : Nat} {ps : List (TupleParts Value)}
    (hC : C.Lawful) (he : ms.Encodes C kind level ps) :
    ∃ ts, ms.tuples C = some ts ∧ List.Forall₂ (fun t p => t.Holds C ms.format p) ts ps ∧
      ts.map (fun t => t.offsets.ref)
        = startOffsets (C.encCount ts.length).length (ts.map (fun t => t.buff)) := by
  have hlt := Encodes_header_lt he
  simp only [sequenceHeader, List.length_append, List.length_cons] at hlt
  have hd : ms.decoderAtPart sequencePartCount = some (newValueDecoder
      (C.encCount ps.length ++ concatBytes (ps.map (fun p => p.bytes C ms.format)))) := by
    simp only [metaSequence.decoderAtPart, sequencePartCount, sequencePartKind, he.2.1]
    simp only [List.cons_append, List.nil_append, List.get?_cons_succ, List.get?_cons_zero]
    rw [u32sub_zero (by omega)]
    simp only [metaSequence.decoderAtOffset, sliceFrom, he.1, sequenceHeader]
    rw [if_pos (by simp only [List.length_append, List.length_cons]; omega)]
    rw [Nat.add_comm, ← List.drop_drop]
    simp
  have hat := newValueDecoder_At (C.encCount ps.length ++
      concatBytes (ps.map (fun p => p.bytes C ms.format))) (by
        simp only [List.length_append]; omega)
  obtain ⟨a1, o1, _⟩ := At_advance hat
  obtain ⟨ts, hts, hf, ho⟩ := tuples_loop_offsets C hC ms ps _ [] he.2.2.2.2.2.1
    (by simpa using a1)
  refine ⟨ts, ?_, hf, ?_⟩
  · simp only [metaSequence.tuples, metaSequence.decoderSkipToValues, hd,
      readCount_At C hC he.2.2.2.2.1 hat, hts]
  · rw [ho, o1, hf.length_eq]
    simp [newValueDecoder]

/-- C14: the index accessors agree with the tuple view.  For a lawful codec,
every meta sequence `ms` that is the encoding of tuples and every index `i`
within it, `getItem(i)` returns a view `mt` such that `mt.ref()` is the ref
`getRefAt(dec, i)` returns, `mt.key()` is `getKey(i)` and `mt.numLeaves()` is
`getNumLeavesAt(i)`, each of them returning a result.  (A view keeps its part
offsets as positions in the buffer it was read from; the accessors of the view
count them from the offset of the ref, so the agreement does not depend on
where the view was read.) -/
theorem accessors_agree {Value : Type} [DecidableEq Value] (C : Codec Value) (hC : C.Lawful)
    (ms : metaSequence Value) (kind : NomsKind) (level : Nat) (ps : List (TupleParts Value))
    (i : Nat) (he : ms.Encodes C kind level ps) (hi : i < ps.length) :
    ∃ mt, ms.getItem C i = some mt ∧
      mt.ref C = (ms.getRefAt C ms.decoder i).map Prod.fst ∧
      mt.key C = ms.getKey C i ∧
      mt.numLeaves C = ms.getNumLeavesAt C i ∧
      (mt.ref C).isSome = true ∧ (mt.key C).isSome = true ∧ (mt.numLeaves C).isSome = true := by
  obtain ⟨p, hp⟩ : ∃ p, ps.get? i = some p := ⟨ps.get ⟨i, hi⟩, List.get?_eq_get hi⟩
  have hwf : p.WF C ms.format := he.2.2.2.2.2.1 p (List.get?_mem hp)
  obtain ⟨mt, hmt, hh, hn, _⟩ := Encodes_getItem hC he i p hp
  have h1 : mt.ref C = some ⟨some p.ref, ms.format⟩ := by
    rw [Holds_ref C hwf hh, hn]
  have h2 : mt.key C = some (p.key.readBack C ms.format) := by
    have := Holds_key C hC (t := mt) (p := p) (by rw [hn]; exact hwf) (by rw [hn]; exact hh)
    rw [this, hn]
  have h3 := Holds_numLeaves C hC hwf hh
  refine ⟨mt, hmt, ?_, ?_, ?_, ?_, ?_, ?_⟩
  · rw [h1, Encodes_getRefAt he i p hp ms.decoder rfl]
  · rw [h2, Encodes_getKey hC he i p hp]
  · rw [h3, Encodes_getNumLeavesAt hC he i p hp]
  · rw [h1]; rfl
  · rw [h2]; rfl
  · rw [h3]; rfl

theorem accessors_agree_witness :
    ∃ mt, scenarioB.getItem toyCodec 1 = some mt ∧
      mt.ref toyCodec = (scenarioB.getRefAt toyCodec scenarioB.decoder 1).map Prod.fst ∧
      mt.key toyCodec = scenarioB.getKey toyCodec 1 ∧
      mt.numLeaves toyCodec = scenarioB.getNumLeavesAt toyCodec 1 ∧
      (mt.ref toyCodec).isSome = true ∧ (mt.key toyCodec).isSome = true ∧
      (mt.numLeaves toyCodec).isSome = true :=
  accessors_agree toyCodec toyCodec_lawful scenarioB toyMapKind 1
    (scenarioB_specs.map specParts) 1 scenarioB_Encodes (by decide)

/-- C15, as stated, fails: the views `tuples()` returns of scenario B have the
ref offsets 1, 26 and 51, not 0, and the offsets 50 and 94 of the last part of
the second and the third view lie beyond their buffers of 25 and 44 bytes. -/
theorem metaTuple_offsets_counterexample :
    (scenarioB.tuples toyCodec).map
      (fun ts => ts.map (fun t => (t.offsets.ref, t.offsets.numLeaves, t.buff.length)))
      = some [(1, 25, 25), (26, 50, 25), (51, 94, 44)] := by
  decide

/-- C15, amended: for a lawful codec whose refs have a non-empty encoding, a
tuple built by `newMetaTuple` and a view returned by `getItem` have
`offsets[0] == 0`, and every tuple, the views returned by `tuples()` included,
has part offsets that, counted from `offsets[0]`, are strictly increasing and
lie within its buffer, the last part ending where the buffer ends; the
`offsets[0]` of the views of `tuples()` are their positions in the decoder's
buffer: the first is the length of the count and each next one lies one tuple
buffer further. -/
theorem metaTuple_offsets {Value : Type} [DecidableEq Value] (C : Codec Value) (hC : C.Lawful)
    (ref : Ref) (key : orderedKey Value) (n : Nat) (t : metaTuple) (r : List Byte)
    (ms : metaSequence Value) (kind : NomsKind) (level : Nat) (ps : List (TupleParts Value))
    (i : Nat) (mt : metaTuple) (ts : List metaTuple)
    (ht : newMetaTuple C ref key n = some t) (hr : ref.buff = some r) (hv : C.validRef r)
    (hrne : r ≠ []) (hn : n < 2 ^ 64)
    (hsize : (TupleParts.bytes C ref.nbf ⟨r, key, n⟩).length < 2 ^ 32)
    (he : ms.Encodes C kind level ps) (hrefs : ∀ p, p ∈ ps → p.ref ≠ [])
    (hi : i < ps.length) (hitem : ms.getItem C i = some mt) (hts : ms.tuples C = some ts) :
    (t.offsets.ref = 0 ∧ t.partsWithin C) ∧
    (mt.offsets.ref = 0 ∧ mt.partsWithin C) ∧
    ((∀ u, u ∈ ts → u.partsWithin C) ∧
      ts.map (fun u => u.offsets.ref)
        = startOffsets (C.encCount ts.length).length (ts.map (fun u => u.buff))) := by
  refine ⟨?_, ?_, ?_⟩
  · obtain ⟨hh, _, h0, hk⟩ := newMetaTuple_Holds C ref key n t r ht hr hsize
    exact ⟨h0, Holds_partsWithin C hC ⟨hv, hk, hn⟩ hrne hh⟩
  · obtain ⟨p, hp⟩ : ∃ p, ps.get? i = some p := ⟨ps.get ⟨i, hi⟩, List.get?_eq_get hi⟩
    obtain ⟨mt1, hmt, hh, _, h0⟩ := Encodes_getItem hC he i p hp
    rw [hitem] at hmt
    simp only [Option.some.injEq] at hmt
    subst hmt
    exact ⟨h0, Holds_partsWithin C hC (he.2.2.2.2.2.1 p (List.get?_mem hp))
      (hrefs p (List.get?_mem hp)) hh⟩
  · obtain ⟨ts1, hts1, hf, ho⟩ := Encodes_tuples_offsets hC he
    rw [hts] at hts1
    simp only [Option.some.injEq] at hts1
    subst hts1
    refine ⟨?_, ho⟩
    have : ∀ (l : List metaTuple) (qs : List (TupleParts Value)),
        List.Forall₂ (fun t p => t.Holds C ms.format p) l qs → (∀ q, q ∈ qs → q ∈ ps) →
        ∀ u, u ∈ l → u.partsWithin C := by
      intro l qs hlq
      induction hlq with
      | nil => intro _ u hu; simp at hu
      | @cons a q l qs haq _ ih =>
        intro hsub u hu
        rcases List.mem_cons.mp hu with e | e
        · subst e
          exact Holds_partsWithin C hC (he.2.2.2.2.2.1 q (hsub q (by simp)))
            (hrefs q (hsub q (by simp))) haq
        · exact ih (fun x hx => hsub x (by simp [hx])) u e
    exact this ts ps hf (fun q hq => hq)

theorem metaTuple_offsets_witness :
    (scenarioB_tuple0.offsets.ref = 0 ∧ scenarioB_tuple0.partsWithin toyCodec) ∧
    (scenarioB_item1.offsets.ref = 0 ∧ scenarioB_item1.partsWithin toyCodec) ∧
    ((∀ u, u ∈ scenarioB_views → u.partsWithin toyCodec) ∧
      scenarioB_views.map (fun u => u.offsets.ref)
        = startOffsets (toyCodec.encCount scenarioB_views.length).length
            (scenarioB_views.map (fun u => u.buff))) :=
  metaTuple_offsets toyCodec toyCodec_lawful (toyRef (hashOfByte 7) 1) (toyKeyOfNumber 3) 5
    scenarioB_tuple0 (toyRefKind :: (hashOfByte 7).bytes ++ toyEncCount 1) scenarioB toyMapKind 1
    (scenarioB_specs.map specParts) 1 scenarioB_item1 scenarioB_views
    (by decide) rfl (toyRef_valid _ _) (by simp) (by decide) (by decide) scenarioB_Encodes
    (by
      intro p hp
      simp only [scenarioB_specs, List.map_cons, List.map_nil, List.mem_cons,
        List.mem_singleton, List.not_mem_nil, or_false] at hp
      rcases hp with e | e | e <;> subst e <;> simp [specParts, toyRef])
    (by decide) (by decide) (by decide)

/-! ## Claims on `newMetaTuple` -/

theorem newMetaTuple_none_iff {Value : Type} [DecidableEq Value] (C : Codec Value) (ref : Ref)
    (key : orderedKey Value) (n : Nat) :
    newMetaTuple C ref key n = none ↔ (ref.buff = none ∨ key.encoding C ref.nbf = none) := by
  unfold newMetaTuple
  by_cases hr : ref.buff = none
  · simp [hr]
  · simp only [hr, if_false, writeTo_eq_encoding, Ref.format, false_or]
    cases hk : key.encoding C ref.nbf with
    | none => simp
    | some kb => simp

/-- C17, as stated, fails: with a non-empty ref, `newMetaTuple` panics on a
hash-ordered key that has an empty digest and is not the empty key; and the
tuple built with the key `newOrderedKey` makes of a blob returns, as its
`key()`, the key of the digest alone. -/
theorem newMetaTuple_spec_counterexample :
    (toyRef (hashOfByte 7) 1).buff ≠ none ∧
    newMetaTuple toyCodec (toyRef (hashOfByte 7) 1) ⟨false, some (.number 1), emptyHash⟩ 4
      = none ∧
    (newMetaTuple toyCodec (toyRef (hashOfByte 7) 1)
      (newOrderedKey toyCodec (.blob (hashOfByte 5)) 0) 4).bind (fun t => t.key toyCodec)
      = some (orderedKeyFromHash (hashOfByte 5)) ∧
    (newMetaTuple toyCodec (toyRef (hashOfByte 7) 1)
      (newOrderedKey toyCodec (.blob (hashOfByte 5)) 0) 4).bind (fun t => t.key toyCodec)
      ≠ some (newOrderedKey toyCodec (.blob (hashOfByte 5)) 0) := by
  decide

/-- C17, amended: `newMetaTuple(ref, key, numLeaves)` panics exactly when the
ref is empty (`ref.buff == nil`) or `key.writeTo` panics.  For a lawful codec, a
non-empty ref with the bytes `r`, a key made by `newOrderedKey` or
`orderedKeyFromHash` that is written as `kb`, and a `uint64` number of leaves
(the encoding being shorter than `2^32` bytes), it returns a tuple whose buffer
is exactly `r ++ kb ++ count(numLeaves)` and whose `ref()` and `numLeaves()`
return the inputs, while `key()` returns the key when it is value-ordered and
`orderedKeyFromHash` of its digest when it is hash-ordered. -/
theorem newMetaTuple_spec {Value : Type} [DecidableEq Value] (C : Codec Value) (hC : C.Lawful)
    (ref0 : Ref) (key0 : orderedKey Value) (n0 : Nat)
    (ref : Ref) (key : orderedKey Value) (n : Nat) (r kb : List Byte)
    (hr : ref.buff = some r) (hv : C.validRef r) (hk : key.encoding C ref.nbf = some kb)
    (hkey : (∃ v, key = newOrderedKey C v ref.nbf) ∨ (∃ d, key = orderedKeyFromHash d))
    (hn : n < 2 ^ 64) (hsize : (r ++ kb ++ C.encCount n).length < 2 ^ 32) :
    (newMetaTuple C ref0 key0 n0 = none ↔
      (ref0.buff = none ∨ key0.encoding C ref0.nbf = none)) ∧
    ∃ t, newMetaTuple C ref key n = some t ∧ t.buff = r ++ kb ++ C.encCount n ∧
      t.ref C = some ref ∧
      t.key C = some (if key.isOrderedByValue then key else orderedKeyFromHash key.h) ∧
      t.numLeaves C = some n := by
  refine ⟨newMetaTuple_none_iff C ref0 key0 n0, ?_⟩
  have hsome : newMetaTuple C ref key n ≠ none := by
    rw [Ne, newMetaTuple_none_iff]
    simp [hr, hk]
  obtain ⟨t, ht⟩ := Option.ne_none_iff_exists'.mp hsome
  have hsz : (TupleParts.bytes C ref.nbf ⟨r, key, n⟩).length < 2 ^ 32 := by
    simpa [TupleParts.bytes, TupleParts.keyBytes, hk] using hsize
  obtain ⟨hh, hnbf, _, hks⟩ := newMetaTuple_Holds C ref key n t r ht hr hsz
  have hwf : (TupleParts.mk r key n).WF C ref.nbf := ⟨hv, hks, hn⟩
  refine ⟨t, ht, ?_, ?_, ?_, ?_⟩
  · rw [hh.1]; simp [TupleParts.bytes, TupleParts.keyBytes, hk]
  · rw [Holds_ref C hwf hh, hnbf]
    obtain ⟨b, f⟩ := ref
    simp only at hr
    simp [hr]
  · have := Holds_key C hC (t := t) (p := ⟨r, key, n⟩) (by rw [hnbf]; exact hwf)
      (by rw [hnbf]; exact hh)
    rw [this, hnbf]
    congr 1
    rcases hkey with ⟨v, hkv⟩ | ⟨d, hkd⟩
    · simp only [hkv]
      by_cases hov : C.isKindOrderedByValue (C.valueKind v) = true
      · simp [newOrderedKey, hov, orderedKey.readBack]
      · simp [newOrderedKey, hov, orderedKey.readBack]
    · simp [hkd, orderedKeyFromHash, orderedKey.readBack]
  · exact Holds_numLeaves C hC hwf hh

theorem newMetaTuple_spec_witness :
    (newMetaTuple toyCodec ⟨none, 0⟩ (toyKeyOfNumber 3) 5 = none ↔
      ((Ref.mk none 0).buff = none ∨
        (toyKeyOfNumber 3).encoding toyCodec (Ref.mk none 0).nbf = none)) ∧
    ∃ t, newMetaTuple toyCodec (toyRef (hashOfByte 7) 1) (toyKeyOfHash 1) 5 = some t ∧
      t.buff = (toyRefKind :: (hashOfByte 7).bytes ++ toyEncCount 1) ++
        (toyHashKind :: (hashOfByte 1).bytes) ++ toyCodec.encCount 5 ∧
      t.ref toyCodec = some (toyRef (hashOfByte 7) 1) ∧
      t.key toyCodec = some (if (toyKeyOfHash 1).isOrderedByValue then toyKeyOfHash 1
        else orderedKeyFromHash (toyKeyOfHash 1).h) ∧
      t.numLeaves toyCodec = some 5 :=
  newMetaTuple_spec toyCodec toyCodec_lawful ⟨none, 0⟩ (toyKeyOfNumber 3) 5
    (toyRef (hashOfByte 7) 1) (toyKeyOfHash 1) 5
    (toyRefKind :: (hashOfByte 7).bytes ++ toyEncCount 1) (toyHashKind :: (hashOfByte 1).bytes)
    rfl (toyRef_valid _ _) (by decide) (Or.inr ⟨hashOfByte 1, rfl⟩) (by decide) (by decide)

/-! ## The layout of a node -/

theorem builder_loop_layout {Value : Type} (C : Codec Value) :
    ∀ (ts : List metaTuple) (w : binaryNomsWriter) (offs : List Nat) (len : Nat),
    (∀ t, t ∈ ts → (t.numLeaves C).isSome = true) →
    w.offset + (concatBytes (ts.map (fun t => t.buff))).length < 2 ^ 32 →
    ∃ len1, newMetaSequenceFromTuples_loop C ts w offs len =
      some (w.writeRaw (concatBytes (ts.map (fun t => t.buff))),
        offs ++ endOffsets w.offset (ts.map (fun t => t.buff)), len1) := by
  intro ts
  induction ts with
  | nil =>
    intro w offs len _ hsz
    have hw : u32 w.offset = w.offset := u32_of_lt (by omega)
    exact ⟨len, by simp [newMetaSequenceFromTuples_loop, concatBytes, endOffsets,
      binaryNomsWriter.writeRaw, hw]⟩
  | cons t ts ih =>
    intro w offs len hl hsz
    obtain ⟨n, hn⟩ := Option.isSome_iff_exists.mp (hl t (by simp))
    have hsz2 : w.offset + (t.buff.length +
        (concatBytes (ts.map (fun t => t.buff))).length) < 2 ^ 32 := by
      simpa [concatBytes] using hsz
    have hoff : (w.writeRaw t.buff).offset = w.offset + t.buff.length := by
      simp only [binaryNomsWriter.writeRaw]
      exact u32_of_lt (by omega)
    obtain ⟨len1, h1⟩ := ih (w.writeRaw t.buff) (offs ++ [(w.writeRaw t.buff).offset])
      (u64 (len + n)) (fun u hu => hl u (by simp [hu])) (by rw [hoff]; omega)
    refine ⟨len1, ?_⟩
    simp only [newMetaSequenceFromTuples_loop, hn, metaTuple.writeTo, h1]
    simp only [writeRaw_writeRaw, hoff, concatBytes, List.map_cons, endOffsets,
      List.append_assoc, List.singleton_append]

theorem endOffsets_ge (bs : List (List Byte)) : ∀ (o x : Nat), x ∈ endOffsets o bs → o ≤ x := by
  induction bs with
  | nil => intro o x h; simp [endOffsets] at h
  | cons b bs ih =>
    intro o x h
    simp only [endOffsets, List.mem_cons] at h
    rcases h with h | h
    · omega
    · have := ih _ _ h; omega

theorem endOffsets_pairwise (bs : List (List Byte)) :
    ∀ o, List.Pairwise (fun a b => a ≤ b) (endOffsets o bs) := by
  induction bs with
  | nil => intro o; simp [endOffsets]
  | cons b bs ih =>
    intro o
    simp only [endOffsets, List.pairwise_cons]
    exact ⟨fun x hx => endOffsets_ge bs _ x hx, ih _⟩

theorem concatBytes_take_succ (bs : List (List Byte)) (i : Nat) (b : List Byte)
    (h : bs.get? i = some b) :
    concatBytes (bs.take (i + 1)) = concatBytes (bs.take i) ++ b := by
  rw [List.take_succ, concatBytes_append, ← List.get?_eq_getElem?, h]
  simp [concatBytes]

/-- C13: node layout.  For every kind, level `>= 1` and list of tuples whose
`numLeaves()` can be read, the encoding being shorter than `2^32` bytes, the
buffer of `newMetaSequenceFromTuples(kind, level, ts, vrw)` is exactly
`enc(kind) ++ count(level) ++ count(len(ts)) ++ ts[0].buff ++ ... ++ ts[n-1].buff`;
its offset table has `len(ts) + 4` entries, which are non-decreasing; the first
four are the offsets at which the kind, the level, the count and the values
start; tuple `i` is at the bytes `[offsets[3+i], offsets[3+i+1])`; and the last
entry is the length of the buffer. -/
theorem builder_layout {Value : Type} (C : Codec Value) (kind : NomsKind) (level : Nat)
    (ts : List metaTuple) (vrw : ValueReadWriter Value) (hlevel : 1 ≤ level)
    (hleaves : ∀ t, t ∈ ts → (t.numLeaves C).isSome = true)
    (hsize : (sequenceHeader C kind level ts.length ++
      concatBytes (ts.map (fun t => t.buff))).length < 2 ^ 32) :
    ∃ ms, newMetaSequenceFromTuples C kind level ts vrw = some ms ∧
      ms.buff = [kind] ++ C.encCount level ++ C.encCount ts.length ++
        concatBytes (ts.map (fun t => t.buff)) ∧
      ms.offsets.length = ts.length + 4 ∧
      List.Pairwise (fun a b => a ≤ b) ms.offsets ∧
      ms.offsets.take 4 = [0, 1, 1 + (C.encCount level).length,
        1 + (C.encCount level).length + (C.encCount ts.length).length] ∧
      (∀ i t, ts.get? i = some t → ∃ a b, ms.offsets.get? (3 + i) = some a ∧
        ms.offsets.get? (3 + i + 1) = some b ∧ a ≤ b ∧
        (ms.buff.drop a).take (b - a) = t.buff) ∧
      ms.offsets.get? (ts.length + 3) = some ms.buff.length := by
  have hsz : 1 + ((C.encCount level).length + ((C.encCount ts.length).length +
      (concatBytes (ts.map (fun t => t.buff))).length)) < 2 ^ 32 := by
    simp only [sequenceHeader, List.length_append, List.length_cons] at hsize
    omega
  have hw : ((NomsKind_writeTo kind newBinaryNomsWriter).writeCount C level).writeCount C
      ts.length = newBinaryNomsWriter.writeRaw (sequenceHeader C kind level ts.length) := by
    simp [NomsKind_writeTo, binaryNomsWriter.writeCount, writeRaw_writeRaw, sequenceHeader]
  have o1 : (NomsKind_writeTo kind newBinaryNomsWriter).offset = 1 := by
    simp [NomsKind_writeTo, binaryNomsWriter.writeRaw, newBinaryNomsWriter, u32]
  have o2 : ((NomsKind_writeTo kind newBinaryNomsWriter).writeCount C level).offset
      = 1 + (C.encCount level).length := by
    simp only [binaryNomsWriter.writeCount, binaryNomsWriter.writeRaw, o1]
    exact u32_of_lt (by omega)
  have hH : (sequenceHeader C kind level ts.length).length
      = 1 + (C.encCount level).length + (C.encCount ts.length).length := by
    simp only [sequenceHeader, List.length_append, List.length_cons]; omega
  have o3 : (newBinaryNomsWriter.writeRaw (sequenceHeader C kind level ts.length)).offset
      = (sequenceHeader C kind level ts.length).length := by
    simp only [binaryNomsWriter.writeRaw, newBinaryNomsWriter, Nat.zero_add]
    exact u32_of_lt (by rw [hH]; omega)
  obtain ⟨len1, hloop⟩ := builder_loop_layout C ts
    (newBinaryNomsWriter.writeRaw (sequenceHeader C kind level ts.length))
    [0, 1, 1 + (C.encCount level).length, (sequenceHeader C kind level ts.length).length] 0
    hleaves (by rw [o3]; simpa using hsize)
  rw [o3] at hloop
  have hpos : level > 0 := hlevel
  simp only [newMetaSequenceFromTuples, hpos, not_true_eq_false, if_false, hw, o1, o2, o3]
  have e0 : newBinaryNomsWriter.offset = 0 := rfl
  rw [e0, hloop]
  have hbuff : ((newBinaryNomsWriter.writeRaw (sequenceHeader C kind level ts.length)).writeRaw
      (concatBytes (ts.map (fun t => t.buff)))).data
      = sequenceHeader C kind level ts.length ++ concatBytes (ts.map (fun t => t.buff)) := by
    rw [writeRaw_writeRaw, writeRaw_new_data _ hsize]
  have hget : ∀ i, i ≤ ts.length →
      ([0, 1, 1 + (C.encCount level).length, (sequenceHeader C kind level ts.length).length] ++
        endOffsets (sequenceHeader C kind level ts.length).length
          (ts.map (fun t => t.buff))).get? (3 + i)
      = some ((sequenceHeader C kind level ts.length).length +
          (concatBytes ((ts.map (fun t => t.buff)).take i)).length) := by
    intro i hi
    have := endOffsets_get (ts.map (fun t => t.buff))
      (sequenceHeader C kind level ts.length).length i (by simpa using hi)
    rw [← this, Nat.add_comm 3 i]
    rfl
  refine ⟨_, rfl, ?_, ?_, ?_, ?_, ?_, ?_⟩
  · simp only [newMetaSequence]
    rw [hbuff]
    simp [sequenceHeader]
  · simp [newMetaSequence, endOffsets_length]
  · simp only [newMetaSequence]
    rw [List.pairwise_append]
    refine ⟨?_, endOffsets_pairwise _ _, ?_⟩
    · rw [hH]
      simp
      omega
    · intro a ha b hb
      have hb2 := endOffsets_ge _ _ _ hb
      rw [hH] at hb2
      simp only [List.mem_cons, List.mem_singleton, List.not_mem_nil, or_false] at ha
      rw [hH] at ha
      omega
  · simp [newMetaSequence, hH]
  · intro i t hit
    have hi : i < ts.length := by
      rcases Nat.lt_or_ge i ts.length with h | h
      · exact h
      · rw [List.get?_eq_none.mpr h] at hit; cases hit
    have hbi : (ts.map (fun t => t.buff)).get? i = some t.buff := by
      rw [List.get?_eq_getElem?, List.getElem?_map, ← List.get?_eq_getElem?, hit]; rfl
    refine ⟨_, _, hget i (by omega), hget (i + 1) (by omega), ?_, ?_⟩
    · rw [concatBytes_take_succ _ i _ hbi]; simp
    · simp only [newMetaSequence, hbuff]
      rw [concatBytes_take_succ _ i _ hbi, List.drop_append_eq_append_drop]
      have e1 : (sequenceHeader C kind level ts.length).length +
          (concatBytes (List.take i (ts.map (fun t => t.buff)))).length -
          (sequenceHeader C kind level ts.length).length
          = (concatBytes (List.take i (ts.map (fun t => t.buff)))).length := by omega
      have e2 : List.drop ((sequenceHeader C kind level ts.length).length +
          (concatBytes (List.take i (ts.map (fun t => t.buff)))).length)
          (sequenceHeader C kind level ts.length) = [] := by
        apply List.drop_eq_nil_of_le; omega
      rw [e1, e2, concatBytes_drop, drop_of_get? _ i _ hbi]
      simp only [concatBytes, List.nil_append, List.length_append]
      have e3 : (sequenceHeader C kind level ts.length).length +
          ((concatBytes (List.take i (ts.map (fun t => t.buff)))).length + t.buff.length) -
          ((sequenceHeader C kind level ts.length).length +
            (concatBytes (List.take i (ts.map (fun t => t.buff)))).length)
          = t.buff.length := by omega
      rw [e3]
      simp
  · have h := hget ts.length (Nat.le_refl _)
    rw [Nat.add_comm 3 ts.length] at h
    simp only [newMetaSequence]
    rw [h, hbuff]
    have : List.take ts.length (ts.map (fun t => t.buff)) = ts.map (fun t => t.buff) := by
      apply List.take_of_length_le; simp
    rw [this]; simp

theorem builder_layout_witness :
    ∃ ms, newMetaSequenceFromTuples toyCodec toyMapKind 1 scenarioB_tuples emptyStore = some ms ∧
      ms.buff = [toyMapKind] ++ toyCodec.encCount 1 ++ toyCodec.encCount scenarioB_tuples.length ++
        concatBytes (scenarioB_tuples.map (fun t => t.buff)) ∧
      ms.offsets.length = scenarioB_tuples.length + 4 ∧
      List.Pairwise (fun a b => a ≤ b) ms.offsets ∧
      ms.offsets.take 4 = [0, 1, 1 + (toyCodec.encCount 1).length,
        1 + (toyCodec.encCount 1).length + (toyCodec.encCount scenarioB_tuples.length).length] ∧
      (∀ i t, scenarioB_tuples.get? i = some t → ∃ a b, ms.offsets.get? (3 + i) = some a ∧
        ms.offsets.get? (3 + i + 1) = some b ∧ a ≤ b ∧
        (ms.buff.drop a).take (b - a) = t.buff) ∧
      ms.offsets.get? (scenarioB_tuples.length + 3) = some ms.buff.length :=
  builder_layout toyCodec toyMapKind 1 scenarioB_tuples emptyStore (by decide) (by decide)
    (by decide)

/-! ## The batched fetch of the children -/

theorem getRefAt_buff {Value : Type} (C : Codec Value) (ms : metaSequence Value)
    (dec dec1 : valueDecoder) (i : Nat) (r : Ref) (h : ms.getRefAt C dec i = some (r, dec1)) :
    dec1.buff = dec.buff := by
  unfold metaSequence.getRefAt at h
  cases ho : ms.getItemOffset i with
  | none => simp [ho] at h
  | some o =>
    simp only [ho, valueDecoder.readRef, valueDecoder.skipRef] at h
    cases hs : C.skipRef (valueDecoder.rest ⟨dec.buff, u32 o⟩) with
    | none => simp [hs] at h
    | some k =>
      simp only [hs] at h
      cases hb : valueDecoder.byteSlice ⟨dec.buff, u32 o⟩ (u32 o)
          (valueDecoder.advance ⟨dec.buff, u32 o⟩ k).offset with
      | none => simp [hb] at h
      | some bs =>
        simp only [hb, Option.some.injEq, Prod.mk.injEq] at h
        rw [← h.2]; rfl

theorem getRefAt_congr {Value : Type} (C : Codec Value) (ms : metaSequence Value)
    (dec dec1 : valueDecoder) (i : Nat) (h : dec.buff = dec1.buff) :
    ms.getRefAt C dec i = ms.getRefAt C dec1 i := by
  simp only [metaSequence.getRefAt, h]

theorem getChildren_hashes_of_targets {Value : Type} (C : Codec Value)
    (ms : metaSequence Value) : ∀ (n i : Nat) (dec : valueDecoder) (hs : List Hash),
    dec.buff = ms.buff →
    (List.range n).map (fun k => ms.targetHashAt C (i + k)) = hs.map some →
    ms.getChildren_hashes C n i dec = some hs := by
  intro n
  induction n with
  | zero =>
    intro i dec hs _ h
    cases hs with
    | nil => rfl
    | cons a as => simp at h
  | succ n ih =>
    intro i dec hs hb h
    rw [List.range_succ_eq_map] at h
    cases hs with
    | nil => simp at h
    | cons a as =>
      simp only [List.map_cons, List.map_map, Nat.add_zero, List.cons.injEq] at h
      obtain ⟨h0, h1⟩ := h
      simp only [metaSequence.targetHashAt, Option.map_eq_some'] at h0
      obtain ⟨⟨r, dec1⟩, hr, ha⟩ := h0
      have hr2 : ms.getRefAt C dec i = some (r, dec1) := by
        rw [getRefAt_congr C ms dec ms.decoder i (by rw [hb]; rfl)]; exact hr
      have hb1 : dec1.buff = ms.buff := by
        rw [getRefAt_buff C ms dec dec1 i r hr2, hb]
      have h2 : (List.range n).map (fun k => ms.targetHashAt C (i + 1 + k)) = as.map some := by
        rw [← h1]
        apply List.map_congr_left
        intro k _
        simp only [Function.comp, Nat.succ_eq_add_one]
        congr 1; omega
      simp only [metaSequence.getChildren_hashes, hr2, ih (i + 1) dec1 as hb1 h2]
      simp only at ha
      rw [ha]

theorem Forall₂_get? {α β : Type} {R : α → β → Prop} {as : List α} {bs : List β}
    (h : List.Forall₂ R as bs) : ∀ (i : Nat) (b : β), bs.get? i = some b →
    ∃ a, as.get? i = some a ∧ R a b := by
  induction h with
  | nil => intro i b hb; simp at hb
  | @cons a b as bs hab _ ih =>
    intro i c hc
    cases i with
    | zero =>
      simp only [List.get?_cons_zero, Option.some.injEq] at hc
      subst hc
      exact ⟨a, rfl, hab⟩
    | succ i =>
      simp only [List.get?_cons_succ] at hc
      simpa using ih i c hc

/-- C12: batched fetch order.  For every meta sequence `ms` and every
`start < end <= ms.seqLen()` whose refs `getRefAt(start)`, ..., `getRefAt(end-1)`
have the target hashes `hs`, `ms.getChildren(start, end)` makes exactly one
`ReadManyValues` call, with the argument `hs` (in that order, duplicates kept);
when the store answers it with the collections `cs`, one for each hash and in
the order of the request (`hashOf` being `sequence.hash()`), the result is the
slice of the sequences of `cs`, of length `end - start`, and the hash of its
`i`-th element is `getRefAt(start + i).TargetHash()`.  When `start == end` the
result is an empty slice and there is no store call. -/
theorem getChildren_batched {Value : Type} (C : Codec Value) (ms : metaSequence Value)
    (hashOf : sequence Value → Hash) (start stop n : Nat) (hs : List Hash)
    (cs : List (Collection Value))
    (hn : ms.seqLen C = some n) (hlt : start < stop) (hle : stop ≤ n)
    (hrefs : (List.range (stop - start)).map (fun i => ms.targetHashAt C (start + i))
      = hs.map some)
    (hstore : ms.vrw.ReadManyValues hs = some (cs.map some))
    (horder : List.Forall₂ (fun h c => hashOf (c.asSequence ms.vrw) = h) hs cs) :
    ms.getChildren C start stop
      = ([hs], some (cs.map (fun c => some (c.asSequence ms.vrw)))) ∧
    (cs.map (fun c => some (c.asSequence ms.vrw))).length = stop - start ∧
    (∀ i c, cs.get? i = some c →
      ms.targetHashAt C (start + i) = some (hashOf (c.asSequence ms.vrw))) ∧
    (∀ s, s ≤ n → ms.getChildren C s s = ([], some [])) := by
  have hhl : hs.length = stop - start := by
    have := congrArg List.length hrefs
    simpa using this.symm
  have hcl : cs.length = hs.length := horder.length_eq.symm
  have hh := getChildren_hashes_of_targets C ms (stop - start) start ms.decoder hs rfl hrefs
  refine ⟨?_, ?_, ?_, ?_⟩
  · simp only [metaSequence.getChildren, hn, hh, hstore]
    rw [if_neg (by omega), if_neg (by omega), if_neg (by omega), ← hcl, getChildren_fill_all]
  · simp only [List.length_map]; omega
  · intro i c hc
    obtain ⟨h, hh1, hh2⟩ := Forall₂_get? horder i c hc
    have hi : i < stop - start := by
      rw [← hhl]
      rcases Nat.lt_or_ge i hs.length with g | g
      · exact g
      · rw [List.get?_eq_none.mpr g] at hh1; cases hh1
    have h1 : ((List.range (stop - start)).map (fun i => ms.targetHashAt C (start + i)))[i]?
        = (hs.map some)[i]? := by rw [hrefs]
    rw [List.getElem?_map, List.getElem?_map, List.getElem?_range hi,
      ← List.get?_eq_getElem?, hh1] at h1
    simp only [Option.map_some', Option.some.injEq] at h1
    rw [h1, hh2]
  · intro s hs2
    simp only [metaSequence.getChildren, hn, Nat.sub_self, metaSequence.getChildren_hashes]
    simp only [List.length_nil, if_true]
    rw [if_neg (by omega), if_neg (by omega)]

set_option maxRecDepth 100000 in
theorem getChildren_batched_witness :
    scenarioD.getChildren toyCodec 1 3
      = ([[scenarioD_childHash 1, scenarioD_childHash 2]],
          some ([Collection.meta (scenarioD_child 1).1 (scenarioD_child 1).2.1 (scenarioD_child 1).2.2,
            Collection.meta (scenarioD_child 2).1 (scenarioD_child 2).2.1 (scenarioD_child 2).2.2].map
              (fun c => some (c.asSequence scenarioD.vrw)))) ∧
    ([Collection.meta (scenarioD_child 1).1 (scenarioD_child 1).2.1 (scenarioD_child 1).2.2,
      Collection.meta (scenarioD_child 2).1 (scenarioD_child 2).2.1 (scenarioD_child 2).2.2].map
        (fun c => some (c.asSequence scenarioD.vrw))).length = 3 - 1 ∧
    (∀ i c, [Collection.meta (scenarioD_child 1).1 (scenarioD_child 1).2.1 (scenarioD_child 1).2.2,
      Collection.meta (scenarioD_child 2).1 (scenarioD_child 2).2.1 (scenarioD_child 2).2.2].get? i
        = some c →
      scenarioD.targetHashAt toyCodec (1 + i)
        = some (scenarioD_hash (c.asSequence scenarioD.vrw))) ∧
    (∀ s, s ≤ 4 → scenarioD.getChildren toyCodec s s = ([], some [])) :=
  getChildren_batched toyCodec scenarioD scenarioD_hash 1 3 4
    [scenarioD_childHash 1, scenarioD_childHash 2]
    [Collection.meta (scenarioD_child 1).1 (scenarioD_child 1).2.1 (scenarioD_child 1).2.2,
     Collection.meta (scenarioD_child 2).1 (scenarioD_child 2).2.1 (scenarioD_child 2).2.2]
    (by decide) (by decide) (by decide) (by decide) (by rw [scenarioD_vrw]; decide)
    (List.Forall₂.cons (by decide) (List.Forall₂.cons (by decide) List.Forall₂.nil))

/-! ## The shape of the ordered keys -/

/-- The failing input of C21, evaluated: `orderedKeyFromHash` of the zero digest
is the empty key, whose `v` is nil and whose `h` is empty. -/
theorem orderedKey_shape_counterexample :
    (orderedKeyFromHash emptyHash : orderedKey ToyValue) = emptyKey ∧
    (orderedKeyFromHash emptyHash : orderedKey ToyValue).isOrderedByValue = false ∧
    (orderedKeyFromHash emptyHash : orderedKey ToyValue).v = none ∧
    (orderedKeyFromHash emptyHash : orderedKey ToyValue).h.IsEmpty = true := by
  decide

/-- C21: the shape of the keys the constructors return, and where it breaks
the invariant that the comment on `orderedKey` states ("`v` may be nil or `h`
may be empty, but not both").  The key `newOrderedKey(v, F)` returns, and so
the keys of `orderedKeyFromInt` and `orderedKeyFromUint64`, carries `v` and is
value-ordered exactly when the kind of `v` sorts by value; it then has the empty
digest, and otherwise the digest `v.Hash(F)`, which is non-empty when the hash
of `v` is; it never has both `v` nil and `h` empty.  The key
`orderedKeyFromHash(h)` returns is hash-ordered with a nil `v` and the digest
`h`, non-empty when `h` is; but the function does not check `h`, and for the
zero digest it returns the empty key, with both `v` nil and `h` empty. -/
theorem orderedKey_shape {Value : Type} (C : Codec Value) (v : Value) (F : Format) (h : Hash)
    (Float : Int → Value) (n : Int) (m : Nat) :
    ((newOrderedKey C v F).isOrderedByValue = C.isKindOrderedByValue (C.valueKind v) ∧
      (newOrderedKey C v F).v = some v ∧
      ((newOrderedKey C v F).isOrderedByValue = true → (newOrderedKey C v F).h = emptyHash) ∧
      ((newOrderedKey C v F).isOrderedByValue = false →
        (newOrderedKey C v F).h = C.valueHash F v) ∧
      ((newOrderedKey C v F).isOrderedByValue = false → C.valueHash F v ≠ emptyHash →
        (newOrderedKey C v F).h.IsEmpty = false) ∧
      ¬ ((newOrderedKey C v F).v = none ∧ (newOrderedKey C v F).h.IsEmpty = true)) ∧
    (orderedKeyFromInt C Float n F = newOrderedKey C (Float n) F ∧
      orderedKeyFromUint64 C Float m F = newOrderedKey C (Float (u64 m)) F) ∧
    ((orderedKeyFromHash h : orderedKey Value).isOrderedByValue = false ∧
      (orderedKeyFromHash h : orderedKey Value).v = none ∧
      (orderedKeyFromHash h : orderedKey Value).h = h ∧
      (h ≠ emptyHash → (orderedKeyFromHash h : orderedKey Value).h.IsEmpty = false) ∧
      (((orderedKeyFromHash h : orderedKey Value).v = none ∧
        (orderedKeyFromHash h : orderedKey Value).h.IsEmpty = true) ↔ h = emptyHash) ∧
      ((orderedKeyFromHash h : orderedKey Value) = emptyKey ↔ h = emptyHash)) ∧
    ((orderedKeyFromHash emptyHash : orderedKey Value) = emptyKey ∧
      (orderedKeyFromHash emptyHash : orderedKey Value).v = none ∧
      (orderedKeyFromHash emptyHash : orderedKey Value).h.IsEmpty = true) := by
  refine ⟨?_, ⟨rfl, rfl⟩, ⟨rfl, rfl, rfl, ?_, ?_, ?_⟩, rfl, rfl, ?_⟩
  · unfold newOrderedKey
    by_cases hk : C.isKindOrderedByValue (C.valueKind v) = true
    · simp [hk]
    · simp [hk, Hash.IsEmpty]
  · intro hne
    simp [orderedKeyFromHash, Hash.IsEmpty, hne]
  · simp [orderedKeyFromHash, Hash.IsEmpty]
  · simp [orderedKeyFromHash, emptyKey]
  · simp [orderedKeyFromHash, Hash.IsEmpty]

end types

namespace merge

/-! ## The conflict reader -/

theorem createRow_tuple {T R Err : Type} (key t : T) (rowConv : RowConverter T R Err) :
    createRow key (.tuple t) rowConv ≠ none ∧
    createRow key (.tuple t) rowConv ≠ some (.ok none) := by
  unfold createRow
  simp only [IsNull, Value.assertTuple, Bool.false_eq_true, if_false]
  cases rowConv.FromNoms key t with
  | error err => simp
  | ok srcData =>
    simp only
    cases rowConv.Convert srcData with
    | error err => simp
    | ok row => simp

theorem buffer_bounds {T R Err : Type} (cr : ConflictReader T R Err) (b o t : Option R)
    (hc : cr.currIdx = 0) :
    (cr.buffer b o t).confItr = cr.confItr ∧ (cr.buffer b o t).currIdx ≤ 3 := by
  unfold ConflictReader.buffer
  simp only [hc]
  split
  · split
    · exact ⟨rfl, by simp⟩
    · split
      · exact ⟨rfl, by simp⟩
      · exact ⟨rfl, by simp⟩
  · split <;> split <;> exact ⟨rfl, by first | (simp; done) | (simp; omega) | omega⟩

theorem read_of_ne {T R Err : Type} (cr : ConflictReader T R Err) (h : cr.currIdx ≠ 0) :
    cr.read = .inr cr := by
  unfold ConflictReader.read
  rw [if_neg h]

theorem read_inr {T R Err : Type} (cr cr1 : ConflictReader T R Err) (hr : cr.read = .inr cr1) :
    cr1 = cr ∨ (cr1.confItr.length + 1 = cr.confItr.length ∧ cr1.currIdx ≤ 3) := by
  unfold ConflictReader.read at hr
  by_cases hc : cr.currIdx = 0
  · rw [if_pos hc] at hr
    cases hi : cr.confItr with
    | nil => simp [hi] at hr
    | cons e rest =>
      simp only [hi] at hr
      right
      have hb : ∀ (b o t : Option R),
          ((ConflictReader.mk rest cr.baseConv cr.conv cr.mergeConv cr.bufferedRows
            cr.currIdx).buffer b o t).confItr.length + 1 = (e :: rest).length ∧
          ((ConflictReader.mk rest cr.baseConv cr.conv cr.mergeConv cr.bufferedRows
            cr.currIdx).buffer b o t).currIdx ≤ 3 := by
        intro b o t
        have := buffer_bounds (ConflictReader.mk rest cr.baseConv cr.conv cr.mergeConv
          cr.bufferedRows cr.currIdx) b o t hc
        rw [this.1]
        exact ⟨rfl, this.2⟩
      repeat' split at hr
      all_goals first
        | (simp only [Sum.inr.injEq] at hr; rw [← hr]; exact hb _ _ _)
        | simp at hr
  · rw [if_neg hc] at hr
    simp only [Sum.inr.injEq] at hr
    exact Or.inl hr.symm

theorem get?_bounds {R : Type} (b : RowBuffer R) (i : Int) (x : RowWithProps R)
    (h : b.get? i = some x) : 0 ≤ i ∧ i ≤ 2 := by
  unfold RowBuffer.get? at h
  by_cases h0 : i = 0
  · omega
  · by_cases h1 : i = 1
    · omega
    · by_cases h2 : i = 2
      · omega
      · simp [h0, h1, h2] at h

theorem NextConflict_loop_isSome {T R Err : Type} :
    ∀ (fuel : Nat) (cr : ConflictReader T R Err),
    4 * cr.confItr.length + cr.currIdx.toNat + 1 ≤ fuel →
    (NextConflict_loop fuel cr).isSome = true := by
  intro fuel
  induction fuel with
  | zero => intro cr h; omega
  | succ fuel ih =>
    intro cr h
    unfold NextConflict_loop
    cases hr : cr.read with
    | inl out => rfl
    | inr cr1 =>
      simp only
      cases hg : cr1.bufferedRows.get? (cr1.currIdx - 1) with
      | none => rfl
      | some result =>
        simp only
        cases hrow : result.Row with
        | some row => rfl
        | none =>
          simp only
          apply ih
          have hidx := get?_bounds _ _ _ hg
          have hlen := read_inr cr cr1 hr
          show 4 * cr1.confItr.length + (cr1.currIdx - 1).toNat + 1 ≤ fuel
          rcases hlen with hlen | hlen
          · subst hlen
            omega
          · omega

theorem NextConflict_loop_mono {T R Err : Type} :
    ∀ (fuel k : Nat) (cr : ConflictReader T R Err)
    (x : Ret R Err × ConflictReader T R Err),
    NextConflict_loop fuel cr = some x → NextConflict_loop (fuel + k) cr = some x := by
  intro fuel
  induction fuel with
  | zero => intro k cr x h; simp [NextConflict_loop] at h
  | succ fuel ih =>
    intro k cr x h
    have e : fuel + 1 + k = (fuel + k) + 1 := by omega
    rw [e]
    unfold NextConflict_loop at h ⊢
    cases hr : cr.read with
    | inl out => simpa [hr] using h
    | inr cr1 =>
      simp only [hr] at h ⊢
      cases hg : cr1.bufferedRows.get? (cr1.currIdx - 1) with
      | none => simpa [hg] using h
      | some result =>
        simp only [hg] at h ⊢
        cases hrow : result.Row with
        | some row => simpa [hrow] using h
        | none =>
          simp only [hrow] at h ⊢
          exact ih k _ x h

/-- The call returns or panics: the rounds given to the loop never run out. -/
theorem NextConflict_returns {T R Err : Type} (cr : ConflictReader T R Err) :
    (NextConflict cr).isSome = true :=
  NextConflict_loop_isSome _ cr (Nat.le_refl _)

theorem NextConflict_eq_loop {T R Err : Type} (cr : ConflictReader T R Err) (fuel : Nat)
    (h : 4 * cr.confItr.length + cr.currIdx.toNat + 1 ≤ fuel) :
    NextConflict_loop fuel cr = NextConflict cr := by
  obtain ⟨x, hx⟩ := Option.isSome_iff_exists.mp (NextConflict_returns cr)
  obtain ⟨k, hk⟩ := Nat.exists_eq_add_of_le h
  rw [hx, hk]
  exact NextConflict_loop_mono _ k cr x hx

/-- An entry that is read and converted without an error and whose merge value
is a tuple: the calls up to the next read of the iterator return the rows
buffered for it, each once and in the order C22 gives, and leave the index at
0. -/
theorem NextConflict_entry_rows {T R Err : Type} (e : Entry T Err) (rest : List (Entry T Err))
    (baseConv conv mergeConv : RowConverter T R Err) (bufs : RowBuffer R)
    (keyTpl valueTpl mergeTpl : T) (conflict : Conflict T) (baseRow r : Option R) (mergeRow : R)
    (herr : e.err = none) (hkey : e.key = .tuple keyTpl) (hvalue : e.value = .tuple valueTpl)
    (hconf : e.conflict = .ok conflict)
    (hbase : createRow keyTpl conflict.Base baseConv = some (.ok baseRow))
    (hours : createRow keyTpl conflict.Value conv = some (.ok r))
    (hmerge : conflict.MergeValue = .tuple mergeTpl)
    (htheirs : createRow keyTpl (.tuple mergeTpl) mergeConv = some (.ok (some mergeRow))) :
    ∃ cr1, NextConflict_calls (claimedRows baseRow r mergeRow : List (Ret R Err)).length
        ⟨e :: rest, baseConv, conv, mergeConv, bufs, 0⟩
        = some (claimedRows baseRow r mergeRow, cr1) ∧
      cr1.currIdx = 0 ∧ cr1.confItr = rest := by
  have hread : (ConflictReader.mk (e :: rest) baseConv conv mergeConv bufs 0).read
      = .inr ((ConflictReader.mk rest baseConv conv mergeConv bufs 0).buffer baseRow r
          (some mergeRow)) := by
    simp [ConflictReader.read, herr, hkey, hvalue, hconf, hbase, hours, hmerge, htheirs,
      Value.assertTuple]
  rcases baseRow with _ | b <;> rcases r with _ | o <;>
    simp [claimedRows, NextConflict_calls, NextConflict, NextConflict_loop, hread,
      read_of_ne, ConflictReader.buffer, RowBuffer.get?, NewRowWithProps]

theorem NextConflict_of_read_inl {T R Err : Type} (cr : ConflictReader T R Err)
    (out : Ret R Err × ConflictReader T R Err) (h : cr.read = .inl out) :
    NextConflict cr = some out := by
  unfold NextConflict NextConflict_loop
  rw [h]

/-- What the read of one entry comes to: it ends the call before a row is
buffered, with `io.EOF`, an error or the panic of a type assertion, or every
step succeeds and the merge value is a tuple with a row. -/
theorem read_cases {T R Err : Type} (e : Entry T Err) (rest : List (Entry T Err))
    (baseConv conv mergeConv : RowConverter T R Err) (bufs : RowBuffer R) :
    (∃ ret, (ConflictReader.mk (e :: rest) baseConv conv mergeConv bufs 0).read
        = .inl (ret, ⟨rest, baseConv, conv, mergeConv, bufs, 0⟩) ∧
      (ret = .eof ∨ ret = .typePanic ∨ ∃ err, ret = .err err)) ∨
    (∃ (keyTpl valueTpl mergeTpl : T) (conflict : Conflict T) (baseRow r : Option R)
      (mergeRow : R),
      e.err = none ∧ e.key = .tuple keyTpl ∧ e.value = .tuple valueTpl ∧
      e.conflict = .ok conflict ∧
      createRow keyTpl conflict.Base baseConv = some (.ok baseRow) ∧
      createRow keyTpl conflict.Value conv = some (.ok r) ∧
      conflict.MergeValue = .tuple mergeTpl ∧
      createRow keyTpl (.tuple mergeTpl) mergeConv = some (.ok (some mergeRow))) := by
  cases herr : e.err with
  | some err => left; exact ⟨.err err, by simp [ConflictReader.read, herr], by simp⟩
  | none =>
  cases hkey : e.key with
  | nil => left; exact ⟨.eof, by simp [ConflictReader.read, herr, hkey], by simp⟩
  | null =>
    left
    exact ⟨.typePanic, by simp [ConflictReader.read, herr, hkey, Value.assertTuple], by simp⟩
  | tuple keyTpl =>
  cases hvalue : e.value with
  | nil =>
    left
    exact ⟨.typePanic, by simp [ConflictReader.read, herr, hkey, hvalue, Value.assertTuple],
      by simp⟩
  | null =>
    left
    exact ⟨.typePanic, by simp [ConflictReader.read, herr, hkey, hvalue, Value.assertTuple],
      by simp⟩
  | tuple valueTpl =>
  cases hconf : e.conflict with
  | error err =>
    left
    exact ⟨.err err, by simp [ConflictReader.read, herr, hkey, hvalue, hconf,
      Value.assertTuple], by simp⟩
  | ok conflict =>
  cases hbase : createRow keyTpl conflict.Base baseConv with
  | none =>
    left
    exact ⟨.typePanic, by simp [ConflictReader.read, herr, hkey, hvalue, hconf, hbase,
      Value.assertTuple], by simp⟩
  | some xb =>
  cases xb with
  | error err =>
    left
    exact ⟨.err err, by simp [ConflictReader.read, herr, hkey, hvalue, hconf, hbase,
      Value.assertTuple], by simp⟩
  | ok baseRow =>
  cases hours : createRow keyTpl conflict.Value conv with
  | none =>
    left
    exact ⟨.typePanic, by simp [ConflictReader.read, herr, hkey, hvalue, hconf, hbase, hours,
      Value.assertTuple], by simp⟩
  | some xo =>
  cases xo with
  | error err =>
    left
    exact ⟨.err err, by simp [ConflictReader.read, herr, hkey, hvalue, hconf, hbase, hours,
      Value.assertTuple], by simp⟩
  | ok r =>
  cases hmerge : conflict.MergeValue with
  | nil =>
    left
    exact ⟨.typePanic, by simp [ConflictReader.read, herr, hkey, hvalue, hconf, hbase, hours,
      hmerge, Value.assertTuple], by simp⟩
  | null =>
    left
    exact ⟨.typePanic, by simp [ConflictReader.read, herr, hkey, hvalue, hconf, hbase, hours,
      hmerge, Value.assertTuple], by simp⟩
  | tuple mergeTpl =>
  cases htheirs : createRow keyTpl (.tuple mergeTpl) mergeConv with
  | none => exact absurd htheirs (createRow_tuple keyTpl mergeTpl mergeConv).1
  | some xt =>
  cases xt with
  | error err =>
    left
    exact ⟨.err err, by simp [ConflictReader.read, herr, hkey, hvalue, hconf, hbase, hours,
      hmerge, htheirs, Value.assertTuple], by simp⟩
  | ok mergeRow =>
  cases mergeRow with
  | none => exact absurd htheirs (createRow_tuple keyTpl mergeTpl mergeConv).2
  | some mergeRow =>
    right
    exact ⟨keyTpl, valueTpl, mergeTpl, conflict, baseRow, r, mergeRow, rfl, rfl, rfl, rfl,
      hbase, hours, hmerge, htheirs⟩

/-- C22: `NextConflict` emits each row of a conflict entry exactly once.  For
every reader whose index is 0, whatever rows its buffer holds from earlier
entries, and every entry the iterator gives next: either the call ends before
a row is buffered, with `io.EOF`, an error or the panic of a type assertion,
and leaves the buffer as it was; or the calls up to the next read of the
iterator return the rows buffered for the entry, each once: base, theirs,
ours when the base row is present, and ours, theirs when it is absent.  The
second case is the one of every entry that is read and converted without an
error and whose merge value is a tuple.  An entry whose merge value is no tuple
(the row of theirs is absent) panics in the type assertion on it.  No call
returns a row of an earlier entry or indexes `bufferedRows` outside `0..2`. -/
theorem NextConflict_each_row_once {T R Err : Type} (e : Entry T Err)
    (rest : List (Entry T Err)) (baseConv conv mergeConv : RowConverter T R Err)
    (bufs : RowBuffer R) :
    ((∃ ret, NextConflict ⟨e :: rest, baseConv, conv, mergeConv, bufs, 0⟩
          = some (ret, ⟨rest, baseConv, conv, mergeConv, bufs, 0⟩) ∧
        (ret = .eof ∨ ret = .typePanic ∨ ∃ err, ret = .err err)) ∨
      (∃ (baseRow r : Option R) (mergeRow : R) (cr1 : ConflictReader T R Err),
        NextConflict_calls (claimedRows baseRow r mergeRow : List (Ret R Err)).length
            ⟨e :: rest, baseConv, conv, mergeConv, bufs, 0⟩
          = some (claimedRows baseRow r mergeRow, cr1) ∧
        cr1.currIdx = 0 ∧ cr1.confItr = rest)) ∧
    (∀ (keyTpl valueTpl mergeTpl : T) (conflict : Conflict T) (baseRow r : Option R)
      (mergeRow : R),
      e.err = none → e.key = .tuple keyTpl → e.value = .tuple valueTpl →
      e.conflict = .ok conflict →
      createRow keyTpl conflict.Base baseConv = some (.ok baseRow) →
      createRow keyTpl conflict.Value conv = some (.ok r) →
      conflict.MergeValue = .tuple mergeTpl →
      createRow keyTpl (.tuple mergeTpl) mergeConv = some (.ok (some mergeRow)) →
      ∃ cr1, NextConflict_calls (claimedRows baseRow r mergeRow : List (Ret R Err)).length
            ⟨e :: rest, baseConv, conv, mergeConv, bufs, 0⟩
          = some (claimedRows baseRow r mergeRow, cr1) ∧
        cr1.currIdx = 0 ∧ cr1.confItr = rest) ∧
    (∀ (keyTpl valueTpl : T) (conflict : Conflict T) (baseRow r : Option R),
      e.err = none → e.key = .tuple keyTpl → e.value = .tuple valueTpl →
      e.conflict = .ok conflict →
      createRow keyTpl conflict.Base baseConv = some (.ok baseRow) →
      createRow keyTpl conflict.Value conv = some (.ok r) →
      conflict.MergeValue.assertTuple = none →
      NextConflict ⟨e :: rest, baseConv, conv, mergeConv, bufs, 0⟩
        = some (.typePanic, ⟨rest, baseConv, conv, mergeConv, bufs, 0⟩)) := by
  refine ⟨?_, ?_, ?_⟩
  · rcases read_cases e rest baseConv conv mergeConv bufs with
      ⟨ret, hread, hret⟩ | ⟨keyTpl, valueTpl, mergeTpl, conflict, baseRow, r, mergeRow, herr,
        hkey, hvalue, hconf, hbase, hours, hmerge, htheirs⟩
    · exact Or.inl ⟨ret, NextConflict_of_read_inl _ _ hread, hret⟩
    · right
      obtain ⟨cr1, h1, h2, h3⟩ := NextConflict_entry_rows e rest baseConv conv mergeConv bufs
        keyTpl valueTpl mergeTpl conflict baseRow r mergeRow herr hkey hvalue hconf hbase hours
        hmerge htheirs
      exact ⟨baseRow, r, mergeRow, cr1, h1, h2, h3⟩
  · intro keyTpl valueTpl mergeTpl conflict baseRow r mergeRow herr hkey hvalue hconf hbase
      hours hmerge htheirs
    exact NextConflict_entry_rows e rest baseConv conv mergeConv bufs keyTpl valueTpl mergeTpl
      conflict baseRow r mergeRow herr hkey hvalue hconf hbase hours hmerge htheirs
  · intro keyTpl valueTpl conflict baseRow r herr hkey hvalue hconf hbase hours hmerge
    apply NextConflict_of_read_inl
    cases hm : conflict.MergeValue with
    | tuple t => rw [hm] at hmerge; simp [Value.assertTuple] at hmerge
    | nil =>
      simp [ConflictReader.read, herr, hkey, hvalue, hconf, hbase, hours, hm,
        Value.assertTuple]
    | null =>
      simp [ConflictReader.read, herr, hkey, hvalue, hconf, hbase, hours, hm,
        Value.assertTuple]

theorem NextConflict_each_row_once_witness :
    ∃ cr1, NextConflict_calls (claimedRows none (some 21) 22 : List (Ret Nat Unit)).length
        ⟨[plainEntry .null (.tuple 21) (.tuple 22)], plainConv, plainConv, plainConv,
          ⟨⟨some 99, NoProps⟩, ⟨some 98, NoProps⟩, ⟨some 97, NoProps⟩⟩, 0⟩
        = some (claimedRows none (some 21) 22, cr1) ∧
      cr1.currIdx = 0 ∧ cr1.confItr = [] :=
  (NextConflict_each_row_once (plainEntry .null (.tuple 21) (.tuple 22)) [] plainConv plainConv
    plainConv ⟨⟨some 99, NoProps⟩, ⟨some 98, NoProps⟩, ⟨some 97, NoProps⟩⟩).2.1
    1 0 22 ⟨.null, .tuple 21, .tuple 22⟩ none (some 21) 22 rfl rfl rfl rfl rfl rfl rfl rfl

/-- Four entries, evaluated (tuples and rows are numbers).  All three rows
present: base 10, theirs 12, ours 11.  Base absent: ours 21, theirs 22.  Ours
absent: base 30, theirs 32, and the base row again as the removed row of ours.
Theirs absent (a null merge value): the call panics in the type assertion, and
the rows 40 and 41 are not returned. -/
theorem NextConflict_scenario :
    (NextConflict_calls 9 (NewConflictReader
        [plainEntry (.tuple 10) (.tuple 11) (.tuple 12),
         plainEntry .null (.tuple 21) (.tuple 22),
         plainEntry (.tuple 30) .null (.tuple 32),
         plainEntry (.tuple 40) (.tuple 41) .null] plainConv plainConv plainConv)).map Prod.fst
      = some [.row 10 ⟨some .BaseVersion, none⟩,
          .row 12 ⟨some .TheirVersion, some .DiffChangeModified⟩,
          .row 11 ⟨some .OurVersion, some .DiffChangeModified⟩,
          .row 21 ⟨some .OurVersion, some .DiffChangeAdded⟩,
          .row 22 ⟨some .TheirVersion, some .DiffChangeAdded⟩,
          .row 30 ⟨some .BaseVersion, none⟩,
          .row 32 ⟨some .TheirVersion, some .DiffChangeModified⟩,
          .row 30 ⟨some .OurVersion, some .DiffChangeRemoved⟩,
          .typePanic] := by
  decide

end merge
